import Mathlib

/-!
# Automorphism pruner and ordered view of `graph_canon`

A shallow embedding of `aut_pruner_base` (`aut/pruner_base.hpp`) and of the adaptor
`ordered_graph` (`ordered_graph.hpp`), and a verification development on them.

* Tree nodes live in an arena `Nat → TreeNode`; a `TreeNode*` is an `Option Nat`
  (`none` is `nullptr`).
* `SizeType` values that are used as indices are `Nat`; `num_roots` and the
  sentinel-carrying `canon_child_local_idx` are `Int` (the source writes `-1` and
  decrements without a guard).
* Code that can fail returns `Except Fault`: a failed `assert`, a dereferenced
  null pointer, a vector access outside its bounds, or a loop that used up its fuel.
* The callbacks of the derived class (`add_automorphism`, `need_update`, `update`)
  are the fields of `Derived`; they own a state of type `G` and may read the tree.
* Every callback invocation and every `prune_subtree` invocation is appended to
  `State.trace`.
* The adapted graph of the ordered view is the record `Graph` of what the Boost graph
  functions enumerate; `std::sort` is a parameter of the constructors, constrained by the
  contract `sorts`.
-/

namespace GraphCanon

/-- Reasons for which a run of the embedded code stops without a result. -/
inductive Fault where
  | assertion
  | null_deref
  | out_of_bounds
  | out_of_fuel
  deriving DecidableEq, Repr

/-- Automorphisms are consumed only through `perm_group::get(aut, v)`. -/
abbrev Perm := Nat → Nat

/-- The ordered partition of a tree node, as far as the pruner reads it:
`pi.get` (`pi.begin()[i]`), `pi.get_inverse` (`pi.begin_inverse()[v]`) and `pi.get_cell_end`. -/
structure Partition where
  get : Nat → Nat
  get_inverse : Nat → Nat
  get_cell_end : Nat → Nat

/-- The per-node data of the pruner, `aut_pruner_base::tree_data`. -/
structure tree_data where
  child_count : Nat
  parent : List Nat
  num_roots : Int

/-- The part of a search-tree node the pruner reads and writes. -/
structure TreeNode where
  get_parent : Option Nat
  level : Nat
  pi : Partition
  child_refiner_cell : Nat
  child_individualized_position : Nat
  children : List (Option Nat)
  child_pruned : List Bool
  is_pruned : Bool
  data : tree_data

/-- Calls leaving the pruner: the three callbacks of the derived class and
`TreeNode::prune_subtree`.  `update` carries the range it returned. -/
inductive Event where
  | add_automorphism (t : Nat)
  | need_update (t : Nat)
  | update (t : Nat) (new_auts : List Perm)
  | prune_subtree (t : Nat)

/-- The callbacks required from the derived class (CRTP), over a state `G` of their own. -/
structure Derived (G : Type) where
  add_automorphism : G → (Nat → TreeNode) → Nat → Perm → G
  need_update : G → (Nat → TreeNode) → Nat → Bool × G
  update : G → (Nat → TreeNode) → Nat → List Perm × G

/-- The canonicalization state seen by the pruner: the tree, the canonical leaf,
the state of the derived class, the two buffers of `instance_data`, and the trace. -/
structure State (G : Type) where
  nodes : Nat → TreeNode
  canon_leaf : Option Nat
  g : G
  t_path : List Nat
  c_path : List Nat
  trace : List Event

/-- Bounds-checked read of a vector. -/
def rd {α : Type} (xs : List α) (i : Nat) : Except Fault α :=
  match xs[i]? with
  | some x => .ok x
  | none => .error .out_of_bounds

/-- Bounds-checked write of a vector. -/
def wr {α : Type} (xs : List α) (i : Nat) (x : α) : Except Fault (List α) :=
  if i < xs.length then .ok (xs.set i x) else .error .out_of_bounds

/-- Whether `a` is reached from `m` in at most `fuel` steps of `get_parent`. -/
def reaches (nodes : Nat → TreeNode) (a : Nat) : Nat → Nat → Bool
  | 0, m => decide (m = a)
  | fuel + 1, m =>
    if m = a then true
    else match (nodes m).get_parent with
      | none => false
      | some p => reaches nodes a fuel p

/-- Ancestor-or-self test along parent pointers; a node of level `l` has at most `l` proper
ancestors. -/
def is_ancestor_or_self (nodes : Nat → TreeNode) (a m : Nat) : Bool :=
  reaches nodes a (nodes m).level m

/-- Modelled from the spec: `TreeNode::prune_subtree` is not part of the sources.  Section 4.4:
"it marks the node and all descendants pruned [...] It does not recursively call back into the
pruner."  The call is recorded in the trace. -/
def prune_subtree {G : Type} (s : State G) (t : Nat) : State G :=
  { s with
    nodes := fun m =>
      if is_ancestor_or_self s.nodes t m then { s.nodes m with is_pruned := true } else s.nodes m
    trace := s.trace ++ [Event.prune_subtree t] }

/-- The hook `tree_create_node_begin`: count the new child at its parent; returns `true`. -/
def tree_create_node_begin {G : Type} (s : State G) (t : Nat) : Bool × State G :=
  match (s.nodes t).get_parent with
  | some p =>
    let p_data := (s.nodes p).data
    let p_data1 : tree_data := { p_data with child_count := p_data.child_count + 1 }
    (true, { s with nodes := Function.update s.nodes p { s.nodes p with data := p_data1 } })
  | none => (true, s)

/-- The loop `while(a->level > lvl) a = a->get_parent();`; stepping to a null parent makes the
next test dereference `nullptr`. -/
def level_up (nodes : Nat → TreeNode) (lvl : Nat) : Nat → Nat → Except Fault Nat
  | 0, a => if (nodes a).level > lvl then .error .out_of_fuel else .ok a
  | fuel + 1, a =>
    if (nodes a).level > lvl then
      match (nodes a).get_parent with
      | none => .error .null_deref
      | some p => level_up nodes lvl fuel p
    else .ok a

/-- The loop `while(tCanon->get_parent() != tAut->get_parent()) { both step up }`. -/
def lockstep_up (nodes : Nat → TreeNode) : Nat → Nat → Nat → Except Fault (Nat × Nat)
  | 0, tCanon, tAut =>
    if (nodes tCanon).get_parent ≠ (nodes tAut).get_parent then .error .out_of_fuel
    else .ok (tCanon, tAut)
  | fuel + 1, tCanon, tAut =>
    if (nodes tCanon).get_parent ≠ (nodes tAut).get_parent then
      match (nodes tCanon).get_parent, (nodes tAut).get_parent with
      | some pc, some pa => lockstep_up nodes fuel pc pa
      | _, _ => .error .null_deref
    else .ok (tCanon, tAut)

/-- The hook `automorphism_leaf`: store the automorphism, walk to the children of the lowest
common ancestor of `t` and the canonical leaf, prune the one on the side of `t`. -/
def automorphism_leaf {G : Type} (d : Derived G) (fuel : Nat) (s : State G) (t : Nat)
    (aut : Perm) : Except Fault (State G) :=
  let s1 : State G :=
    { s with g := d.add_automorphism s.g s.nodes t aut
             trace := s.trace ++ [Event.add_automorphism t] }
  match s1.canon_leaf with
  | none => .error .null_deref
  | some tCanon0 =>
    let tAut0 := t
    if (s1.nodes tCanon0).get_parent = none then .error .assertion else
    if (s1.nodes tAut0).get_parent = none then .error .assertion else
    if tCanon0 = tAut0 then .error .assertion else
    match level_up s1.nodes (s1.nodes tAut0).level fuel tCanon0 with
    | .error e => .error e
    | .ok tCanon1 =>
      match level_up s1.nodes (s1.nodes tCanon1).level fuel tAut0 with
      | .error e => .error e
      | .ok tAut1 =>
        if tCanon1 = tAut1 then .error .assertion else
        if (s1.nodes tCanon1).get_parent = none then .error .assertion else
        if (s1.nodes tAut1).get_parent = none then .error .assertion else
        match lockstep_up s1.nodes fuel tCanon1 tAut1 with
        | .error e => .error e
        | .ok (tCanon2, tAut2) =>
          if tCanon2 = tAut2 then .error .assertion else
          .ok (prune_subtree s1 tAut2)

/-- The hook `automorphism_implicit`: store the automorphism, nothing else. -/
def automorphism_implicit {G : Type} (d : Derived G) (s : State G) (t : Nat) (aut : Perm)
    (_tag : Nat) : State G :=
  { s with g := d.add_automorphism s.g s.nodes t aut
           trace := s.trace ++ [Event.add_automorphism t] }

/-- The lambda `find_root` of `tree_before_descend`: find with path halving on `parent`.
Returns the root and the array after the compression writes. -/
def find_root : Nat → List Nat → Nat → Except Fault (Nat × List Nat)
  | 0, _, _ => .error .out_of_fuel
  | fuel + 1, parent, self =>
    match rd parent self with
    | .error e => .error e
    | .ok p =>
      if p = self then .ok (self, parent) else
      match rd parent p with
      | .error e => .error e
      | .ok pp =>
        if pp = p then .ok (p, parent) else
        match wr parent self pp with
        | .error e => .error e
        | .ok parent1 => find_root fuel parent1 p

/-- Lines 320-330 of `per_point`: which of the two distinct roots stays the root.
Returns `(new_root, other)`. -/
def merge_order (canon_child_local_idx : Int) (child_pruned : List Bool)
    (root root_image : Nat) : Except Fault (Nat × Nat) :=
  if (root : Int) = canon_child_local_idx then .ok (root, root_image)
  else if (root_image : Int) = canon_child_local_idx then .ok (root_image, root)
  else
    match rd child_pruned root with
    | .error e => .error e
    | .ok true => .ok (root_image, root)
    | .ok false => if root_image < root then .ok (root_image, root) else .ok (root, root_image)

/-- Replace the node `a` of the arena. -/
def State.set_node {G : Type} (s : State G) (a : Nat) (nd : TreeNode) : State G :=
  { s with nodes := Function.update s.nodes a nd }

/-- The lambda `per_point` of `tree_before_descend`, for the node `a_t`: `pi_inv_begin` and
`cell_begin` are the values captured before the loops. -/
def per_point {G : Type} (fuel : Nat) (canon_child_local_idx : Int) (a_t : Nat)
    (pi_inv_begin : Nat → Nat) (cell_begin : Nat) (s : State G)
    (idx_local v_image_idx : Nat) : Except Fault (State G) :=
  let nd := s.nodes a_t
  let image_idx := pi_inv_begin v_image_idx
  if image_idx < cell_begin then .error .assertion else
  if nd.pi.get_cell_end cell_begin ≤ image_idx then .error .assertion else
  let image_idx_local := image_idx - cell_begin
  match find_root fuel nd.data.parent idx_local with
  | .error e => .error e
  | .ok (root, parent1) =>
    match find_root fuel parent1 image_idx_local with
    | .error e => .error e
    | .ok (root_image, parent2) =>
      if root = root_image then
        .ok (s.set_node a_t { nd with data := { nd.data with parent := parent2 } })
      else
        match merge_order canon_child_local_idx nd.child_pruned root root_image with
        | .error e => .error e
        | .ok (new_root, other) =>
          match wr parent2 other new_root with
          | .error e => .error e
          | .ok parent3 =>
            match wr nd.child_pruned other true with
            | .error e => .error e
            | .ok child_pruned1 =>
              let s1 := s.set_node a_t
                { nd with
                  data := { nd.data with parent := parent3, num_roots := nd.data.num_roots - 1 }
                  child_pruned := child_pruned1 }
              match rd nd.children other with
              | .error e => .error e
              | .ok none => .ok s1
              | .ok (some child) => .ok (prune_subtree s1 child)

/-- The loop over the target cell (lines 354-362) for one generator; `remaining` counts the
indices from `idx_local` up to `num_children`. -/
def scan_cell {G : Type} (fuel : Nat) (canon_child_local_idx : Int) (a_t : Nat)
    (pi_begin pi_inv_begin : Nat → Nat) (cell_begin : Nat) (aut : Perm) :
    Nat → Nat → State G → Except Fault (State G)
  | 0, _, s => .ok s
  | remaining + 1, idx_local, s =>
    let idx := idx_local + cell_begin
    let v_idx := pi_begin idx
    let v_image_idx := aut v_idx
    if v_idx = v_image_idx then
      scan_cell fuel canon_child_local_idx a_t pi_begin pi_inv_begin cell_begin aut
        remaining (idx_local + 1) s
    else
      match per_point fuel canon_child_local_idx a_t pi_inv_begin cell_begin s
          idx_local v_image_idx with
      | .error e => .error e
      | .ok s1 =>
        if (s1.nodes a_t).data.num_roots = 0 then .ok s1
        else scan_cell fuel canon_child_local_idx a_t pi_begin pi_inv_begin cell_begin aut
          remaining (idx_local + 1) s1

/-- The loop over the new generators (lines 290-366). -/
def scan_auts {G : Type} (fuel : Nat) (canon_child_local_idx : Int) (a_t : Nat)
    (pi_begin pi_inv_begin : Nat → Nat) (cell_begin num_children : Nat) :
    List Perm → State G → Except Fault (State G)
  | [], s => .ok s
  | aut :: rest, s =>
    match scan_cell fuel canon_child_local_idx a_t pi_begin pi_inv_begin cell_begin aut
        num_children 0 s with
    | .error e => .error e
    | .ok s1 =>
      if (s1.nodes a_t).data.num_roots = 0 then .ok s1
      else scan_auts fuel canon_child_local_idx a_t pi_begin pi_inv_begin cell_begin
        num_children rest s1

/-- The lambda `canon_child_local_idx` (lines 258-275): the local index that must not be
pruned at `a_t`, or `-1`; it may clear `c_path`. -/
def canon_child_local_idx {G : Type} (s : State G) (a_t : Nat) : Except Fault (Int × State G) :=
  match s.c_path.getLast? with
  | none => .ok (-1, s)
  | some back =>
    if back ≠ a_t then .ok (-1, { s with c_path := [] })
    else if s.c_path.length ≤ 1 then .error .assertion
    else
      match rd s.c_path (s.c_path.length - 2) with
      | .error e => .error e
      | .ok c2 =>
        let canon_child_v_idx :=
          (s.nodes c2).pi.get (s.nodes back).child_individualized_position
        let canon_child_idx := (s.nodes back).pi.get_inverse canon_child_v_idx
        .ok ((canon_child_idx : Int) - ((s.nodes back).child_refiner_cell : Int), s)

/-- The body of the main loop (lines 224-380) for `a_t = t_path.back()`.  The flag tells
whether the body left the loop with `break`. -/
def process_node {G : Type} (d : Derived G) (fuel : Nat) (s : State G) (a_t : Nat) :
    Except Fault (State G × Bool) :=
  if (s.nodes a_t).is_pruned then .ok (s, true) else
  let new_auts := (d.update s.g s.nodes a_t).1
  let s1 : State G :=
    { s with g := (d.update s.g s.nodes a_t).2
             trace := s.trace ++ [Event.update a_t new_auts] }
  if new_auts.isEmpty then
    if (s1.nodes a_t).get_parent.isSome then .ok (s1, true) else .ok (s1, false)
  else
    let nd := s1.nodes a_t
    let num_children := nd.children.length
    let init : Option (State G) :=
      if nd.data.parent.isEmpty then
        some (s1.set_node a_t { nd with data := { nd.data with
          parent := List.range num_children, num_roots := (num_children : Int) - 1 } })
      else if nd.data.num_roots = 0 then none
      else some s1
    match init with
    | none => .ok (s1, false)
    | some s2 =>
      match canon_child_local_idx s2 a_t with
      | .error e => .error e
      | .ok (canon, s3) =>
        let cell_begin := (s3.nodes a_t).child_refiner_cell
        let pi_begin := (s3.nodes a_t).pi.get
        let pi_inv_begin := (s3.nodes a_t).pi.get_inverse
        match scan_auts fuel canon a_t pi_begin pi_inv_begin cell_begin num_children
            new_auts s3 with
        | .error e => .error e
        | .ok s4 => .ok (s4, false)

/-- The lambda `next_iteration`: pop both paths. -/
def next_iteration {G : Type} (s : State G) : State G :=
  { s with c_path := if s.c_path.isEmpty then s.c_path else s.c_path.dropLast
           t_path := s.t_path.dropLast }

/-- The main loop `for(; !t_path.empty(); next_iteration())`; every round pops `t_path`, so
`t_path.size()` rounds are enough. -/
def descend_loop {G : Type} (d : Derived G) (fuel : Nat) : Nat → State G → Except Fault (State G)
  | 0, s => if s.t_path.isEmpty then .ok s else .error .out_of_fuel
  | rounds + 1, s =>
    match s.t_path.getLast? with
    | none => .ok s
    | some a_t =>
      match process_node d fuel s a_t with
      | .error e => .error e
      | .ok (s1, true) => .ok s1
      | .ok (s1, false) => descend_loop d fuel rounds (next_iteration s1)

/-- The two loops of lines 201-208: walk up from `a` while `need_update` holds, pushing the
visited nodes to the back of `path`. -/
def collect_path {G : Type} (d : Derived G) :
    Nat → Option Nat → State G → List Nat → Except Fault (State G × List Nat)
  | _, none, s, path => .ok (s, path)
  | 0, some _, _, _ => .error .out_of_fuel
  | fuel + 1, some a, s, path =>
    let s1 : State G :=
      { s with g := (d.need_update s.g s.nodes a).2
               trace := s.trace ++ [Event.need_update a] }
    if (d.need_update s.g s.nodes a).1 then
      collect_path d fuel (s1.nodes a).get_parent s1 (path ++ [a])
    else .ok (s1, path)

/-- The hook `tree_before_descend`. -/
def tree_before_descend {G : Type} (d : Derived G) (fuel : Nat) (s : State G) (t : Nat) :
    Except Fault (State G) :=
  if (s.nodes t).is_pruned then .ok s else
  if (s.nodes t).data.child_count = 0 then .ok s else
  let s1 : State G :=
    { s with g := (d.need_update s.g s.nodes t).2
             trace := s.trace ++ [Event.need_update t] }
  if !(d.need_update s.g s.nodes t).1 then .ok s1 else
  match collect_path d fuel (some t) { s1 with t_path := [], c_path := [] } [] with
  | .error e => .error e
  | .ok (s2, t_path) =>
    match collect_path d fuel s2.canon_leaf s2 [] with
    | .error e => .error e
    | .ok (s3, c_path) =>
      if t_path.isEmpty then .error .assertion else
      let c_path1 :=
        if !c_path.isEmpty && t_path.getLast? != c_path.getLast? then [] else c_path
      descend_loop d fuel t_path.length { s3 with t_path := t_path, c_path := c_path1 }

/-! ## Reference notions for the statements -/

/-- `AncestorOrSelf nodes a m`: following `get_parent` from `m` zero or more times reaches `a`. -/
inductive AncestorOrSelf (nodes : Nat → TreeNode) : Nat → Nat → Prop
  | refl (a : Nat) : AncestorOrSelf nodes a a
  | step {a p m : Nat} : (nodes m).get_parent = some p → AncestorOrSelf nodes a p →
      AncestorOrSelf nodes a m

/-- The levels of a well-formed tree: nodes without parent have level 0, a child is one level
below its parent. -/
def wf_levels (nodes : Nat → TreeNode) : Prop :=
  (∀ n, (nodes n).get_parent = none → (nodes n).level = 0) ∧
  ∀ n p, (nodes n).get_parent = some p → (nodes n).level = (nodes p).level + 1

/-- Reference definition of the lowest common ancestor: `l` is an ancestor-or-self of both
nodes and no common ancestor-or-self is deeper. -/
def IsLCA (nodes : Nat → TreeNode) (l a b : Nat) : Prop :=
  AncestorOrSelf nodes l a ∧ AncestorOrSelf nodes l b ∧
  ∀ m, AncestorOrSelf nodes m a → AncestorOrSelf nodes m b → (nodes m).level ≤ (nodes l).level

/-! ## A small search tree used to instantiate the theorems

Three vertices `0, 1, 2` in one cell at the root (node `0`); the root has the children
`1, 2, 3` (individualizing vertex `0`, `1`, `2`), the nodes `1` and `2` have two leaves each
(`4, 5` and `6, 7`), the node `3` has no child yet.  In a child the individualized vertex sits
at the position `child_individualized_position` of its parent. -/

/-- The function reading a list, the identity outside of it. -/
def list_fn (l : List Nat) : Nat → Nat := fun i => l.getD i i

/-- A node of the example tree. -/
def ex_node (parent : Option Nat) (level : Nat) (pi pi_inv : List Nat) (cell cell_end : Nat)
    (children : List (Option Nat)) (child_count : Nat) : TreeNode :=
  { get_parent := parent, level := level,
    pi := ⟨list_fn pi, list_fn pi_inv, fun _ => cell_end⟩,
    child_refiner_cell := cell, child_individualized_position := cell,
    children := children, child_pruned := children.map (fun _ => false), is_pruned := false,
    data := ⟨child_count, [], 0⟩ }

/-- The example tree. -/
def ex_nodes : Nat → TreeNode
  | 0 => ex_node none 0 [0, 1, 2] [0, 1, 2] 0 3 [some 1, some 2, some 3] 3
  | 1 => ex_node (some 0) 1 [0, 1, 2] [0, 1, 2] 1 3 [some 4, some 5] 2
  | 2 => ex_node (some 0) 1 [1, 0, 2] [1, 0, 2] 1 3 [some 6, some 7] 2
  | 3 => ex_node (some 0) 1 [2, 0, 1] [1, 2, 0] 1 3 [none, none] 0
  | 4 => ex_node (some 1) 2 [0, 1, 2] [0, 1, 2] 2 3 [] 0
  | 5 => ex_node (some 1) 2 [0, 2, 1] [0, 2, 1] 2 3 [] 0
  | 6 => ex_node (some 2) 2 [1, 0, 2] [1, 0, 2] 2 3 [] 0
  | 7 => ex_node (some 2) 2 [1, 2, 0] [2, 0, 1] 2 3 [] 0
  | _ => ex_node none 0 [] [] 0 0 [] 0

/-- A derived class without state: `need_update` is the predicate `nu`, `update` returns
`auts n` at the node `n`. -/
def ex_derived (nu : Nat → Bool) (auts : Nat → List Perm) : Derived Unit :=
  { add_automorphism := fun g _ _ _ => g
    need_update := fun g _ n => (nu n, g)
    update := fun g _ n => (auts n, g) }

/-- The example state with canonical leaf `cl`. -/
def ex_state (cl : Nat) : State Unit :=
  { nodes := ex_nodes, canon_leaf := some cl, g := (), t_path := [], c_path := [], trace := [] }

/-- The transposition of the vertices `a` and `b`. -/
def transposition (a b : Nat) : Perm := fun v => if v = a then b else if v = b then a else v

/-! ## Reference notions for the union-find data -/

/-- `RootOfN parent n i r`: following `parent` from the in-range index `i`, the self-loop `r`
is reached after exactly `n` steps. -/
inductive RootOfN (parent : List Nat) : Nat → Nat → Nat → Prop
  | root {i : Nat} : parent[i]? = some i → RootOfN parent 0 i i
  | step {n i p r : Nat} : parent[i]? = some p → p ≠ i → RootOfN parent n p r →
      RootOfN parent (n + 1) i r

/-- `r` is the union-find root of `i`. -/
def RootOf (parent : List Nat) (i r : Nat) : Prop := ∃ n, RootOfN parent n i r

/-- The array is a forest: from every index the parent links lead to a self-loop. -/
def Forest (parent : List Nat) : Prop := ∀ i, i < parent.length → ∃ r, RootOf parent i r

/-- The number of self-loops of the array. -/
def count_roots (parent : List Nat) : Nat :=
  ((Finset.range parent.length).filter (fun i => parent[i]? = some i)).card

/-- The `a`-th iterate of the parent link. -/
def climb (parent : List Nat) : Nat → Nat → Nat
  | 0, i => i
  | a + 1, i => climb parent a (parent.getD i i)

/-- `parent'` arises from `parent` by path compression: same length, same self-loops, every
index keeps its root and does not get farther from it. -/
def Compresses (parent parent' : List Nat) : Prop :=
  parent'.length = parent.length ∧ (∀ j : Nat, parent'[j]? = some j ↔ parent[j]? = some j) ∧
  ∀ m j r : Nat, RootOfN parent m j r → ∃ m' : Nat, m' ≤ m ∧ RootOfN parent' m' j r

/-- The state after the writes of a merge at `a_t` (lines 334-336): `parent[other] = new_root`,
`--num_roots`, `child_pruned[other] = true`, on top of the compressed array `parent2`. -/
def merge_writes {G : Type} (s : State G) (a_t : Nat) (parent2 : List Nat)
    (new_root other : Nat) : State G :=
  s.set_node a_t
    { s.nodes a_t with
      data := { (s.nodes a_t).data with
        parent := parent2.set other new_root
        num_roots := (s.nodes a_t).data.num_roots - 1 }
      child_pruned := (s.nodes a_t).child_pruned.set other true }

/-- The state after a complete merge at `a_t`: the writes, then `prune_subtree` on
`children[other]` when that slot holds a node. -/
def merge_result {G : Type} (s : State G) (a_t : Nat) (parent2 : List Nat)
    (new_root other : Nat) : State G :=
  match (s.nodes a_t).children[other]? with
  | some (some child) => prune_subtree (merge_writes s a_t parent2 new_root other) child
  | _ => merge_writes s a_t parent2 new_root other

/-- The state after a `per_point` that found both indices in one class: only the path
compression of `find_root` is written. -/
def compress_result {G : Type} (s : State G) (a_t : Nat) (parent2 : List Nat) : State G :=
  s.set_node a_t { s.nodes a_t with data := { (s.nodes a_t).data with parent := parent2 } }

/-! ## Invariants and step relations -/

/-- The fields of a node the pruner never writes are the same in `a` and `b`. -/
structure static_eq (a b : TreeNode) : Prop where
  get_parent : b.get_parent = a.get_parent
  level : b.level = a.level
  pi : b.pi = a.pi
  child_refiner_cell : b.child_refiner_cell = a.child_refiner_cell
  child_individualized_position :
    b.child_individualized_position = a.child_individualized_position
  children : b.children = a.children
  child_count : b.data.child_count = a.data.child_count

/-- Monotonicity between two states of a node: `child_pruned` bits only go from false to
true, and once the union-find is initialized its length stays, `num_roots` does not grow and
two indices of one class stay in one class. -/
structure node_mono (a b : TreeNode) : Prop where
  bits : ∀ i : Nat, a.child_pruned[i]? = some true → b.child_pruned[i]? = some true
  len_pruned : b.child_pruned.length = a.child_pruned.length
  len_parent : a.data.parent ≠ [] → b.data.parent.length = a.data.parent.length
  num_roots : a.data.parent ≠ [] → b.data.num_roots ≤ a.data.num_roots
  classes : ∀ i j r : Nat, RootOf a.data.parent i r → RootOf a.data.parent j r →
    ∃ r', RootOf b.data.parent i r' ∧ RootOf b.data.parent j r'

/-- The invariant of an initialized union-find of a node: one entry per child slot, a forest,
`num_roots` is the number of roots minus one, and every index that is not a root is marked in
`child_pruned`. -/
structure uf_ok (nd : TreeNode) : Prop where
  len_parent : nd.data.parent.length = nd.children.length
  forest : Forest nd.data.parent
  count : nd.data.num_roots + 1 = (count_roots nd.data.parent : Int)
  nonroot_pruned : ∀ i : Nat, i < nd.data.parent.length → nd.data.parent[i]? ≠ some i →
    nd.child_pruned[i]? = some true

/-- The invariant of a node: `child_pruned` has one bit per child slot, the loops have fuel
for the slots, the target cell has one position per child slot, and the union-find is either
not materialized or satisfies `uf_ok`. -/
structure node_ok (fuel : Nat) (nd : TreeNode) : Prop where
  len_pruned : nd.child_pruned.length = nd.children.length
  fuel_ok : nd.children.length ≤ fuel
  cell_size : 0 < nd.children.length →
    nd.pi.get_cell_end nd.child_refiner_cell = nd.child_refiner_cell + nd.children.length
  uf : nd.data.parent = [] ∨ uf_ok nd

/-- The generator `aut` maps the target cell of `nd` to itself (the two assertions of
`per_point` hold at every position of the cell). -/
def maps_cell (nd : TreeNode) (aut : Perm) : Prop :=
  ∀ i, i < nd.children.length →
    nd.child_refiner_cell ≤ nd.pi.get_inverse (aut (nd.pi.get (i + nd.child_refiner_cell))) ∧
    nd.pi.get_inverse (aut (nd.pi.get (i + nd.child_refiner_cell))) <
      nd.pi.get_cell_end nd.child_refiner_cell

/-- The local index of the image of the `i`-th vertex of the target cell under `aut`. -/
def image_local (nd : TreeNode) (aut : Perm) (i : Nat) : Nat :=
  nd.pi.get_inverse (aut (nd.pi.get (i + nd.child_refiner_cell))) - nd.child_refiner_cell

/-- What the scan of the generators at `a_t` with protected index `canon` may change between
`s` and `s'`. -/
structure scan_rel {G : Type} (a_t : Nat) (canon : Int) (s s' : State G) : Prop where
  g_eq : s'.g = s.g
  canon_leaf_eq : s'.canon_leaf = s.canon_leaf
  t_path_eq : s'.t_path = s.t_path
  c_path_eq : s'.c_path = s.c_path
  static : ∀ m, static_eq (s.nodes m) (s'.nodes m)
  others : ∀ m, m ≠ a_t → (s'.nodes m).data = (s.nodes m).data ∧
    (s'.nodes m).child_pruned = (s.nodes m).child_pruned
  mono : node_mono (s.nodes a_t) (s'.nodes a_t)
  canon_bit : ∀ c : Nat, (c : Int) = canon →
    (s'.nodes a_t).child_pruned[c]? = (s.nodes a_t).child_pruned[c]? ∧
    ((s.nodes a_t).data.parent[c]? = some c → (s'.nodes a_t).data.parent[c]? = some c)
  trace : ∃ evs, s'.trace = s.trace ++ evs ∧
    (∀ e ∈ evs, ∃ (l : Nat) (child : Nat), e = Event.prune_subtree child ∧
      (s.nodes a_t).children[l]? = some (some child) ∧ (l : Int) ≠ canon) ∧
    ∀ m, (s'.nodes m).is_pruned = true → (s.nodes m).is_pruned = true ∨
      ∃ child, Event.prune_subtree child ∈ evs ∧ is_ancestor_or_self s.nodes child m = true

/-- The root of the example tree with its union-find initialized to three singleton classes
and the given `child_pruned` bits. -/
def ex_root_init (child_pruned : List Bool) : TreeNode :=
  { ex_nodes 0 with child_pruned := child_pruned, data := ⟨3, List.range 3, 2⟩ }

/-- The example state with the root's union-find initialized. -/
def ex_state_init (cl : Nat) (child_pruned : List Bool) : State Unit :=
  (ex_state cl).set_node 0 (ex_root_init child_pruned)

/-- The pruner's data at the node `a` of a result: `parent`, `num_roots`, `child_pruned`. -/
def node_view {G : Type} (r : Except Fault (State G)) (a : Nat) :
    Option (List Nat × Int × List Bool) :=
  match r with
  | .ok s => some ((s.nodes a).data.parent, (s.nodes a).data.num_roots, (s.nodes a).child_pruned)
  | .error _ => none

/-- The nodes on which a trace invokes `prune_subtree`, in order. -/
def pruned_calls : List Event → List Nat
  | [] => []
  | Event.prune_subtree t :: rest => t :: pruned_calls rest
  | _ :: rest => pruned_calls rest

/-- The nodes a result has marked pruned, among the nodes below `bound`. -/
def pruned_nodes {G : Type} (r : Except Fault (State G)) (bound : Nat) : Option (List Nat) :=
  match r with
  | .ok s => some ((List.range bound).filter (fun n => (s.nodes n).is_pruned))
  | .error _ => none

/-- The `prune_subtree` calls of a result. -/
def result_pruned_calls {G : Type} (r : Except Fault (State G)) : Option (List Nat) :=
  match r with
  | .ok s => some (pruned_calls s.trace)
  | .error _ => none

/-- The value the lambda `canon_child_local_idx` computes when `c_path` ends in `c2, a`:
the vertex at position `a.child_individualized_position` of `c2.pi`, located in `a.pi`,
relative to the target cell of `a`. -/
def canon_formula (nodes : Nat → TreeNode) (c2 a : Nat) : Int :=
  (((nodes a).pi.get_inverse
      ((nodes c2).pi.get (nodes a).child_individualized_position) : Nat) : Int) -
    (((nodes a).child_refiner_cell : Nat) : Int)

/-- On the target cell of `nd`, `pi.get_inverse` inverts `pi.get`. -/
def cell_bijective (nd : TreeNode) : Prop :=
  ∀ i, i < nd.children.length →
    nd.pi.get_inverse (nd.pi.get (nd.child_refiner_cell + i)) = nd.child_refiner_cell + i

/-- No two distinct surviving local children of `nd` are related by `aut`. -/
def orbit_complete (nd : TreeNode) (aut : Perm) : Prop :=
  ∀ i j, i < nd.children.length → j < nd.children.length → i ≠ j →
    nd.child_pruned[i]? = some false → nd.child_pruned[j]? = some false →
    aut (nd.pi.get (nd.child_refiner_cell + i)) ≠ nd.pi.get (nd.child_refiner_cell + j)

/-- The contract on `update`: on every tree with the static fields of `nodes0`, every
generator returned for a node maps the target cell of that node to itself. -/
def cell_contract {G : Type} (d : Derived G) (nodes0 : Nat → TreeNode) : Prop :=
  ∀ (g : G) (nodes : Nat → TreeNode) (a : Nat), (∀ m, static_eq (nodes0 m) (nodes m)) →
    ∀ aut ∈ (d.update g nodes a).1, maps_cell (nodes0 a) aut

/-- What one round of the main loop at `a_t` may change between `s` and `s'`. -/
structure proc_rel {G : Type} (fuel : Nat) (a_t : Nat) (s s' : State G) : Prop where
  canon_leaf_eq : s'.canon_leaf = s.canon_leaf
  t_path_eq : s'.t_path = s.t_path
  c_path : s'.c_path = s.c_path ∨ s'.c_path = []
  c_path_keep : ∀ pre, s.c_path = pre ++ [a_t] → s'.c_path = s.c_path
  static : ∀ m, static_eq (s.nodes m) (s'.nodes m)
  others : ∀ m, m ≠ a_t → (s'.nodes m).data = (s.nodes m).data ∧
    (s'.nodes m).child_pruned = (s.nodes m).child_pruned
  ok : node_ok fuel (s'.nodes a_t)
  mono : node_mono (s.nodes a_t) (s'.nodes a_t)
  prot : ∀ (pre : List Nat) (c2 k : Nat), s.c_path = pre ++ [c2, a_t] →
    (k : Int) = canon_formula s.nodes c2 a_t →
    (s'.nodes a_t).child_pruned[k]? = (s.nodes a_t).child_pruned[k]?
  trace : ∃ evs, s'.trace = s.trace ++ evs ∧
    (∀ e ∈ evs, (∃ auts, e = Event.update a_t auts) ∨
      ∃ (l : Nat) (child : Nat), e = Event.prune_subtree child ∧
        (s.nodes a_t).children[l]? = some (some child) ∧
        ∀ (pre : List Nat) (c2 : Nat), s.c_path = pre ++ [c2, a_t] →
          (l : Int) ≠ canon_formula s.nodes c2 a_t) ∧
    (∀ m, (s'.nodes m).is_pruned = true → (s.nodes m).is_pruned = true ∨
      ∃ child, Event.prune_subtree child ∈ evs ∧ is_ancestor_or_self s.nodes child m = true) ∧
    ∀ auts, Event.update a_t auts ∈ evs → cell_bijective (s.nodes a_t) →
      ∀ aut ∈ auts, orbit_complete (s'.nodes a_t) aut

/-- The state after the call of `update` at `a_t` (line 236). -/
def after_update {G : Type} (d : Derived G) (s : State G) (a_t : Nat) : State G :=
  { s with g := (d.update s.g s.nodes a_t).2
           trace := s.trace ++ [Event.update a_t (d.update s.g s.nodes a_t).1] }

/-- The state after the lazy initialization of the union-find of `a_t` (lines 249-252). -/
def after_init {G : Type} (s : State G) (a_t : Nat) : State G :=
  s.set_node a_t { s.nodes a_t with data := { (s.nodes a_t).data with
    parent := List.range (s.nodes a_t).children.length
    num_roots := ((s.nodes a_t).children.length : Int) - 1 } }

/-- What a whole call of `tree_before_descend` may change between `s` and `s'`. -/
structure whole_rel {G : Type} (s s' : State G) : Prop where
  canon_leaf_eq : s'.canon_leaf = s.canon_leaf
  static : ∀ m, static_eq (s.nodes m) (s'.nodes m)
  mono : ∀ m, node_mono (s.nodes m) (s'.nodes m)
  trace : ∃ evs, s'.trace = s.trace ++ evs ∧
    (∀ a auts, Event.update a auts ∈ evs → cell_bijective (s.nodes a) →
      ∀ aut ∈ auts, orbit_complete (s'.nodes a) aut) ∧
    (∀ child, Event.prune_subtree child ∈ evs →
      ∃ (a : Nat) (l : Nat), (s.nodes a).children[l]? = some (some child)) ∧
    ∀ m, (s'.nodes m).is_pruned = true → (s.nodes m).is_pruned = true ∨
      ∃ child, Event.prune_subtree child ∈ evs ∧ is_ancestor_or_self s.nodes child m = true

/-- The state of a result, `dflt` if the run failed. -/
def result_state {G : Type} (r : Except Fault (State G)) (dflt : State G) : State G :=
  match r with
  | .ok s => s
  | .error _ => dflt

/-- The generators of the example: the transposition of the vertices `0` and `1` at the root,
nothing below. -/
def ex_auts (n : Nat) : List Perm := if n = 0 then [transposition 0 1] else []

/-- `UpChain nodes nu a path`: `path` lists the nodes visited by walking up from `a` while the
predicate `nu` holds, in the order of the walk. -/
inductive UpChain (nodes : Nat → TreeNode) (nu : Nat → Bool) : Option Nat → List Nat → Prop
  | stop_null : UpChain nodes nu none []
  | stop_nu {a : Nat} : nu a = false → UpChain nodes nu (some a) []
  | step {a : Nat} {rest : List Nat} : nu a = true →
      UpChain nodes nu (nodes a).get_parent rest → UpChain nodes nu (some a) (a :: rest)

/-- The invariant of the main loop used for the protection of the canonical child `c` of `a`
(slot `k`), relative to the state `s3` at the start of the loop: the nodes keep the invariant
and their static fields, the bit `child_pruned[k]` of `a` is as at the start, `prune_subtree`
has not been invoked on `c`, `t_path` has no repetition, and as long as `a` is on `t_path` the
two paths end in the same nodes from `a` on, with `c` right before `a` on `c_path`. -/
structure protect_inv {G : Type} (fuel : Nat) (s3 : State G) (a c k : Nat) (s1 : State G) :
    Prop where
  ok : ∀ m, node_ok fuel (s1.nodes m)
  static : ∀ m, static_eq (s3.nodes m) (s1.nodes m)
  bit : (s1.nodes a).child_pruned[k]? = (s3.nodes a).child_pruned[k]?
  trace : ∃ evs, s1.trace = s3.trace ++ evs ∧ Event.prune_subtree c ∉ evs
  nodup : s1.t_path.Nodup
  phase : a ∉ s1.t_path ∨
    ∃ tlo up cpre, s1.t_path = tlo ++ a :: up ∧ s1.c_path = cpre ++ c :: a :: up

/-- What a round of the main loop at `a_t` may change at the other nodes, whatever the state
of `a_t`: static fields stay, the pruner's data of the other nodes stays, the trace gains
`update` events of `a_t` and `prune_subtree` events only. -/
structure frame_rel {G : Type} (a_t : Nat) (s s' : State G) : Prop where
  static : ∀ m, static_eq (s.nodes m) (s'.nodes m)
  others : ∀ m, m ≠ a_t → (s'.nodes m).data = (s.nodes m).data ∧
    (s'.nodes m).child_pruned = (s.nodes m).child_pruned
  trace : ∃ evs, s'.trace = s.trace ++ evs ∧
    ∀ e ∈ evs, (∃ auts, e = Event.update a_t auts) ∨ ∃ c, e = Event.prune_subtree c

/-- The invariant of the main loop for one node `T`, relative to the state `s0` at the start:
static fields stay, `T` keeps the invariant and is monotone, and every `update` of `T` logged
so far left no two distinct surviving children related by a generator it returned. -/
structure node_inv {G : Type} (fuel : Nat) (s0 : State G) (T : Nat) (s1 : State G) : Prop where
  static : ∀ m, static_eq (s0.nodes m) (s1.nodes m)
  ok : node_ok fuel (s1.nodes T)
  mono : node_mono (s0.nodes T) (s1.nodes T)
  trace : ∃ evs, s1.trace = s0.trace ++ evs ∧
    ∀ auts, Event.update T auts ∈ evs → cell_bijective (s0.nodes T) →
      ∀ aut ∈ auts, orbit_complete (s1.nodes T) aut

/-! ## Observations of the hooks used in the statements -/

/-- A driver that creates the nodes of `ts` one after the other: it calls the hook
`tree_create_node_begin` once for each of them. -/
def create_nodes {G : Type} (s : State G) : List Nat → State G
  | [] => s
  | t :: ts => create_nodes (tree_create_node_begin s t).2 ts

/-- The example tree before any child has been counted: `child_count` is `0` everywhere. -/
def ex_state_fresh : State Unit :=
  { ex_state 4 with nodes := fun n => { ex_nodes n with data := ⟨0, [], 0⟩ } }

/-- The nodes a trace passes to `need_update`, in order. -/
def need_update_calls : List Event → List Nat
  | [] => []
  | Event.need_update t :: rest => t :: need_update_calls rest
  | _ :: rest => need_update_calls rest

/-- The `need_update` calls of a result. -/
def result_need_update_calls {G : Type} (r : Except Fault (State G)) : Option (List Nat) :=
  match r with
  | .ok s => some (need_update_calls s.trace)
  | .error _ => none

/-- The example state with canonical leaf `cl` and the buffer `c_path` filled. -/
def ex_state_c_path (cl : Nat) (c_path : List Nat) : State Unit :=
  { ex_state cl with c_path := c_path }

/-- The value of the lambda `canon_child_local_idx` of a result. -/
def result_value {G : Type} (r : Except Fault (Int × State G)) : Option Int :=
  match r with
  | .ok (c, _) => some c
  | .error _ => none

/-- The buffer `c_path` after the lambda `canon_child_local_idx`. -/
def result_c_path {G : Type} (r : Except Fault (Int × State G)) : Option (List Nat) :=
  match r with
  | .ok (_, s) => some s.c_path
  | .error _ => none

/-- The protected index as Section 4.2 words it: the vertex `a_t.pi.get` at the position
`child_individualized_position` stored on the child `c2`, located in `a_t.pi`, relative to the
target cell of `a_t`. -/
def canon_formula_spec (nodes : Nat → TreeNode) (c2 a : Nat) : Int :=
  (((nodes a).pi.get_inverse
      ((nodes a).pi.get (nodes c2).child_individualized_position) : Nat) : Int) -
    (((nodes a).child_refiner_cell : Nat) : Int)

/-! ## The ordered graph view (`ordered_graph.hpp`)

The adapted graph is read through the Boost graph concepts only; `Graph` records what those
calls return.  `std::sort` is a parameter `sort` of the constructors, with the guarantee of
the standard library as the contract `sorts`. -/

/-- The adapted graph as the view reads it (`VertexListGraph`, `IncidenceGraph`,
`BidirectionalGraph`): the sequences enumerated by `vertices(g)`, `out_edges(v, g)` and
`in_edges(v, g)`, and the endpoints of an edge descriptor. -/
structure Graph (V E : Type) where
  vertices : List V
  out_edges : V → List E
  in_edges : V → List E
  source : E → V
  target : E → V

/-- The entry stored per vertex, `detail::ordered_adj_bidirectional`; for a view without
in-edges (`detail::ordered_adj_incidence`) the field `in_edges` stays empty. -/
structure ordered_adj (V E : Type) where
  v : V
  out_edges : List E
  in_edges : List E

/-- The comparator `ordered_incidence::out_edge_less`. -/
def out_edge_less {V E : Type} (g : Graph V E) (idx : V → Nat) (edge_less : E → E → Bool)
    (lhs rhs : E) : Bool :=
  let idx_lhs := idx (g.target lhs)
  let idx_rhs := idx (g.target rhs)
  if idx_lhs ≠ idx_rhs then decide (idx_lhs < idx_rhs) else edge_less lhs rhs

/-- The comparator `ordered_bidirectional::in_edge_less`. -/
def in_edge_less {V E : Type} (g : Graph V E) (idx : V → Nat) (edge_less : E → E → Bool)
    (lhs rhs : E) : Bool :=
  let idx_lhs := idx (g.source lhs)
  let idx_rhs := idx (g.source rhs)
  if idx_lhs ≠ idx_rhs then decide (idx_lhs < idx_rhs) else edge_less lhs rhs

/-- The loop `BGL_FORALL_VERTICES_T` of the constructor of `ordered_incidence` over the
vertices still to visit: store `v` at `data[idx[v]]`, push its out-edges to the back of the
stored list and sort that list. -/
def ordered_incidence_loop {V E : Type} (sort : (E → E → Bool) → List E → List E)
    (g : Graph V E) (idx : V → Nat) (edge_less : E → E → Bool) :
    List V → List (ordered_adj V E) → Except Fault (List (ordered_adj V E))
  | [], data => .ok data
  | v :: rest, data =>
    match rd data (idx v) with
    | .error e => .error e
    | .ok adj =>
      let adj1 : ordered_adj V E :=
        { adj with
          v := v
          out_edges := sort (out_edge_less g idx edge_less) (adj.out_edges ++ g.out_edges v) }
      ordered_incidence_loop sort g idx edge_less rest (data.set (idx v) adj1)

/-- The constructor of `detail::ordered_incidence`: `data.resize(num_vertices(g))`, then the
loop over the vertices. -/
def ordered_incidence {V E : Type} [Inhabited V] (sort : (E → E → Bool) → List E → List E)
    (g : Graph V E) (idx : V → Nat) (edge_less : E → E → Bool) :
    Except Fault (List (ordered_adj V E)) :=
  ordered_incidence_loop sort g idx edge_less g.vertices
    (List.replicate g.vertices.length ⟨default, [], []⟩)

/-- The loop of the constructor of `ordered_bidirectional`: push the in-edges of `v` to the
back of the list stored at `data[idx[v]]` and sort that list. -/
def ordered_bidirectional_loop {V E : Type} (sort : (E → E → Bool) → List E → List E)
    (g : Graph V E) (idx : V → Nat) (edge_less : E → E → Bool) :
    List V → List (ordered_adj V E) → Except Fault (List (ordered_adj V E))
  | [], data => .ok data
  | v :: rest, data =>
    match rd data (idx v) with
    | .error e => .error e
    | .ok adj =>
      let adj1 : ordered_adj V E :=
        { adj with
          in_edges := sort (in_edge_less g idx edge_less) (adj.in_edges ++ g.in_edges v) }
      ordered_bidirectional_loop sort g idx edge_less rest (data.set (idx v) adj1)

/-- The constructor of `detail::ordered_bidirectional`: the base constructor, then the loop
for the in-edges. -/
def ordered_bidirectional {V E : Type} [Inhabited V] (sort : (E → E → Bool) → List E → List E)
    (g : Graph V E) (idx : V → Nat) (edge_less : E → E → Bool) :
    Except Fault (List (ordered_adj V E)) :=
  match ordered_incidence sort g idx edge_less with
  | .error e => .error e
  | .ok data => ordered_bidirectional_loop sort g idx edge_less g.vertices data

/-- The view `ordered_graph`: the adapted graph, the index map and the stored entries. -/
structure ordered_graph (V E : Type) where
  g : Graph V E
  idx : V → Nat
  data : List (ordered_adj V E)

/-- The function `make_ordered_graph<WithInEdges>(g, idx, edge_less)`. -/
def make_ordered_graph {V E : Type} [Inhabited V] (WithInEdges : Bool)
    (sort : (E → E → Bool) → List E → List E) (g : Graph V E) (idx : V → Nat)
    (edge_less : E → E → Bool) : Except Fault (ordered_graph V E) :=
  match (if WithInEdges then ordered_bidirectional sort g idx edge_less
    else ordered_incidence sort g idx edge_less) with
  | .error e => .error e
  | .ok data => .ok ⟨g, idx, data⟩

/-- The range `vertices(g)` of the view: the stored vertices from `data.begin()` to
`data.end()`. -/
def vertices {V E : Type} (og : ordered_graph V E) : List V :=
  og.data.map (fun adj => adj.v)

/-- The function `num_vertices(g)` of the view. -/
def num_vertices {V E : Type} (og : ordered_graph V E) : Nat :=
  og.data.length

/-- The range `out_edges(v, g)` of the view. -/
def out_edges {V E : Type} (v : V) (og : ordered_graph V E) : Except Fault (List E) :=
  match rd og.data (og.idx v) with
  | .error e => .error e
  | .ok adj => .ok adj.out_edges

/-- The function `out_degree(v, g)` of the view. -/
def out_degree {V E : Type} (v : V) (og : ordered_graph V E) : Except Fault Nat :=
  match rd og.data (og.idx v) with
  | .error e => .error e
  | .ok adj => .ok adj.out_edges.length

/-- The range `adjacent_vertices(v, g)` of the view: the `adjacency_iterator` walks the stored
out-edges and dereferences to `target(*iter, *g)`. -/
def adjacent_vertices {V E : Type} (v : V) (og : ordered_graph V E) : Except Fault (List V) :=
  match rd og.data (og.idx v) with
  | .error e => .error e
  | .ok adj => .ok (adj.out_edges.map og.g.target)

/-- The range `in_edges(v, g)` of a view with in-edges. -/
def in_edges {V E : Type} (v : V) (og : ordered_graph V E) : Except Fault (List E) :=
  match rd og.data (og.idx v) with
  | .error e => .error e
  | .ok adj => .ok adj.in_edges

/-- The function `in_degree(v, g)` of a view with in-edges. -/
def in_degree {V E : Type} (v : V) (og : ordered_graph V E) : Except Fault Nat :=
  match rd og.data (og.idx v) with
  | .error e => .error e
  | .ok adj => .ok adj.in_edges.length

/-- The range `inv_adjacent_vertices(v, g)`: the stored in-edges, dereferenced to
`source(*iter, *g)`. -/
def inv_adjacent_vertices {V E : Type} (v : V) (og : ordered_graph V E) :
    Except Fault (List V) :=
  match rd og.data (og.idx v) with
  | .error e => .error e
  | .ok adj => .ok (adj.in_edges.map og.g.source)

/-! ## Reference notions for the ordered view -/

/-- The requirement `Compare` on a comparator: it is a strict weak ordering. -/
structure StrictWeakOrder {α : Type} (less : α → α → Bool) : Prop where
  irrefl : ∀ a, less a a = false
  trans : ∀ a b c, less a b = true → less b c = true → less a c = true
  incomp_trans : ∀ a b c, less a b = false → less b a = false → less b c = false →
    less c b = false → less a c = false ∧ less c a = false

/-- The list is sorted with respect to the comparator, in the sense of the standard library:
no element compares less than an element before it. -/
def sorted_by {α : Type} (less : α → α → Bool) (l : List α) : Prop :=
  l.Pairwise (fun a b => less b a = false)

/-- The guarantee of `std::sort(first, last, comp)`: for a comparator that is a strict weak
ordering, the range afterwards is a permutation of the range before and is sorted with respect
to `comp`.  The order of equivalent elements is not specified. -/
def sorts {α : Type} (sort : (α → α → Bool) → List α → List α) : Prop :=
  ∀ (less : α → α → Bool) (l : List α), StrictWeakOrder less →
    (sort less l).Perm l ∧ sorted_by less (sort less l)

/-- The index map is a bijection from the vertices of `g` onto `[0, n)`: the vertices are
enumerated once each, every index is below `n = num_vertices(g)`, and no two vertices share
an index (so, by counting, every number below `n` is the index of a vertex). -/
def index_bijection {V E : Type} (g : Graph V E) (idx : V → Nat) : Prop :=
  g.vertices.Nodup ∧ (∀ v ∈ g.vertices, idx v < g.vertices.length) ∧
  ∀ v ∈ g.vertices, ∀ w ∈ g.vertices, idx v = idx w → v = w

/-- The targets of the out-edges and the sources of the in-edges are vertices of the graph. -/
def endpoints_closed {V E : Type} (g : Graph V E) : Prop :=
  ∀ v ∈ g.vertices, (∀ e ∈ g.out_edges v, g.target e ∈ g.vertices) ∧
    ∀ e ∈ g.in_edges v, g.source e ∈ g.vertices

/-- The graph has no parallel out-edges: two enumerated out-edges of a vertex with the same
target are the same edge. -/
def no_parallel_edges {V E : Type} (g : Graph V E) : Prop :=
  ∀ v ∈ g.vertices, ∀ e1 ∈ g.out_edges v, ∀ e2 ∈ g.out_edges v,
    g.target e1 = g.target e2 → e1 = e2

/-- The predicate `edge_less` is total on parallel out-edges: of two different out-edges of a
vertex with the same target, one is less than the other. -/
def total_on_parallel {V E : Type} (g : Graph V E) (edge_less : E → E → Bool) : Prop :=
  ∀ v ∈ g.vertices, ∀ e1 ∈ g.out_edges v, ∀ e2 ∈ g.out_edges v,
    g.target e1 = g.target e2 → e1 ≠ e2 → edge_less e1 e2 = true ∨ edge_less e2 e1 = true

/-- Insertion of `a` into a list sorted with respect to `less`, before the first element it
is less than. -/
def ordered_insert {α : Type} (less : α → α → Bool) (a : α) : List α → List α
  | [] => [a]
  | b :: l => if less a b then a :: b :: l else b :: ordered_insert less a l

/-- Insertion sort, one sorting procedure that meets the contract `sorts`. -/
def insertion_sort {α : Type} (less : α → α → Bool) : List α → List α
  | [] => []
  | a :: l => ordered_insert less a (insertion_sort less l)

/-- The predicate `always_false` given as `edge_less` for simple graphs. -/
def always_false {α : Type} (_lhs _rhs : α) : Bool := false

/-- An example graph on the vertices `0, 1, 2`, enumerated as `2, 0, 1`; an edge descriptor
is the pair of its source and its target. -/
def ex_graph : Graph Nat (Nat × Nat) :=
  { vertices := [2, 0, 1]
    out_edges := fun v =>
      match v with
      | 0 => [(0, 2), (0, 1)]
      | 1 => [(1, 0)]
      | 2 => [(2, 1), (2, 0), (2, 2)]
      | _ => []
    in_edges := fun v =>
      match v with
      | 0 => [(2, 0), (1, 0)]
      | 1 => [(0, 1), (2, 1)]
      | 2 => [(2, 2), (0, 2)]
      | _ => []
    source := Prod.fst
    target := Prod.snd }

/-- The example graph with other enumeration orders of the vertices and of the edges. -/
def ex_graph_reordered : Graph Nat (Nat × Nat) :=
  { vertices := [1, 2, 0]
    out_edges := fun v =>
      match v with
      | 0 => [(0, 1), (0, 2)]
      | 1 => [(1, 0)]
      | 2 => [(2, 2), (2, 1), (2, 0)]
      | _ => []
    in_edges := fun v =>
      match v with
      | 0 => [(1, 0), (2, 0)]
      | 1 => [(2, 1), (0, 1)]
      | 2 => [(0, 2), (2, 2)]
      | _ => []
    source := Prod.fst
    target := Prod.snd }

/-- An index map of the example graph: `0 ↦ 1`, `1 ↦ 2`, `2 ↦ 0`. -/
def ex_idx (v : Nat) : Nat := (v + 1) % 3

/-- The stored entries of a result, as triples. -/
def result_data {V E : Type} (r : Except Fault (ordered_graph V E)) :
    Option (List (V × List E × List E)) :=
  match r with
  | .ok og => some (og.data.map (fun adj => (adj.v, adj.out_edges, adj.in_edges)))
  | .error _ => none

/-- Reference form of the two constructor loops: visit the vertices in order and replace the
entry `data[idx[v]]` by `f v data[idx[v]]`. -/
def update_loop {V E : Type} (idx : V → Nat) (f : V → ordered_adj V E → ordered_adj V E) :
    List V → List (ordered_adj V E) → Except Fault (List (ordered_adj V E))
  | [], data => .ok data
  | v :: rest, data =>
    match rd data (idx v) with
    | .error e => .error e
    | .ok adj => update_loop idx f rest (data.set (idx v) (f v adj))

/-- Lexicographic comparison by a numeric key first and by `less` among equal keys; both
comparators of the view have this form. -/
def key_less {α : Type} (key : α → Nat) (less : α → α → Bool) (lhs rhs : α) : Bool :=
  if key lhs ≠ key rhs then decide (key lhs < key rhs) else less lhs rhs

/-- The example state with canonical leaf `cl` and the buffer `t_path` filled. -/
def ex_state_t_path (cl : Nat) (t_path : List Nat) : State Unit :=
  { ex_state cl with t_path := t_path }

/-- The nodes a trace passes to `update`, in order. -/
def update_calls : List Event → List Nat
  | [] => []
  | Event.update t _ :: rest => t :: update_calls rest
  | _ :: rest => update_calls rest

/-- A step that leaves `t_path` alone and calls `update` on no node. -/
structure quiet_rel {G : Type} (s s' : State G) : Prop where
  t_path_eq : s'.t_path = s.t_path
  trace : ∃ evs, s'.trace = s.trace ++ evs ∧ update_calls evs = []

/-- The `update` calls of a result. -/
def result_update_calls {G : Type} (r : Except Fault (State G)) : Option (List Nat) :=
  match r with
  | .ok s => some (update_calls s.trace)
  | .error _ => none

/-- Survivors are roots, for the union-find data of a node: every index that is not a
self-loop is marked in `child_pruned`; every unmarked index is a self-loop; two unmarked
indices of one class are equal; the unmarked indices are at most `num_roots + 1`. -/
structure survivors_are_roots (nd : TreeNode) : Prop where
  nonroot_pruned : ∀ i : Nat, i < nd.data.parent.length → nd.data.parent[i]? ≠ some i →
    nd.child_pruned[i]? = some true
  unpruned_root : ∀ i : Nat, nd.child_pruned[i]? = some false → nd.data.parent[i]? = some i
  class_unique : ∀ i j r : Nat, nd.child_pruned[i]? = some false →
    nd.child_pruned[j]? = some false → RootOf nd.data.parent i r →
    RootOf nd.data.parent j r → i = j
  count : (((Finset.range nd.children.length).filter
    (fun i => nd.child_pruned[i]? = some false)).card : Int) ≤ nd.data.num_roots + 1

/-- The vertex `w` lies in the orbit of the vertex `v` under the group generated by the
permutations `sigmas`. -/
def same_orbit (sigmas : List (Equiv.Perm Nat)) (v w : Nat) : Prop :=
  ∃ g ∈ Subgroup.closure {σ : Equiv.Perm Nat | σ ∈ sigmas}, g v = w

/-- On the vertices whose position lies in the target cell of `nd`, `pi.get` inverts
`pi.get_inverse`; with `cell_bijective` this makes `pi` a bijection between the positions of
the cell and these vertices. -/
def cell_onto (nd : TreeNode) : Prop :=
  ∀ v, nd.child_refiner_cell ≤ nd.pi.get_inverse v →
    nd.pi.get_inverse v < nd.child_refiner_cell + nd.children.length →
    nd.pi.get (nd.pi.get_inverse v) = v

/-- The local indices `i` and `j` have the same union-find root. -/
def same_class (parent : List Nat) (i j : Nat) : Prop :=
  ∃ r, RootOf parent i r ∧ RootOf parent j r

/-- The generators of the example as permutations: the transposition of the vertices `0` and
`1`. -/
def ex_sigmas : List (Equiv.Perm Nat) := [Equiv.swap 0 1]

/-- The functions under `ex_sigmas`, returned by `update` at the root and nowhere else. -/
def ex_sigma_auts (n : Nat) : List Perm :=
  if n = 0 then ex_sigmas.map (fun σ v => σ v) else []

/-- How the main loop went along `path_rev`, the reversed `t_path`, given the events `evs` it
logged and the state `s'` it returned: it called `update` on the first `m` entries, in this
order, and on no other node; and then the path was used up, or the next entry was pruned (the
`break` before the call of `update`), or the last call returned the empty range at a node with
a parent (the `break` after the call of `update`). -/
def rounds_along {G : Type} (path_rev : List Nat) (evs : List Event) (s' : State G) : Prop :=
  ∃ m, update_calls evs = path_rev.take m ∧
    (m = path_rev.length ∨
      (∃ x, path_rev[m]? = some x ∧ (s'.nodes x).is_pruned = true) ∨
      ∃ (m' : Nat) (x : Nat) (evs0 : List Event), m = m' + 1 ∧ path_rev[m']? = some x ∧
        evs = evs0 ++ [Event.update x []] ∧ (s'.nodes x).get_parent ≠ none)

/-! ## Ancestors and levels -/

theorem anc_trans {nodes : Nat → TreeNode} {a b c : Nat}
    (h1 : AncestorOrSelf nodes a b) (h2 : AncestorOrSelf nodes b c) :
    AncestorOrSelf nodes a c := by
  induction h2 with
  | refl => exact h1
  | step hp _ ih => exact AncestorOrSelf.step hp ih

theorem anc_level_le {nodes : Nat → TreeNode} (hwf : wf_levels nodes) {a m : Nat}
    (h : AncestorOrSelf nodes a m) : (nodes a).level ≤ (nodes m).level := by
  induction h with
  | refl => exact le_refl _
  | step hp _ ih => have := hwf.2 _ _ hp; omega

theorem anc_cases {nodes : Nat → TreeNode} {a m : Nat} (h : AncestorOrSelf nodes a m) :
    a = m ∨ ∃ p, (nodes m).get_parent = some p ∧ AncestorOrSelf nodes a p := by
  cases h with
  | refl => exact Or.inl rfl
  | step hp h' => exact Or.inr ⟨_, hp, h'⟩

theorem anc_linear {nodes : Nat → TreeNode} (hwf : wf_levels nodes) {x y t : Nat}
    (hy : AncestorOrSelf nodes y t) (hx : AncestorOrSelf nodes x t)
    (hl : (nodes x).level ≤ (nodes y).level) : AncestorOrSelf nodes x y := by
  induction hy with
  | refl => exact hx
  | @step p m hp hyp ih =>
    rcases anc_cases hx with rfl | ⟨p', hp', hxp⟩
    · have h1 := anc_level_le hwf hyp
      have h2 := hwf.2 _ _ hp
      omega
    · rw [hp] at hp'
      cases hp'
      exact ih hxp

theorem anc_eq_of_level_eq {nodes : Nat → TreeNode} (hwf : wf_levels nodes) {x y : Nat}
    (h : AncestorOrSelf nodes x y) (hl : (nodes x).level = (nodes y).level) : x = y := by
  rcases anc_cases h with rfl | ⟨p, hp, hxp⟩
  · rfl
  · have h1 := anc_level_le hwf hxp
    have h2 := hwf.2 _ _ hp
    omega

theorem anc_unique_at_level {nodes : Nat → TreeNode} (hwf : wf_levels nodes) {x y t : Nat}
    (hx : AncestorOrSelf nodes x t) (hy : AncestorOrSelf nodes y t)
    (hl : (nodes x).level = (nodes y).level) : x = y :=
  anc_eq_of_level_eq hwf (anc_linear hwf hy hx (le_of_eq hl)) hl

theorem anc_of_root {nodes : Nat → TreeNode} {r m : Nat} (h : AncestorOrSelf nodes r m)
    (hm : (nodes m).get_parent = none) : r = m := by
  rcases anc_cases h with rfl | ⟨p, hp, _⟩
  · rfl
  · rw [hm] at hp; cases hp

/-! ## The walks of `automorphism_leaf` -/

theorem level_up_spec {nodes : Nat → TreeNode} (hwf : wf_levels nodes) (lvl : Nat) :
    ∀ (fuel a : Nat), (nodes a).level ≤ lvl + fuel →
      ∃ a', level_up nodes lvl fuel a = .ok a' ∧ AncestorOrSelf nodes a' a ∧
        (nodes a').level = min (nodes a).level lvl := by
  intro fuel
  induction fuel with
  | zero =>
    intro a h
    refine ⟨a, ?_, AncestorOrSelf.refl a, ?_⟩
    · simp only [level_up]
      rw [if_neg (by omega)]
    · omega
  | succ n ih =>
    intro a h
    by_cases hgt : (nodes a).level > lvl
    · cases hp : (nodes a).get_parent with
      | none => have := hwf.1 a hp; omega
      | some p =>
        have hlp := hwf.2 a p hp
        obtain ⟨a', h1, h2, h3⟩ := ih p (by omega)
        refine ⟨a', ?_, AncestorOrSelf.step hp h2, ?_⟩
        · simp only [level_up]
          rw [if_pos hgt, hp]
          exact h1
        · omega
    · refine ⟨a, ?_, AncestorOrSelf.refl a, ?_⟩
      · simp only [level_up]
        rw [if_neg hgt]
      · omega

theorem lockstep_up_spec {nodes : Nat → TreeNode} (hwf : wf_levels nodes) :
    ∀ (fuel c a : Nat), (nodes c).level = (nodes a).level → c ≠ a →
      (∃ r, AncestorOrSelf nodes r c ∧ AncestorOrSelf nodes r a) → (nodes c).level ≤ fuel →
      ∃ c' a' l, lockstep_up nodes fuel c a = .ok (c', a') ∧ AncestorOrSelf nodes c' c ∧
        AncestorOrSelf nodes a' a ∧ c' ≠ a' ∧ (nodes c').get_parent = some l ∧
        (nodes a').get_parent = some l := by
  intro fuel
  induction fuel with
  | zero =>
    intro c a hl hne ⟨r, hrc, hra⟩ hf
    exfalso
    have hc0 : (nodes c).level = 0 := by omega
    have hpc : (nodes c).get_parent = none := by
      cases hp : (nodes c).get_parent with
      | none => rfl
      | some p => have := hwf.2 c p hp; omega
    have hpa : (nodes a).get_parent = none := by
      cases hp : (nodes a).get_parent with
      | none => rfl
      | some p => have := hwf.2 a p hp; omega
    exact hne ((anc_of_root hrc hpc).symm.trans (anc_of_root hra hpa))
  | succ n ih =>
    intro c a hl hne ⟨r, hrc, hra⟩ hf
    cases hpc : (nodes c).get_parent with
    | none =>
      exfalso
      have hc0 := hwf.1 c hpc
      have hpa : (nodes a).get_parent = none := by
        cases hp : (nodes a).get_parent with
        | none => rfl
        | some p => have := hwf.2 a p hp; omega
      exact hne ((anc_of_root hrc hpc).symm.trans (anc_of_root hra hpa))
    | some pc =>
      cases hpa : (nodes a).get_parent with
      | none =>
        exfalso
        have := hwf.1 a hpa
        have := hwf.2 c pc hpc
        omega
      | some pa =>
        have hlc := hwf.2 c pc hpc
        have hla := hwf.2 a pa hpa
        by_cases hpe : pc = pa
        · subst hpe
          refine ⟨c, a, pc, ?_, AncestorOrSelf.refl c, AncestorOrSelf.refl a, hne, hpc, hpa⟩
          simp only [lockstep_up]
          rw [if_neg (by rw [hpc, hpa]; simp)]
        · have hrpc : AncestorOrSelf nodes r pc := by
            rcases anc_cases hrc with rfl | ⟨p, hp, h⟩
            · exact absurd (anc_eq_of_level_eq hwf hra hl) hne
            · rw [hpc] at hp; cases hp; exact h
          have hrpa : AncestorOrSelf nodes r pa := by
            rcases anc_cases hra with rfl | ⟨p, hp, h⟩
            · exact absurd (anc_eq_of_level_eq hwf hrc hl.symm).symm hne
            · rw [hpa] at hp; cases hp; exact h
          obtain ⟨c', a', l, h1, h2, h3, h4, h5, h6⟩ :=
            ih pc pa (by omega) hpe ⟨r, hrpc, hrpa⟩ (by omega)
          refine ⟨c', a', l, ?_, AncestorOrSelf.step hpc h2, AncestorOrSelf.step hpa h3,
            h4, h5, h6⟩
          simp only [lockstep_up]
          rw [if_pos (by rw [hpc, hpa]; simpa using hpe)]
          simp only [hpc, hpa]
          exact h1

theorem automorphism_leaf_spec {G : Type} (d : Derived G) (s : State G) (t cl : Nat) (aut : Perm)
    (hwf : wf_levels s.nodes) (hc : s.canon_leaf = some cl)
    (hna : ¬ AncestorOrSelf s.nodes t cl) (hnb : ¬ AncestorOrSelf s.nodes cl t)
    (hr : ∃ r, AncestorOrSelf s.nodes r t ∧ AncestorOrSelf s.nodes r cl)
    (fuel : Nat) (hft : (s.nodes t).level ≤ fuel) (hfc : (s.nodes cl).level ≤ fuel) :
    ∃ x y l, automorphism_leaf d fuel s t aut =
        .ok (prune_subtree { s with g := d.add_automorphism s.g s.nodes t aut
                                    trace := s.trace ++ [Event.add_automorphism t] } x) ∧
      AncestorOrSelf s.nodes x t ∧ AncestorOrSelf s.nodes y cl ∧ x ≠ y ∧
      (s.nodes x).get_parent = some l ∧ (s.nodes y).get_parent = some l := by
  obtain ⟨r, hrt, hrc⟩ := hr
  have hne : cl ≠ t := fun h => hna (h ▸ AncestorOrSelf.refl _)
  have hpcl : (s.nodes cl).get_parent ≠ none := fun h =>
    hnb ((anc_of_root hrc h) ▸ hrt)
  have hpt : (s.nodes t).get_parent ≠ none := fun h =>
    hna ((anc_of_root hrt h) ▸ hrc)
  obtain ⟨c1, hc1, hc1a, hc1l⟩ := level_up_spec hwf (s.nodes t).level fuel cl (by omega)
  obtain ⟨a1, ha1, ha1a, ha1l⟩ := level_up_spec hwf (s.nodes c1).level fuel t (by omega)
  have hlr1 := anc_level_le hwf hrt
  have hlr2 := anc_level_le hwf hrc
  have hll : (s.nodes c1).level = (s.nodes a1).level := by omega
  have hne1 : c1 ≠ a1 := by
    intro h
    subst h
    by_cases hle : (s.nodes t).level ≤ (s.nodes cl).level
    · have := anc_eq_of_level_eq hwf ha1a (by omega)
      subst this
      exact hna hc1a
    · have := anc_eq_of_level_eq hwf hc1a (by omega)
      subst this
      exact hnb ha1a
  have hrc1 : AncestorOrSelf s.nodes r c1 := anc_linear hwf hc1a hrc (by omega)
  have hra1 : AncestorOrSelf s.nodes r a1 := anc_linear hwf ha1a hrt (by omega)
  have hpc1 : (s.nodes c1).get_parent ≠ none := fun h =>
    hne1 (anc_eq_of_level_eq hwf ((anc_of_root hrc1 h) ▸ hra1) hll)
  have hpa1 : (s.nodes a1).get_parent ≠ none := fun h =>
    hne1 (anc_eq_of_level_eq hwf ((anc_of_root hra1 h) ▸ hrc1) hll.symm).symm
  obtain ⟨c2, a2, l, h2, hc2a, ha2a, hne2, hpc2, hpa2⟩ :=
    lockstep_up_spec hwf fuel c1 a1 hll hne1 ⟨r, hrc1, hra1⟩ (by omega)
  refine ⟨a2, c2, l, ?_, anc_trans ha2a ha1a, anc_trans hc2a hc1a, Ne.symm hne2, hpa2, hpc2⟩
  simp only [automorphism_leaf, hc, hpcl, hpt, hne, if_false, hc1, ha1, hne1, hpc1, hpa1, h2, hne2]

theorem reaches_sound {nodes : Nat → TreeNode} {a : Nat} :
    ∀ (fuel m : Nat), reaches nodes a fuel m = true → AncestorOrSelf nodes a m := by
  intro fuel
  induction fuel with
  | zero =>
    intro m h
    simp only [reaches, decide_eq_true_eq] at h
    subst h
    exact AncestorOrSelf.refl _
  | succ n ih =>
    intro m h
    simp only [reaches] at h
    by_cases hm : m = a
    · subst hm; exact AncestorOrSelf.refl _
    · rw [if_neg hm] at h
      cases hp : (nodes m).get_parent with
      | none => rw [hp] at h; cases h
      | some p =>
        rw [hp] at h
        exact AncestorOrSelf.step hp (ih p h)

theorem reaches_complete {nodes : Nat → TreeNode} (hwf : wf_levels nodes) {a m : Nat}
    (h : AncestorOrSelf nodes a m) :
    ∀ fuel, (nodes m).level ≤ (nodes a).level + fuel → reaches nodes a fuel m = true := by
  induction h with
  | refl =>
    intro fuel _
    cases fuel <;> simp [reaches]
  | @step p m hp hap ih =>
    intro fuel hf
    have h1 := hwf.2 m p hp
    have h2 := anc_level_le hwf hap
    cases fuel with
    | zero => omega
    | succ n =>
      simp only [reaches]
      by_cases hm : m = a
      · rw [if_pos hm]
      · rw [if_neg hm, hp]
        exact ih n (by omega)

theorem is_ancestor_or_self_iff {nodes : Nat → TreeNode} (hwf : wf_levels nodes) (a m : Nat) :
    is_ancestor_or_self nodes a m = true ↔ AncestorOrSelf nodes a m :=
  ⟨reaches_sound _ _, fun h => reaches_complete hwf h _ (by omega)⟩

theorem ex_nodes_wf : wf_levels ex_nodes := by
  constructor
  · intro n h
    match n with
    | 0 | 1 | 2 | 3 | 4 | 5 | 6 | 7 => first | rfl | cases h
    | _ + 8 => rfl
  · intro n p h
    match n with
    | 0 | 1 | 2 | 3 | 4 | 5 | 6 | 7 =>
      cases h <;> rfl
    | _ + 8 => cases h

theorem prune_subtree_nodes_of_not_anc {G : Type} (s : State G) (x m : Nat)
    (h : ¬ AncestorOrSelf s.nodes x m) : (prune_subtree s x).nodes m = s.nodes m := by
  have : is_ancestor_or_self s.nodes x m = false := by
    cases hb : is_ancestor_or_self s.nodes x m with
    | false => rfl
    | true => exact absurd (reaches_sound _ _ hb) h
  simp only [prune_subtree, this]
  rfl

/-- C2: in a tree with well-formed levels, for a leaf `t` and a canonical leaf `cl` with a common
ancestor and neither an ancestor-or-self of the other, `automorphism_leaf` returns, and it
invokes `prune_subtree` exactly once, on the unique child `x` of the lowest common ancestor `l`
(reference definition `IsLCA`) that is `t` or an ancestor of `t`. -/
theorem automorphism_leaf_prunes_lca_child {G : Type} (d : Derived G) (s : State G)
    (t cl : Nat) (aut : Perm) (hwf : wf_levels s.nodes) (hc : s.canon_leaf = some cl)
    (hna : ¬ AncestorOrSelf s.nodes t cl) (hnb : ¬ AncestorOrSelf s.nodes cl t)
    (hr : ∃ r, AncestorOrSelf s.nodes r t ∧ AncestorOrSelf s.nodes r cl)
    (fuel : Nat) (hft : (s.nodes t).level ≤ fuel) (hfc : (s.nodes cl).level ≤ fuel) :
    ∃ x l s', automorphism_leaf d fuel s t aut = .ok s' ∧
      s'.trace = s.trace ++ [Event.add_automorphism t, Event.prune_subtree x] ∧
      IsLCA s.nodes l t cl ∧ (s.nodes x).get_parent = some l ∧ AncestorOrSelf s.nodes x t ∧
      ∀ z, (s.nodes z).get_parent = some l → AncestorOrSelf s.nodes z t → z = x := by
  obtain ⟨x, y, l, hrun, hxt, hyc, hxy, hpx, hpy⟩ :=
    automorphism_leaf_spec d s t cl aut hwf hc hna hnb hr fuel hft hfc
  have hlx := hwf.2 x l hpx
  have hly := hwf.2 y l hpy
  refine ⟨x, l, _, hrun, ?_, ⟨AncestorOrSelf.step hpx (AncestorOrSelf.refl l) |> fun h =>
      anc_trans h hxt, AncestorOrSelf.step hpy (AncestorOrSelf.refl l) |> fun h =>
      anc_trans h hyc, ?_⟩, hpx, hxt, ?_⟩
  · simp [prune_subtree]
  · intro m hmt hmc
    by_contra hlt
    have hxm : AncestorOrSelf s.nodes x m := anc_linear hwf hmt hxt (by omega)
    have hym : AncestorOrSelf s.nodes y m := anc_linear hwf hmc hyc (by omega)
    exact hxy (anc_unique_at_level hwf hxm hym (by omega))
  · intro z hpz hzt
    have hlz := hwf.2 z l hpz
    exact anc_unique_at_level hwf hzt hxt (by omega)

theorem automorphism_leaf_prunes_lca_child_witness :
    ∃ x l s', automorphism_leaf (ex_derived (fun _ => true) (fun _ => [])) 2 (ex_state 4) 6
        (transposition 0 1) = .ok s' ∧
      s'.trace = (ex_state 4).trace ++ [Event.add_automorphism 6, Event.prune_subtree x] ∧
      IsLCA (ex_state 4).nodes l 6 4 ∧ ((ex_state 4).nodes x).get_parent = some l ∧
      AncestorOrSelf (ex_state 4).nodes x 6 ∧
      ∀ z, ((ex_state 4).nodes z).get_parent = some l →
        AncestorOrSelf (ex_state 4).nodes z 6 → z = x :=
  automorphism_leaf_prunes_lca_child (ex_derived (fun _ => true) (fun _ => [])) (ex_state 4) 6 4
    (transposition 0 1) ex_nodes_wf rfl
    (fun h => by
      have := (is_ancestor_or_self_iff ex_nodes_wf 6 4).2 h
      revert this; decide)
    (fun h => by
      have := (is_ancestor_or_self_iff ex_nodes_wf 4 6).2 h
      revert this; decide)
    ⟨0, reaches_sound 2 6 (by decide), reaches_sound 2 4 (by decide)⟩
    2 (by decide) (by decide)

/-- C3: under the hypotheses of C2 the node `x` on which `automorphism_leaf` invokes
`prune_subtree` is neither the canonical leaf nor one of its ancestors, and the canonical leaf
and all its ancestors are left as they were (they are outside the pruned subtree). -/
theorem automorphism_leaf_spares_canon_leaf {G : Type} (d : Derived G) (s : State G)
    (t cl : Nat) (aut : Perm) (hwf : wf_levels s.nodes) (hc : s.canon_leaf = some cl)
    (hna : ¬ AncestorOrSelf s.nodes t cl) (hnb : ¬ AncestorOrSelf s.nodes cl t)
    (hr : ∃ r, AncestorOrSelf s.nodes r t ∧ AncestorOrSelf s.nodes r cl)
    (fuel : Nat) (hft : (s.nodes t).level ≤ fuel) (hfc : (s.nodes cl).level ≤ fuel) :
    ∃ x s', automorphism_leaf d fuel s t aut = .ok s' ∧
      s'.trace = s.trace ++ [Event.add_automorphism t, Event.prune_subtree x] ∧
      x ≠ cl ∧ ¬ AncestorOrSelf s.nodes x cl ∧
      is_ancestor_or_self s.nodes x cl = false ∧
      ∀ m, AncestorOrSelf s.nodes m cl → s'.nodes m = s.nodes m := by
  obtain ⟨x, y, l, hrun, hxt, hyc, hxy, hpx, hpy⟩ :=
    automorphism_leaf_spec d s t cl aut hwf hc hna hnb hr fuel hft hfc
  have hlx := hwf.2 x l hpx
  have hly := hwf.2 y l hpy
  have hnx : ¬ AncestorOrSelf s.nodes x cl := fun h =>
    hxy (anc_unique_at_level hwf h hyc (by omega))
  refine ⟨x, _, hrun, by simp [prune_subtree], ?_, hnx, ?_, ?_⟩
  · rintro rfl
    exact hnx (AncestorOrSelf.refl _)
  · cases hb : is_ancestor_or_self s.nodes x cl with
    | false => rfl
    | true => exact absurd (reaches_sound _ _ hb) hnx
  · intro m hm
    exact prune_subtree_nodes_of_not_anc _ x m (fun h => hnx (anc_trans h hm))

theorem automorphism_leaf_spares_canon_leaf_witness :
    ∃ x s', automorphism_leaf (ex_derived (fun _ => true) (fun _ => [])) 2 (ex_state 5) 7
        (transposition 0 1) = .ok s' ∧
      s'.trace = (ex_state 5).trace ++ [Event.add_automorphism 7, Event.prune_subtree x] ∧
      x ≠ 5 ∧ ¬ AncestorOrSelf (ex_state 5).nodes x 5 ∧
      is_ancestor_or_self (ex_state 5).nodes x 5 = false ∧
      ∀ m, AncestorOrSelf (ex_state 5).nodes m 5 → s'.nodes m = (ex_state 5).nodes m :=
  automorphism_leaf_spares_canon_leaf (ex_derived (fun _ => true) (fun _ => [])) (ex_state 5) 7 5
    (transposition 0 1) ex_nodes_wf rfl
    (fun h => by
      have := (is_ancestor_or_self_iff ex_nodes_wf 7 5).2 h
      revert this; decide)
    (fun h => by
      have := (is_ancestor_or_self_iff ex_nodes_wf 5 7).2 h
      revert this; decide)
    ⟨0, reaches_sound 2 7 (by decide), reaches_sound 2 5 (by decide)⟩
    2 (by decide) (by decide)

/-! ## Union-find: roots, compression, merging -/

theorem rootOfN_unique {parent : List Nat} {n i r : Nat} (h : RootOfN parent n i r) :
    ∀ {m r' : Nat}, RootOfN parent m i r' → n = m ∧ r = r' := by
  induction h with
  | root hi =>
    intro m r' h'
    cases h' with
    | root _ => exact ⟨rfl, rfl⟩
    | step hp hne _ => rw [hi] at hp; cases hp; exact absurd rfl hne
  | step hp hne _ ih =>
    intro m r' h'
    cases h' with
    | root hi => rw [hi] at hp; cases hp; exact absurd rfl hne
    | step hp' _ h'' =>
      rw [hp] at hp'; cases hp'
      obtain ⟨h1, h2⟩ := ih h''
      exact ⟨by omega, h2⟩

theorem rootOfN_root {parent : List Nat} {n i r : Nat} (h : RootOfN parent n i r) :
    parent[r]? = some r := by
  induction h with
  | root hi => exact hi
  | step _ _ _ ih => exact ih

theorem lt_of_getElem?_eq_some {α : Type} {l : List α} {i : Nat} {a : α} (h : l[i]? = some a) :
    i < l.length := by
  obtain ⟨h', _⟩ := List.getElem?_eq_some.1 h
  exact h'

theorem rootOfN_lt {parent : List Nat} {n i r : Nat} (h : RootOfN parent n i r) :
    i < parent.length := by
  cases h with
  | root hi => exact lt_of_getElem?_eq_some hi
  | step hp _ _ => exact lt_of_getElem?_eq_some hp

theorem rootOfN_root_lt {parent : List Nat} {n i r : Nat} (h : RootOfN parent n i r) :
    r < parent.length := lt_of_getElem?_eq_some (rootOfN_root h)

theorem rootOfN_of_self {parent : List Nat} {n i r : Nat} (h : RootOfN parent n i r)
    (hi : parent[i]? = some i) : n = 0 ∧ r = i := by
  obtain ⟨h1, h2⟩ := rootOfN_unique (RootOfN.root hi) h
  exact ⟨h1.symm, h2.symm⟩

theorem rootOfN_climb {parent : List Nat} :
    ∀ (a n i r : Nat), RootOfN parent n i r → a ≤ n →
      RootOfN parent (n - a) (climb parent a i) r := by
  intro a
  induction a with
  | zero => intro n i r h _; simpa [climb] using h
  | succ a ih =>
    intro n i r h ha
    cases h with
    | root _ => omega
    | @step n0 _ p _ hp hne h' =>
      have : parent.getD i i = p := by
        simp [List.getD_eq_getElem?_getD, hp]
      simp only [climb, this]
      have := ih n0 p r h' (by omega)
      simpa using this

theorem rootOfN_lt_length {parent : List Nat} {n i r : Nat} (h : RootOfN parent n i r) :
    n < parent.length := by
  have hinj : Function.Injective
      (fun a : Fin (n + 1) => (⟨climb parent a.1 i,
        rootOfN_lt (rootOfN_climb a.1 n i r h (by omega))⟩ : Fin parent.length)) := by
    intro a b hab
    have hab' : climb parent a.1 i = climb parent b.1 i := by
      simpa using congrArg Fin.val hab
    have ha := rootOfN_climb a.1 n i r h (by omega)
    have hb := rootOfN_climb b.1 n i r h (by omega)
    rw [hab'] at ha
    have := (rootOfN_unique ha hb).1
    apply Fin.ext
    omega
  have := Fintype.card_le_of_injective _ hinj
  simp only [Fintype.card_fin] at this
  omega

theorem compresses_refl (parent : List Nat) : Compresses parent parent :=
  ⟨rfl, fun _ => Iff.rfl, fun m _ _ h => ⟨m, le_refl _, h⟩⟩

theorem compresses_trans {p1 p2 p3 : List Nat} (h12 : Compresses p1 p2)
    (h23 : Compresses p2 p3) : Compresses p1 p3 := by
  refine ⟨h23.1.trans h12.1, fun j => (h23.2.1 j).trans (h12.2.1 j), ?_⟩
  intro m j r h
  obtain ⟨m', hm', h'⟩ := h12.2.2 m j r h
  obtain ⟨m'', hm'', h''⟩ := h23.2.2 m' j r h'
  exact ⟨m'', by omega, h''⟩

theorem compresses_halve {parent : List Nat} {self q pp n r : Nat}
    (hself : parent[self]? = some q) (hq : q ≠ self) (hpp : parent[q]? = some pp)
    (hppq : pp ≠ q) (hroot : RootOfN parent n self r) :
    Compresses parent (parent.set self pp) := by
  have hlt : self < parent.length := lt_of_getElem?_eq_some hself
  have hpps : pp ≠ self := by
    intro h
    subst h
    cases hroot with
    | root hi => rw [hi] at hself; cases hself; exact hq rfl
    | step hp _ h1 =>
      rw [hself] at hp; cases hp
      cases h1 with
      | root hi => rw [hi] at hpp; cases hpp; exact hppq rfl
      | step hp2 _ h2 =>
        rw [hpp] at hp2; cases hp2
        have := (rootOfN_unique h2 (RootOfN.step hself hq (RootOfN.step hpp hppq h2))).1
        omega
  refine ⟨List.length_set _ _ _, ?_, ?_⟩
  · intro j
    by_cases hj : self = j
    · subst hj
      rw [List.getElem?_set_self hlt, hself]
      constructor
      · intro h; cases h; exact absurd rfl hpps
      · intro h; cases h; exact absurd rfl hq
    · rw [List.getElem?_set_ne hj]
  · intro m
    induction m using Nat.strong_induction_on with
    | _ m ih =>
      intro j r' h
      cases h with
      | root hi =>
        have hj : self ≠ j := by
          rintro rfl
          rw [hi] at hself; cases hself; exact hq rfl
        exact ⟨0, le_refl _, RootOfN.root (by rw [List.getElem?_set_ne hj]; exact hi)⟩
      | @step m0 _ pj _ hp hne h1 =>
        by_cases hj : self = j
        · subst hj
          rw [hself] at hp; cases hp
          cases h1 with
          | root hi => rw [hi] at hpp; cases hpp; exact absurd rfl hppq
          | @step m1 _ _ _ hp2 _ h2 =>
            rw [hpp] at hp2; cases hp2
            obtain ⟨m', hm', h'⟩ := ih m1 (by omega) _ _ h2
            exact ⟨m' + 1, by omega,
              RootOfN.step (by rw [List.getElem?_set_self hlt]) hpps h'⟩
        · obtain ⟨m', hm', h'⟩ := ih m0 (by omega) _ _ h1
          exact ⟨m' + 1, by omega,
            RootOfN.step (by rw [List.getElem?_set_ne hj]; exact hp) hne h'⟩

theorem find_root_spec :
    ∀ (fuel : Nat) (parent : List Nat) (i n r : Nat), RootOfN parent n i r → n < fuel →
      ∃ parent', find_root fuel parent i = .ok (r, parent') ∧ Compresses parent parent' := by
  intro fuel
  induction fuel with
  | zero => intro _ _ n _ _ h; omega
  | succ f ih =>
    intro parent i n r h hn
    cases h with
    | root hi =>
      exact ⟨parent, by simp [find_root, rd, hi], compresses_refl _⟩
    | @step n0 _ q _ hp hne h1 =>
      cases h1 with
      | root hq =>
        exact ⟨parent, by simp [find_root, rd, hp, hne, hq], compresses_refl _⟩
      | @step n1 _ pp _ hp2 hne2 h2 =>
        have hlt : i < parent.length := lt_of_getElem?_eq_some hp
        have hc := compresses_halve hp hne hp2 hne2
          (RootOfN.step hp hne (RootOfN.step hp2 hne2 h2))
        obtain ⟨m', hm', h'⟩ := hc.2.2 _ _ _ (RootOfN.step hp2 hne2 h2)
        obtain ⟨parent', hrun, hc'⟩ := ih (parent.set i pp) q m' r h' (by omega)
        refine ⟨parent', ?_, compresses_trans hc hc'⟩
        simp [find_root, rd, wr, hp, hne, hp2, hne2, hlt, hrun]

theorem compresses_rootOf {p p' : List Nat} (h : Compresses p p') {i r : Nat}
    (hr : RootOf p i r) : RootOf p' i r := by
  obtain ⟨n, hn⟩ := hr
  obtain ⟨m, _, hm⟩ := h.2.2 n i r hn
  exact ⟨m, hm⟩

theorem compresses_forest {p p' : List Nat} (h : Compresses p p') (hf : Forest p) :
    Forest p' := by
  intro i hi
  obtain ⟨r, hr⟩ := hf i (by rw [← h.1]; exact hi)
  exact ⟨r, compresses_rootOf h hr⟩

theorem compresses_count_roots {p p' : List Nat} (h : Compresses p p') :
    count_roots p' = count_roots p := by
  unfold count_roots
  rw [h.1]
  congr 1
  apply Finset.filter_congr
  intro j _
  exact h.2.1 j

theorem merge_rootOfN {parent : List Nat} {l w : Nat} (hl : parent[l]? = some l)
    (hw : parent[w]? = some w) (hlw : l ≠ w) {m j r : Nat} (h : RootOfN parent m j r) :
    (r = l → RootOfN (parent.set l w) (m + 1) j w) ∧
    (r ≠ l → RootOfN (parent.set l w) m j r) := by
  have hll : l < parent.length := lt_of_getElem?_eq_some hl
  have hw' : (parent.set l w)[w]? = some w := by rw [List.getElem?_set_ne hlw]; exact hw
  induction h with
  | @root j hi =>
    constructor
    · rintro rfl
      exact RootOfN.step (by rw [List.getElem?_set_self hll]) (Ne.symm hlw) (RootOfN.root hw')
    · intro hj
      exact RootOfN.root (by rw [List.getElem?_set_ne (Ne.symm hj)]; exact hi)
  | @step n j q r hp hne _ ih =>
    have hj : l ≠ j := by
      rintro rfl
      rw [hl] at hp; cases hp; exact hne rfl
    have hp' : (parent.set l w)[j]? = some q := by rw [List.getElem?_set_ne hj]; exact hp
    exact ⟨fun h => RootOfN.step hp' hne (ih.1 h), fun h => RootOfN.step hp' hne (ih.2 h)⟩

theorem merge_forest {parent : List Nat} {l w : Nat} (hl : parent[l]? = some l)
    (hw : parent[w]? = some w) (hlw : l ≠ w) (hf : Forest parent) :
    Forest (parent.set l w) := by
  intro i hi
  rw [List.length_set] at hi
  obtain ⟨r, n, hn⟩ := hf i hi
  by_cases hr : r = l
  · exact ⟨w, _, (merge_rootOfN hl hw hlw hn).1 hr⟩
  · exact ⟨r, _, (merge_rootOfN hl hw hlw hn).2 hr⟩

theorem count_roots_merge {parent : List Nat} {l w : Nat} (hl : parent[l]? = some l)
    (hlw : l ≠ w) : count_roots (parent.set l w) + 1 = count_roots parent := by
  have hll : l < parent.length := lt_of_getElem?_eq_some hl
  unfold count_roots
  have hmem : l ∈ (Finset.range parent.length).filter (fun i => parent[i]? = some i) := by
    simp [hll, hl]
  have heq : (Finset.range (parent.set l w).length).filter
      (fun i => (parent.set l w)[i]? = some i) =
      ((Finset.range parent.length).filter (fun i => parent[i]? = some i)).erase l := by
    ext j
    simp only [List.length_set, Finset.mem_filter, Finset.mem_range, Finset.mem_erase]
    by_cases hj : l = j
    · subst hj
      rw [List.getElem?_set_self hll]
      constructor
      · rintro ⟨_, h⟩; cases h; exact absurd rfl hlw
      · rintro ⟨h, _⟩; exact absurd rfl h
    · rw [List.getElem?_set_ne hj]
      constructor
      · rintro ⟨h1, h2⟩; exact ⟨Ne.symm hj, h1, h2⟩
      · rintro ⟨_, h1, h2⟩; exact ⟨h1, h2⟩
  rw [heq, Finset.card_erase_of_mem hmem]
  have : 0 < ((Finset.range parent.length).filter (fun i => parent[i]? = some i)).card :=
    Finset.card_pos.2 ⟨l, hmem⟩
  omega

theorem count_roots_range (k : Nat) : count_roots (List.range k) = k := by
  unfold count_roots
  rw [List.length_range]
  have : (Finset.range k).filter (fun i => (List.range k)[i]? = some i) = Finset.range k := by
    apply Finset.filter_true_of_mem
    intro i hi
    exact List.getElem?_range (Finset.mem_range.1 hi)
  rw [this, Finset.card_range]

theorem forest_range (k : Nat) : Forest (List.range k) := by
  intro i hi
  rw [List.length_range] at hi
  exact ⟨i, 0, RootOfN.root (List.getElem?_range hi)⟩


/-! ## One call of `per_point` -/

theorem merge_order_cases (canon : Int) (cp : List Bool) (r r' : Nat) (hr : r < cp.length) :
    ∃ w l, merge_order canon cp r r' = .ok (w, l) ∧ ((w = r ∧ l = r') ∨ (w = r' ∧ l = r)) := by
  unfold merge_order
  by_cases h1 : (r : Int) = canon
  · exact ⟨r, r', by rw [if_pos h1], Or.inl ⟨rfl, rfl⟩⟩
  · rw [if_neg h1]
    by_cases h2 : (r' : Int) = canon
    · exact ⟨r', r, by rw [if_pos h2], Or.inr ⟨rfl, rfl⟩⟩
    · rw [if_neg h2]
      have hrd : rd cp r = .ok cp[r] := by
        simp [rd, List.getElem?_eq_getElem hr]
      rw [hrd]
      cases cp[r] with
      | true => exact ⟨r', r, rfl, Or.inr ⟨rfl, rfl⟩⟩
      | false =>
        by_cases h3 : r' < r
        · exact ⟨r', r, by simp [h3], Or.inr ⟨rfl, rfl⟩⟩
        · exact ⟨r, r', by simp [h3], Or.inl ⟨rfl, rfl⟩⟩

theorem per_point_spec {G : Type} (fuel : Nat) (canon : Int) (a_t : Nat) (pinv : Nat → Nat)
    (cb : Nat) (s : State G) (idx v' : Nat)
    (hf : Forest (s.nodes a_t).data.parent)
    (hfuel : (s.nodes a_t).data.parent.length ≤ fuel)
    (hcp : (s.nodes a_t).child_pruned.length = (s.nodes a_t).data.parent.length)
    (hch : (s.nodes a_t).children.length = (s.nodes a_t).data.parent.length)
    (hidx : idx < (s.nodes a_t).data.parent.length)
    (hlo : cb ≤ pinv v') (hhi : pinv v' < (s.nodes a_t).pi.get_cell_end cb)
    (himg : pinv v' - cb < (s.nodes a_t).data.parent.length) :
    ∃ r r' p2, RootOf (s.nodes a_t).data.parent idx r ∧
      RootOf (s.nodes a_t).data.parent (pinv v' - cb) r' ∧
      Compresses (s.nodes a_t).data.parent p2 ∧
      ((r = r' ∧ per_point fuel canon a_t pinv cb s idx v' = .ok (compress_result s a_t p2)) ∨
       (r ≠ r' ∧ ∃ w l, merge_order canon (s.nodes a_t).child_pruned r r' = .ok (w, l) ∧
          ((w = r ∧ l = r') ∨ (w = r' ∧ l = r)) ∧
          per_point fuel canon a_t pinv cb s idx v' = .ok (merge_result s a_t p2 w l))) := by
  obtain ⟨r, n, hn⟩ := hf idx hidx
  obtain ⟨r', n', hn'⟩ := hf _ himg
  obtain ⟨p1, hrun1, hc1⟩ := find_root_spec fuel _ idx n r hn
    (lt_of_lt_of_le (rootOfN_lt_length hn) hfuel)
  obtain ⟨m', _, hm'⟩ := hc1.2.2 _ _ _ hn'
  obtain ⟨p2, hrun2, hc2⟩ := find_root_spec fuel p1 _ m' r' hm'
    (lt_of_lt_of_le (rootOfN_lt_length hm') (by rw [hc1.1]; exact hfuel))
  have hc := compresses_trans hc1 hc2
  refine ⟨r, r', p2, ⟨n, hn⟩, ⟨n', hn'⟩, hc, ?_⟩
  have hlo' : ¬ pinv v' < cb := by omega
  have hhi' : ¬ (s.nodes a_t).pi.get_cell_end cb ≤ pinv v' := by omega
  by_cases hrr : r = r'
  · left
    refine ⟨hrr, ?_⟩
    simp only [per_point, hlo', hhi', if_false, hrun1, hrun2, hrr, if_true, compress_result]
  · right
    have hrlt : r < (s.nodes a_t).child_pruned.length := by
      rw [hcp]; exact rootOfN_root_lt hn
    have hr'lt : r' < (s.nodes a_t).child_pruned.length := by
      rw [hcp]; exact rootOfN_root_lt hn'
    obtain ⟨w, l, hmo, hwl⟩ := merge_order_cases canon (s.nodes a_t).child_pruned r r' hrlt
    refine ⟨hrr, w, l, hmo, hwl, ?_⟩
    have hl : l < (s.nodes a_t).child_pruned.length := by
      rcases hwl with ⟨_, rfl⟩ | ⟨_, rfl⟩ <;> assumption
    have hl2 : l < p2.length := by rw [hc.1, ← hcp]; exact hl
    have hl3 : l < (s.nodes a_t).children.length := by rw [hch, ← hcp]; exact hl
    simp only [per_point, hlo', hhi', if_false, hrun1, hrun2, hrr, hmo, wr, hl, hl2, if_true,
      rd, List.getElem?_eq_getElem hl3, merge_result, merge_writes]
    cases (s.nodes a_t).children[l] <;> rfl


/-! ## Induction principles for the two scanning loops -/

theorem scan_cell_induct {G : Type} (fuel : Nat) (canon : Int) (a_t : Nat)
    (pb pinv : Nat → Nat) (cb k : Nat) (aut : Perm)
    (P : State G → Prop) (Q : Perm → Nat → State G → Prop)
    (hskip : ∀ j s, P s → Q aut j s → j < k → pb (j + cb) = aut (pb (j + cb)) →
      Q aut (j + 1) s)
    (hstep : ∀ j s, P s → Q aut j s → j < k → pb (j + cb) ≠ aut (pb (j + cb)) →
      ∃ s', per_point fuel canon a_t pinv cb s j (aut (pb (j + cb))) = .ok s' ∧ P s' ∧
        Q aut (j + 1) s' ∧ ∀ aut' j', Q aut' j' s → Q aut' j' s') :
    ∀ (remaining j : Nat) (s : State G), j + remaining = k → P s → Q aut j s →
      ∃ s', scan_cell fuel canon a_t pb pinv cb aut remaining j s = .ok s' ∧ P s' ∧
        (Q aut k s' ∨ (s'.nodes a_t).data.num_roots = 0) ∧
        ∀ aut' j', Q aut' j' s → Q aut' j' s' := by
  intro remaining
  induction remaining with
  | zero =>
    intro j s hj hP hQ
    have : j = k := by omega
    subst this
    exact ⟨s, rfl, hP, Or.inl hQ, fun _ _ h => h⟩
  | succ n ih =>
    intro j s hj hP hQ
    by_cases hfix : pb (j + cb) = aut (pb (j + cb))
    · obtain ⟨s', h1, h2, h3, h4⟩ :=
        ih (j + 1) s (by omega) hP (hskip j s hP hQ (by omega) hfix)
      refine ⟨s', ?_, h2, h3, h4⟩
      simp only [scan_cell]
      rw [if_pos hfix]
      exact h1
    · obtain ⟨s1, hrun, hP1, hQ1, hst1⟩ := hstep j s hP hQ (by omega) hfix
      by_cases hz : (s1.nodes a_t).data.num_roots = 0
      · refine ⟨s1, ?_, hP1, Or.inr hz, hst1⟩
        simp only [scan_cell]
        rw [if_neg hfix]
        simp only [hrun]
        rw [if_pos hz]
      · obtain ⟨s', h1, h2, h3, h4⟩ := ih (j + 1) s1 (by omega) hP1 hQ1
        refine ⟨s', ?_, h2, h3, fun aut' j' h => h4 aut' j' (hst1 aut' j' h)⟩
        simp only [scan_cell]
        rw [if_neg hfix]
        simp only [hrun]
        rw [if_neg hz]
        exact h1

theorem scan_auts_induct {G : Type} (fuel : Nat) (canon : Int) (a_t : Nat)
    (pb pinv : Nat → Nat) (cb k : Nat) (A : Perm → Prop)
    (P : State G → Prop) (Q : Perm → Nat → State G → Prop)
    (hQ0 : ∀ aut s, A aut → P s → Q aut 0 s)
    (hskip : ∀ aut j s, A aut → P s → Q aut j s → j < k →
      pb (j + cb) = aut (pb (j + cb)) → Q aut (j + 1) s)
    (hstep : ∀ aut j s, A aut → P s → Q aut j s → j < k →
      pb (j + cb) ≠ aut (pb (j + cb)) →
      ∃ s', per_point fuel canon a_t pinv cb s j (aut (pb (j + cb))) = .ok s' ∧ P s' ∧
        Q aut (j + 1) s' ∧ ∀ aut' j', Q aut' j' s → Q aut' j' s') :
    ∀ (auts : List Perm) (s : State G), (∀ aut ∈ auts, A aut) → P s →
      ∃ s', scan_auts fuel canon a_t pb pinv cb k auts s = .ok s' ∧ P s' ∧
        ((∀ aut ∈ auts, Q aut k s') ∨ (s'.nodes a_t).data.num_roots = 0) ∧
        ∀ aut' j', Q aut' j' s → Q aut' j' s' := by
  intro auts
  induction auts with
  | nil =>
    intro s _ hP
    exact ⟨s, rfl, hP, Or.inl (fun _ h => absurd h (List.not_mem_nil _)), fun _ _ h => h⟩
  | cons aut rest ih =>
    intro s hA hP
    have hAa : A aut := hA aut (List.mem_cons_self _ _)
    obtain ⟨s1, hrun, hP1, hQ1, hst1⟩ :=
      scan_cell_induct fuel canon a_t pb pinv cb k aut P Q
        (fun j s => hskip aut j s hAa) (fun j s => hstep aut j s hAa)
        k 0 s (by omega) hP (hQ0 aut s hAa hP)
    by_cases hz : (s1.nodes a_t).data.num_roots = 0
    · refine ⟨s1, ?_, hP1, Or.inr hz, hst1⟩
      simp only [scan_auts, hrun]
      rw [if_pos hz]
    · obtain ⟨s', h1, h2, h3, h4⟩ :=
        ih s1 (fun a ha => hA a (List.mem_cons_of_mem _ ha)) hP1
      refine ⟨s', ?_, h2, ?_, fun aut' j' h => h4 aut' j' (hst1 aut' j' h)⟩
      · simp only [scan_auts, hrun]
        rw [if_neg hz]
        exact h1
      · rcases h3 with h3 | h3
        · left
          intro a ha
          rcases List.mem_cons.1 ha with rfl | ha'
          · rcases hQ1 with hQ1 | hQ1
            · exact h4 _ _ hQ1
            · exact absurd hQ1 hz
          · exact h3 a ha'
        · exact Or.inr h3


/-! ## The step relations are preorders -/

theorem static_eq_refl (a : TreeNode) : static_eq a a :=
  ⟨rfl, rfl, rfl, rfl, rfl, rfl, rfl⟩

theorem static_eq_trans {a b c : TreeNode} (h1 : static_eq a b) (h2 : static_eq b c) :
    static_eq a c :=
  ⟨h2.get_parent.trans h1.get_parent, h2.level.trans h1.level, h2.pi.trans h1.pi,
    h2.child_refiner_cell.trans h1.child_refiner_cell,
    h2.child_individualized_position.trans h1.child_individualized_position,
    h2.children.trans h1.children, h2.child_count.trans h1.child_count⟩

theorem node_mono_refl (a : TreeNode) : node_mono a a :=
  ⟨fun _ h => h, rfl, fun _ => rfl, fun _ => le_refl _, fun _ _ r h1 h2 => ⟨r, h1, h2⟩⟩

theorem node_mono_trans {a b c : TreeNode} (h1 : node_mono a b) (h2 : node_mono b c) :
    node_mono a c := by
  have hne : a.data.parent ≠ [] → b.data.parent ≠ [] := by
    intro h hb
    have := h1.len_parent h
    rw [hb] at this
    exact h (List.length_eq_zero.1 this.symm)
  refine ⟨fun i h => h2.bits i (h1.bits i h), h2.len_pruned.trans h1.len_pruned,
    fun h => (h2.len_parent (hne h)).trans (h1.len_parent h),
    fun h => le_trans (h2.num_roots (hne h)) (h1.num_roots h), ?_⟩
  intro i j r hi hj
  obtain ⟨r', hi', hj'⟩ := h1.classes i j r hi hj
  exact h2.classes i j r' hi' hj'

theorem reaches_congr {nodes nodes' : Nat → TreeNode}
    (h : ∀ m, (nodes' m).get_parent = (nodes m).get_parent) (a : Nat) :
    ∀ fuel m, reaches nodes' a fuel m = reaches nodes a fuel m := by
  intro fuel
  induction fuel with
  | zero => intro m; rfl
  | succ n ih =>
    intro m
    simp only [reaches, h m]
    by_cases hm : m = a
    · simp [hm]
    · simp only [if_neg hm]
      cases (nodes m).get_parent with
      | none => rfl
      | some p => exact ih p

theorem is_ancestor_or_self_congr {nodes nodes' : Nat → TreeNode}
    (h : ∀ m, static_eq (nodes m) (nodes' m)) (a m : Nat) :
    is_ancestor_or_self nodes' a m = is_ancestor_or_self nodes a m := by
  unfold is_ancestor_or_self
  rw [(h m).level]
  exact reaches_congr (fun m => (h m).get_parent) a _ m

theorem scan_rel_refl {G : Type} (a_t : Nat) (canon : Int) (s : State G) :
    scan_rel a_t canon s s :=
  { g_eq := rfl, canon_leaf_eq := rfl, t_path_eq := rfl, c_path_eq := rfl
    static := fun _ => static_eq_refl _
    others := fun _ _ => ⟨rfl, rfl⟩
    mono := node_mono_refl _
    canon_bit := fun _ _ => ⟨rfl, fun h => h⟩
    trace := ⟨[], by simp, fun _ h => absurd h (List.not_mem_nil _), fun _ h => Or.inl h⟩ }

theorem scan_rel_trans {G : Type} {a_t : Nat} {canon : Int} {s1 s2 s3 : State G}
    (h12 : scan_rel a_t canon s1 s2) (h23 : scan_rel a_t canon s2 s3) :
    scan_rel a_t canon s1 s3 := by
  obtain ⟨ev1, ht1, hp1, hq1⟩ := h12.trace
  obtain ⟨ev2, ht2, hp2, hq2⟩ := h23.trace
  refine
    { g_eq := h23.g_eq.trans h12.g_eq
      canon_leaf_eq := h23.canon_leaf_eq.trans h12.canon_leaf_eq
      t_path_eq := h23.t_path_eq.trans h12.t_path_eq
      c_path_eq := h23.c_path_eq.trans h12.c_path_eq
      static := fun m => static_eq_trans (h12.static m) (h23.static m)
      others := fun m hm => ⟨((h23.others m hm).1).trans (h12.others m hm).1,
        ((h23.others m hm).2).trans (h12.others m hm).2⟩
      mono := node_mono_trans h12.mono h23.mono
      canon_bit := fun c hc => ⟨((h23.canon_bit c hc).1).trans (h12.canon_bit c hc).1,
        fun h => (h23.canon_bit c hc).2 ((h12.canon_bit c hc).2 h)⟩
      trace := ⟨ev1 ++ ev2, by rw [ht2, ht1, List.append_assoc], ?_, ?_⟩ }
  · intro e he
    rcases List.mem_append.1 he with he | he
    · exact hp1 e he
    · obtain ⟨l, child, h1, h2, h3⟩ := hp2 e he
      exact ⟨l, child, h1, by rw [← (h12.static a_t).children]; exact h2, h3⟩
  · intro m hm
    rcases hq2 m hm with h | ⟨child, hc, ha⟩
    · rcases hq1 m h with h' | ⟨child, hc, ha⟩
      · exact Or.inl h'
      · exact Or.inr ⟨child, List.mem_append_left _ hc, ha⟩
    · refine Or.inr ⟨child, List.mem_append_right _ hc, ?_⟩
      rw [← is_ancestor_or_self_congr h12.static]
      exact ha


/-! ## Projections of the result states -/

theorem set_node_nodes_self {G : Type} (s : State G) (a : Nat) (nd : TreeNode) :
    (s.set_node a nd).nodes a = nd := by
  simp [State.set_node]

theorem set_node_nodes_ne {G : Type} (s : State G) (a : Nat) (nd : TreeNode) {m : Nat}
    (h : m ≠ a) : (s.set_node a nd).nodes m = s.nodes m := by
  simp [State.set_node, Function.update_noteq h]

theorem prune_subtree_node {G : Type} (s : State G) (c m : Nat) :
    (prune_subtree s c).nodes m =
      { s.nodes m with is_pruned := is_ancestor_or_self s.nodes c m || (s.nodes m).is_pruned } := by
  simp only [prune_subtree]
  cases is_ancestor_or_self s.nodes c m <;> simp

theorem prune_subtree_static {G : Type} (s : State G) (c m : Nat) :
    static_eq (s.nodes m) ((prune_subtree s c).nodes m) := by
  rw [prune_subtree_node]
  exact ⟨rfl, rfl, rfl, rfl, rfl, rfl, rfl⟩

theorem prune_subtree_data {G : Type} (s : State G) (c m : Nat) :
    ((prune_subtree s c).nodes m).data = (s.nodes m).data := by
  rw [prune_subtree_node]

theorem prune_subtree_child_pruned {G : Type} (s : State G) (c m : Nat) :
    ((prune_subtree s c).nodes m).child_pruned = (s.nodes m).child_pruned := by
  rw [prune_subtree_node]

theorem prune_subtree_is_pruned {G : Type} (s : State G) (c m : Nat) :
    ((prune_subtree s c).nodes m).is_pruned =
      (is_ancestor_or_self s.nodes c m || (s.nodes m).is_pruned) := by
  rw [prune_subtree_node]

theorem merge_order_loser_ne_canon {canon : Int} {cp : List Bool} {r r' w l : Nat}
    (h : merge_order canon cp r r' = .ok (w, l)) (hne : r ≠ r') : (l : Int) ≠ canon := by
  unfold merge_order at h
  by_cases h1 : (r : Int) = canon
  · rw [if_pos h1] at h
    cases h
    intro h2
    exact hne (by exact_mod_cast h1.trans h2.symm)
  · rw [if_neg h1] at h
    by_cases h2 : (r' : Int) = canon
    · rw [if_pos h2] at h
      cases h
      exact h1
    · rw [if_neg h2] at h
      cases hrd : rd cp r with
      | error e => rw [hrd] at h; cases h
      | ok b =>
        rw [hrd] at h
        cases b with
        | true => cases h; exact h1
        | false =>
          simp only at h
          by_cases h3 : r' < r
          · rw [if_pos h3] at h; cases h; exact h1
          · rw [if_neg h3] at h; cases h; exact h2


/-! ## The effect of one `per_point` on the invariants -/

theorem set_node_static {G : Type} (s : State G) (a : Nat) (nd : TreeNode)
    (h : static_eq (s.nodes a) nd) (m : Nat) :
    static_eq (s.nodes m) ((s.set_node a nd).nodes m) := by
  by_cases hm : m = a
  · subst hm; rw [set_node_nodes_self]; exact h
  · rw [set_node_nodes_ne s a nd hm]; exact static_eq_refl _

theorem compress_result_step {G : Type} (fuel : Nat) (canon : Int) (a_t : Nat) (s : State G)
    (p2 : List Nat) (hok : node_ok fuel (s.nodes a_t)) (huf : uf_ok (s.nodes a_t))
    (hc : Compresses (s.nodes a_t).data.parent p2) :
    node_ok fuel ((compress_result s a_t p2).nodes a_t) ∧
    uf_ok ((compress_result s a_t p2).nodes a_t) ∧
    scan_rel a_t canon s (compress_result s a_t p2) := by
  have hnode : (compress_result s a_t p2).nodes a_t =
      { s.nodes a_t with data := { (s.nodes a_t).data with parent := p2 } } :=
    set_node_nodes_self _ _ _
  have huf' : uf_ok ((compress_result s a_t p2).nodes a_t) := by
    rw [hnode]
    refine ⟨hc.1.trans huf.len_parent, compresses_forest hc huf.forest, ?_, ?_⟩
    · show (s.nodes a_t).data.num_roots + 1 = (count_roots p2 : Int)
      rw [compresses_count_roots hc]; exact huf.count
    · intro i hi hni
      exact huf.nonroot_pruned i (by rw [← hc.1]; exact hi) (fun h => hni ((hc.2.1 i).2 h))
  refine ⟨?_, huf', ?_⟩
  · rw [hnode]
    exact ⟨hok.len_pruned, hok.fuel_ok, hok.cell_size, Or.inr (by rw [← hnode]; exact huf')⟩
  · refine
      { g_eq := rfl, canon_leaf_eq := rfl, t_path_eq := rfl, c_path_eq := rfl
        static := set_node_static s a_t _ ⟨rfl, rfl, rfl, rfl, rfl, rfl, rfl⟩
        others := fun m hm => by
          rw [compress_result, set_node_nodes_ne s a_t _ hm]; exact ⟨rfl, rfl⟩
        mono := ?_
        canon_bit := ?_
        trace := ⟨[], by simp [compress_result, State.set_node],
          fun _ h => absurd h (List.not_mem_nil _), ?_⟩ }
    · rw [hnode]
      exact ⟨fun _ h => h, rfl, fun _ => hc.1, fun _ => le_refl _,
        fun i j r hi hj => ⟨r, compresses_rootOf hc hi, compresses_rootOf hc hj⟩⟩
    · intro c _
      rw [hnode]
      exact ⟨rfl, fun h => (hc.2.1 c).2 h⟩
    · intro m hm
      left
      by_cases hma : m = a_t
      · subst hma; rw [hnode] at hm; exact hm
      · rw [compress_result, set_node_nodes_ne s a_t _ hma] at hm; exact hm

theorem merge_writes_step {G : Type} (fuel : Nat) (canon : Int) (a_t : Nat) (s : State G)
    (p2 : List Nat) (w l : Nat) (hok : node_ok fuel (s.nodes a_t)) (huf : uf_ok (s.nodes a_t))
    (hc : Compresses (s.nodes a_t).data.parent p2) (hl : p2[l]? = some l)
    (hw : p2[w]? = some w) (hlw : l ≠ w) (hcanon : (l : Int) ≠ canon) :
    node_ok fuel ((merge_writes s a_t p2 w l).nodes a_t) ∧
    uf_ok ((merge_writes s a_t p2 w l).nodes a_t) ∧
    scan_rel a_t canon s (merge_writes s a_t p2 w l) := by
  have hnode : (merge_writes s a_t p2 w l).nodes a_t =
      { s.nodes a_t with
        data := { (s.nodes a_t).data with
          parent := p2.set l w, num_roots := (s.nodes a_t).data.num_roots - 1 }
        child_pruned := (s.nodes a_t).child_pruned.set l true } :=
    set_node_nodes_self _ _ _
  have hll : l < p2.length := lt_of_getElem?_eq_some hl
  have hlcp : l < (s.nodes a_t).child_pruned.length := by
    rw [hok.len_pruned, ← huf.len_parent, ← hc.1]; exact hll
  have hf2 : Forest p2 := compresses_forest hc huf.forest
  have huf' : uf_ok ((merge_writes s a_t p2 w l).nodes a_t) := by
    rw [hnode]
    refine ⟨?_, merge_forest hl hw hlw hf2, ?_, ?_⟩
    · show (p2.set l w).length = _
      rw [List.length_set, hc.1]; exact huf.len_parent
    · show (s.nodes a_t).data.num_roots - 1 + 1 = (count_roots (p2.set l w) : Int)
      have h1 := count_roots_merge hl hlw
      have h2 := compresses_count_roots hc
      have h3 := huf.count
      omega
    · intro i hi hni
      show ((s.nodes a_t).child_pruned.set l true)[i]? = some true
      by_cases hil : l = i
      · subst hil; exact List.getElem?_set_self hlcp
      · rw [List.getElem?_set_ne hil]
        have hi' : i < (s.nodes a_t).data.parent.length := by
          have : i < (p2.set l w).length := hi
          rw [List.length_set, hc.1] at this; exact this
        refine huf.nonroot_pruned i hi' (fun h => hni ?_)
        show (p2.set l w)[i]? = some i
        rw [List.getElem?_set_ne hil]
        exact (hc.2.1 i).2 h
  refine ⟨?_, huf', ?_⟩
  · rw [hnode]
    refine ⟨?_, hok.fuel_ok, hok.cell_size, Or.inr (by rw [← hnode]; exact huf')⟩
    show ((s.nodes a_t).child_pruned.set l true).length = _
    rw [List.length_set]; exact hok.len_pruned
  · refine
      { g_eq := rfl, canon_leaf_eq := rfl, t_path_eq := rfl, c_path_eq := rfl
        static := set_node_static s a_t _ ⟨rfl, rfl, rfl, rfl, rfl, rfl, rfl⟩
        others := fun m hm => by
          rw [merge_writes, set_node_nodes_ne s a_t _ hm]; exact ⟨rfl, rfl⟩
        mono := ?_
        canon_bit := ?_
        trace := ⟨[], by simp [merge_writes, State.set_node],
          fun _ h => absurd h (List.not_mem_nil _), ?_⟩ }
    · rw [hnode]
      refine ⟨?_, List.length_set _ _ _, fun _ => ?_, fun _ => ?_, ?_⟩
      · intro i hi
        show ((s.nodes a_t).child_pruned.set l true)[i]? = some true
        by_cases hil : l = i
        · subst hil; exact List.getElem?_set_self hlcp
        · rw [List.getElem?_set_ne hil]; exact hi
      · show (p2.set l w).length = _
        rw [List.length_set]; exact hc.1
      · show (s.nodes a_t).data.num_roots - 1 ≤ (s.nodes a_t).data.num_roots
        omega
      · intro i j r hi hj
        obtain ⟨n, hn⟩ := compresses_rootOf hc hi
        obtain ⟨m, hm⟩ := compresses_rootOf hc hj
        by_cases hr : r = l
        · exact ⟨w, ⟨_, (merge_rootOfN hl hw hlw hn).1 hr⟩,
            ⟨_, (merge_rootOfN hl hw hlw hm).1 hr⟩⟩
        · exact ⟨r, ⟨_, (merge_rootOfN hl hw hlw hn).2 hr⟩,
            ⟨_, (merge_rootOfN hl hw hlw hm).2 hr⟩⟩
    · intro c hcc
      have hlc : l ≠ c := fun h => hcanon (by rw [h]; exact hcc)
      rw [hnode]
      refine ⟨List.getElem?_set_ne hlc, fun h => ?_⟩
      show (p2.set l w)[c]? = some c
      rw [List.getElem?_set_ne hlc]
      exact (hc.2.1 c).2 h
    · intro m hm
      left
      by_cases hma : m = a_t
      · subst hma; rw [hnode] at hm; exact hm
      · rw [merge_writes, set_node_nodes_ne s a_t _ hma] at hm; exact hm

theorem prune_subtree_step {G : Type} (fuel : Nat) (canon : Int) (a_t : Nat) (s : State G)
    (l child : Nat) (hok : node_ok fuel (s.nodes a_t)) (huf : uf_ok (s.nodes a_t))
    (hch : (s.nodes a_t).children[l]? = some (some child)) (hcanon : (l : Int) ≠ canon) :
    node_ok fuel ((prune_subtree s child).nodes a_t) ∧
    uf_ok ((prune_subtree s child).nodes a_t) ∧
    scan_rel a_t canon s (prune_subtree s child) := by
  have huf' : uf_ok ((prune_subtree s child).nodes a_t) := by
    rw [prune_subtree_node]
    exact ⟨huf.len_parent, huf.forest, huf.count, huf.nonroot_pruned⟩
  refine ⟨?_, huf', ?_⟩
  · have h := huf'
    rw [prune_subtree_node] at h ⊢
    exact ⟨hok.len_pruned, hok.fuel_ok, hok.cell_size, Or.inr h⟩
  · refine
      { g_eq := rfl, canon_leaf_eq := rfl, t_path_eq := rfl, c_path_eq := rfl
        static := fun m => prune_subtree_static s child m
        others := fun m _ => ⟨prune_subtree_data s child m, prune_subtree_child_pruned s child m⟩
        mono := ?_
        canon_bit := fun c _ => by
          rw [prune_subtree_child_pruned, prune_subtree_data]; exact ⟨rfl, fun h => h⟩
        trace := ⟨[Event.prune_subtree child], rfl, ?_, ?_⟩ }
    · rw [prune_subtree_node]
      exact ⟨fun _ h => h, rfl, fun _ => rfl, fun _ => le_refl _,
        fun i j r hi hj => ⟨r, hi, hj⟩⟩
    · intro e he
      rw [List.mem_singleton] at he
      exact ⟨l, child, he, hch, hcanon⟩
    · intro m hm
      rw [prune_subtree_is_pruned, Bool.or_eq_true] at hm
      rcases hm with hm | hm
      · exact Or.inr ⟨child, List.mem_singleton_self _, hm⟩
      · exact Or.inl hm

theorem merge_result_step {G : Type} (fuel : Nat) (canon : Int) (a_t : Nat) (s : State G)
    (p2 : List Nat) (w l : Nat) (hok : node_ok fuel (s.nodes a_t)) (huf : uf_ok (s.nodes a_t))
    (hc : Compresses (s.nodes a_t).data.parent p2) (hl : p2[l]? = some l)
    (hw : p2[w]? = some w) (hlw : l ≠ w) (hcanon : (l : Int) ≠ canon) :
    node_ok fuel ((merge_result s a_t p2 w l).nodes a_t) ∧
    uf_ok ((merge_result s a_t p2 w l).nodes a_t) ∧
    scan_rel a_t canon s (merge_result s a_t p2 w l) := by
  obtain ⟨h1, h2, h3⟩ := merge_writes_step fuel canon a_t s p2 w l hok huf hc hl hw hlw hcanon
  unfold merge_result
  cases hch : (s.nodes a_t).children[l]? with
  | none => exact ⟨h1, h2, h3⟩
  | some oc =>
    cases oc with
    | none => exact ⟨h1, h2, h3⟩
    | some child =>
      have hch' : ((merge_writes s a_t p2 w l).nodes a_t).children[l]? = some (some child) := by
        rw [(h3.static a_t).children]; exact hch
      obtain ⟨k1, k2, k3⟩ := prune_subtree_step fuel canon a_t _ l child h1 h2 hch' hcanon
      exact ⟨k1, k2, scan_rel_trans h3 k3⟩


theorem merge_result_data {G : Type} (s : State G) (a_t : Nat) (p2 : List Nat) (w l : Nat) :
    ((merge_result s a_t p2 w l).nodes a_t).data =
      { (s.nodes a_t).data with
        parent := p2.set l w, num_roots := (s.nodes a_t).data.num_roots - 1 } := by
  unfold merge_result
  split
  · rw [prune_subtree_data, merge_writes, set_node_nodes_self]
  · rw [merge_writes, set_node_nodes_self]

theorem merge_result_child_pruned {G : Type} (s : State G) (a_t : Nat) (p2 : List Nat)
    (w l : Nat) :
    ((merge_result s a_t p2 w l).nodes a_t).child_pruned =
      (s.nodes a_t).child_pruned.set l true := by
  unfold merge_result
  split
  · rw [prune_subtree_child_pruned, merge_writes, set_node_nodes_self]
  · rw [merge_writes, set_node_nodes_self]

theorem merge_result_trace {G : Type} (s : State G) (a_t : Nat) (p2 : List Nat) (w l : Nat) :
    (merge_result s a_t p2 w l).trace = s.trace ++
      (match (s.nodes a_t).children[l]? with
        | some (some child) => [Event.prune_subtree child]
        | _ => []) := by
  unfold merge_result
  split
  · rfl
  · simp [merge_writes, State.set_node]

/-- Everything one call of `per_point` does, under the node invariant. -/
theorem per_point_step {G : Type} (fuel : Nat) (canon : Int) (a_t : Nat) (pinv : Nat → Nat)
    (cb : Nat) (s : State G) (idx v' : Nat)
    (hok : node_ok fuel (s.nodes a_t)) (huf : uf_ok (s.nodes a_t))
    (hidx : idx < (s.nodes a_t).children.length)
    (hlo : cb ≤ pinv v') (hhi : pinv v' < (s.nodes a_t).pi.get_cell_end cb)
    (himg : pinv v' - cb < (s.nodes a_t).children.length) :
    ∃ s', per_point fuel canon a_t pinv cb s idx v' = .ok s' ∧
      node_ok fuel (s'.nodes a_t) ∧ uf_ok (s'.nodes a_t) ∧ scan_rel a_t canon s s' ∧
      ∃ r, RootOf (s'.nodes a_t).data.parent idx r ∧
        RootOf (s'.nodes a_t).data.parent (pinv v' - cb) r := by
  have hlp := huf.len_parent
  obtain ⟨r, r', p2, hr, hr', hc, hcase⟩ :=
    per_point_spec fuel canon a_t pinv cb s idx v' huf.forest
      (by rw [hlp]; exact hok.fuel_ok) (by rw [hlp]; exact hok.len_pruned) hlp.symm
      (by rw [hlp]; exact hidx) hlo hhi (by rw [hlp]; exact himg)
  rcases hcase with ⟨hrr, hrun⟩ | ⟨hrr, w, l, hmo, hwl, hrun⟩
  · obtain ⟨h1, h2, h3⟩ := compress_result_step fuel canon a_t s p2 hok huf hc
    refine ⟨_, hrun, h1, h2, h3, r, ?_, ?_⟩
    · rw [compress_result, set_node_nodes_self]; exact compresses_rootOf hc hr
    · rw [compress_result, set_node_nodes_self, hrr]; exact compresses_rootOf hc hr'
  · obtain ⟨n, hn⟩ := compresses_rootOf hc hr
    obtain ⟨n', hn'⟩ := compresses_rootOf hc hr'
    have hrroot := rootOfN_root hn
    have hr'root := rootOfN_root hn'
    have hl : p2[l]? = some l := by
      rcases hwl with ⟨_, rfl⟩ | ⟨_, rfl⟩ <;> assumption
    have hw : p2[w]? = some w := by
      rcases hwl with ⟨rfl, _⟩ | ⟨rfl, _⟩ <;> assumption
    have hlw : l ≠ w := by
      rcases hwl with ⟨rfl, rfl⟩ | ⟨rfl, rfl⟩
      · exact Ne.symm hrr
      · exact hrr
    have hcanon := merge_order_loser_ne_canon hmo hrr
    obtain ⟨h1, h2, h3⟩ :=
      merge_result_step fuel canon a_t s p2 w l hok huf hc hl hw hlw hcanon
    refine ⟨_, hrun, h1, h2, h3, w, ?_, ?_⟩
    · rw [merge_result_data]
      by_cases h : r = l
      · exact ⟨_, (merge_rootOfN hl hw hlw hn).1 h⟩
      · have : r = w := by
          rcases hwl with ⟨rfl, _⟩ | ⟨_, rfl⟩
          · rfl
          · exact absurd rfl h
        subst this
        exact ⟨_, (merge_rootOfN hl hw hlw hn).2 h⟩
    · rw [merge_result_data]
      by_cases h : r' = l
      · exact ⟨_, (merge_rootOfN hl hw hlw hn').1 h⟩
      · have : r' = w := by
          rcases hwl with ⟨_, rfl⟩ | ⟨rfl, _⟩
          · exact absurd rfl h
          · rfl
        subst this
        exact ⟨_, (merge_rootOfN hl hw hlw hn').2 h⟩

/-- The scan of a list of cell-preserving generators at a node satisfying the invariant:
it returns, keeps the invariant, and either every moved index has been put into the class of
its image or a single root is left. -/
theorem scan_auts_spec {G : Type} (fuel : Nat) (canon : Int) (a_t : Nat) (s0 : State G)
    (auts : List Perm) (hok : node_ok fuel (s0.nodes a_t)) (huf : uf_ok (s0.nodes a_t))
    (hA : ∀ aut ∈ auts, maps_cell (s0.nodes a_t) aut) :
    ∃ s', scan_auts fuel canon a_t (s0.nodes a_t).pi.get (s0.nodes a_t).pi.get_inverse
        (s0.nodes a_t).child_refiner_cell (s0.nodes a_t).children.length auts s0 = .ok s' ∧
      node_ok fuel (s'.nodes a_t) ∧ uf_ok (s'.nodes a_t) ∧ scan_rel a_t canon s0 s' ∧
      ((∀ aut ∈ auts, ∀ i, i < (s0.nodes a_t).children.length →
          (s0.nodes a_t).pi.get (i + (s0.nodes a_t).child_refiner_cell) ≠
            aut ((s0.nodes a_t).pi.get (i + (s0.nodes a_t).child_refiner_cell)) →
          ∃ r, RootOf (s'.nodes a_t).data.parent i r ∧
            RootOf (s'.nodes a_t).data.parent (image_local (s0.nodes a_t) aut i) r) ∨
        (s'.nodes a_t).data.num_roots = 0) := by
  obtain ⟨s', hrun, ⟨h1, h2, h3⟩, h4, _⟩ :=
    scan_auts_induct fuel canon a_t (s0.nodes a_t).pi.get (s0.nodes a_t).pi.get_inverse
      (s0.nodes a_t).child_refiner_cell (s0.nodes a_t).children.length
      (maps_cell (s0.nodes a_t))
      (fun s => node_ok fuel (s.nodes a_t) ∧ uf_ok (s.nodes a_t) ∧ scan_rel a_t canon s0 s)
      (fun aut j s => ∀ i, i < j →
          (s0.nodes a_t).pi.get (i + (s0.nodes a_t).child_refiner_cell) ≠
            aut ((s0.nodes a_t).pi.get (i + (s0.nodes a_t).child_refiner_cell)) →
          ∃ r, RootOf (s.nodes a_t).data.parent i r ∧
            RootOf (s.nodes a_t).data.parent (image_local (s0.nodes a_t) aut i) r)
      (fun _ _ _ _ i hi => absurd hi (Nat.not_lt_zero i))
      (by
        intro aut j s _ _ hQ _ hfix i hi hmv
        by_cases hij : i = j
        · subst hij; exact absurd hfix hmv
        · exact hQ i (by omega) hmv)
      (by
        intro aut j s hAa ⟨hok1, huf1, hrel⟩ hQ hj hmv
        have hst := hrel.static a_t
        have hm := hAa j hj
        have hk : 0 < (s0.nodes a_t).children.length := by omega
        obtain ⟨s', hrun, k1, k2, k3, r, hr1, hr2⟩ :=
          per_point_step fuel canon a_t (s0.nodes a_t).pi.get_inverse
            (s0.nodes a_t).child_refiner_cell s j
            (aut ((s0.nodes a_t).pi.get (j + (s0.nodes a_t).child_refiner_cell)))
            hok1 huf1 (by rw [hst.children]; exact hj) hm.1
            (by rw [hst.pi]; exact hm.2)
            (by
              rw [hst.children]
              have := hok.cell_size hk
              have := hm.2
              omega)
        refine ⟨s', hrun, ⟨k1, k2, scan_rel_trans hrel k3⟩, ?_, ?_⟩
        · intro i hi hmv'
          by_cases hij : i = j
          · subst hij; exact ⟨r, hr1, hr2⟩
          · obtain ⟨r0, h1, h2⟩ := hQ i (by omega) hmv'
            exact k3.mono.classes _ _ r0 h1 h2
        · intro aut' j' hQ' i hi hmv'
          obtain ⟨r0, h1, h2⟩ := hQ' i hi hmv'
          exact k3.mono.classes _ _ r0 h1 h2)
      auts s0 hA ⟨hok, huf, scan_rel_refl _ _ _⟩
  exact ⟨s', hrun, h1, h2, h3, h4⟩


/-! ## The merge rule of `per_point` -/

theorem rootOf_unique {parent : List Nat} {i r r' : Nat} (h : RootOf parent i r)
    (h' : RootOf parent i r') : r = r' := by
  obtain ⟨n, hn⟩ := h
  obtain ⟨m, hm⟩ := h'
  exact (rootOfN_unique hn hm).2

theorem rootOf_self {parent : List Nat} {i : Nat} (h : parent[i]? = some i) :
    RootOf parent i i := ⟨0, RootOfN.root h⟩

theorem rootOf_root {parent : List Nat} {i r : Nat} (h : RootOf parent i r) :
    parent[r]? = some r := by
  obtain ⟨n, hn⟩ := h
  exact rootOfN_root hn

theorem uf_ok_of_range (nd : TreeNode) (h1 : nd.data.parent = List.range nd.children.length)
    (h2 : nd.data.num_roots = (nd.children.length : Int) - 1) : uf_ok nd := by
  refine ⟨by rw [h1, List.length_range], by rw [h1]; exact forest_range _, ?_, ?_⟩
  · rw [h1, count_roots_range, h2]; omega
  · intro i hi hni
    rw [h1] at hi hni
    rw [List.length_range] at hi
    exact absurd (List.getElem?_range hi) hni

theorem ex_root_init_uf_ok (cp : List Bool) : uf_ok (ex_root_init cp) :=
  uf_ok_of_range _ rfl rfl

theorem ex_root_init_node_ok (cp : List Bool) (h : cp.length = 3) :
    node_ok 3 (ex_root_init cp) :=
  ⟨h, Nat.le_refl 3, fun _ => rfl, Or.inr (ex_root_init_uf_ok cp)⟩

/-- The effect of a `per_point` that merges, given the outcome of the merge rule. -/
theorem per_point_merge_core {G : Type} (fuel : Nat) (canon : Int) (a_t : Nat)
    (pinv : Nat → Nat) (cb : Nat) (s : State G) (idx v' : Nat)
    (hok : node_ok fuel (s.nodes a_t)) (huf : uf_ok (s.nodes a_t))
    (hidx : idx < (s.nodes a_t).children.length)
    (hlo : cb ≤ pinv v') (hhi : pinv v' < (s.nodes a_t).pi.get_cell_end cb)
    (himg : pinv v' - cb < (s.nodes a_t).children.length) (r r' : Nat)
    (hr : RootOf (s.nodes a_t).data.parent idx r)
    (hr' : RootOf (s.nodes a_t).data.parent (pinv v' - cb) r') (hne : r ≠ r') :
    ∃ s' p2 w l, per_point fuel canon a_t pinv cb s idx v' = .ok s' ∧
      Compresses (s.nodes a_t).data.parent p2 ∧
      merge_order canon (s.nodes a_t).child_pruned r r' = .ok (w, l) ∧
      ((w = r ∧ l = r') ∨ (w = r' ∧ l = r)) ∧
      (s'.nodes a_t).data.parent = p2.set l w ∧
      (s'.nodes a_t).data.num_roots = (s.nodes a_t).data.num_roots - 1 ∧
      (s'.nodes a_t).child_pruned = (s.nodes a_t).child_pruned.set l true ∧
      s'.trace = s.trace ++
        (match (s.nodes a_t).children[l]? with
          | some (some child) => [Event.prune_subtree child]
          | _ => []) := by
  have hlp := huf.len_parent
  obtain ⟨r0, r0', p2, hr0, hr0', hc, hcase⟩ :=
    per_point_spec fuel canon a_t pinv cb s idx v' huf.forest
      (by rw [hlp]; exact hok.fuel_ok) (by rw [hlp]; exact hok.len_pruned) hlp.symm
      (by rw [hlp]; exact hidx) hlo hhi (by rw [hlp]; exact himg)
  have e1 := rootOf_unique hr0 hr
  have e2 := rootOf_unique hr0' hr'
  subst e1 e2
  rcases hcase with ⟨hrr, _⟩ | ⟨_, w, l, hmo, hwl, hrun⟩
  · exact absurd hrr hne
  · refine ⟨_, p2, w, l, hrun, hc, hmo, hwl, ?_, ?_, merge_result_child_pruned _ _ _ _ _,
      merge_result_trace _ _ _ _ _⟩
    · rw [merge_result_data]
    · rw [merge_result_data]


/-- C7: a `per_point` at `a_t` whose two indices have distinct roots `r` and `r'` returns, and
with `w` the winner and `l` the loser (one is `r`, the other `r'`): `parent[l]` is `w`, `w` is
still a root, `num_roots` has decreased by exactly one, `child_pruned[l]` is true and no other
bit of `child_pruned` has changed, and the trace gains `prune_subtree` on `children[l]` exactly
when that slot holds a node, and nothing else. -/
theorem per_point_merge_effect {G : Type} (fuel : Nat) (canon : Int) (a_t : Nat)
    (pinv : Nat → Nat) (cb : Nat) (s : State G) (idx v' : Nat)
    (hok : node_ok fuel (s.nodes a_t)) (huf : uf_ok (s.nodes a_t))
    (hidx : idx < (s.nodes a_t).children.length)
    (hlo : cb ≤ pinv v') (hhi : pinv v' < (s.nodes a_t).pi.get_cell_end cb)
    (himg : pinv v' - cb < (s.nodes a_t).children.length) (r r' : Nat)
    (hr : RootOf (s.nodes a_t).data.parent idx r)
    (hr' : RootOf (s.nodes a_t).data.parent (pinv v' - cb) r') (hne : r ≠ r') :
    ∃ s' w l, per_point fuel canon a_t pinv cb s idx v' = .ok s' ∧
      ((w = r ∧ l = r') ∨ (w = r' ∧ l = r)) ∧
      (s'.nodes a_t).data.parent[l]? = some w ∧
      (s'.nodes a_t).data.parent[w]? = some w ∧
      (s'.nodes a_t).data.num_roots = (s.nodes a_t).data.num_roots - 1 ∧
      (s'.nodes a_t).child_pruned[l]? = some true ∧
      (∀ i, i ≠ l → (s'.nodes a_t).child_pruned[i]? = (s.nodes a_t).child_pruned[i]?) ∧
      s'.trace = s.trace ++
        (match (s.nodes a_t).children[l]? with
          | some (some child) => [Event.prune_subtree child]
          | _ => []) := by
  obtain ⟨s', p2, w, l, hrun, hc, _, hwl, hp, hnr, hcp, htr⟩ :=
    per_point_merge_core fuel canon a_t pinv cb s idx v' hok huf hidx hlo hhi himg r r' hr hr' hne
  have hrroot : p2[r]? = some r := (hc.2.1 r).2 (rootOf_root hr)
  have hr'root : p2[r']? = some r' := (hc.2.1 r').2 (rootOf_root hr')
  have hl : p2[l]? = some l := by
    rcases hwl with ⟨_, rfl⟩ | ⟨_, rfl⟩ <;> assumption
  have hw : p2[w]? = some w := by
    rcases hwl with ⟨rfl, _⟩ | ⟨rfl, _⟩ <;> assumption
  have hlw : l ≠ w := by
    rcases hwl with ⟨rfl, rfl⟩ | ⟨rfl, rfl⟩
    · exact Ne.symm hne
    · exact hne
  have hll : l < p2.length := lt_of_getElem?_eq_some hl
  have hlcp : l < (s.nodes a_t).child_pruned.length := by
    rw [hok.len_pruned, ← huf.len_parent, ← hc.1]; exact hll
  refine ⟨s', w, l, hrun, hwl, ?_, ?_, hnr, ?_, ?_, htr⟩
  · rw [hp]; exact List.getElem?_set_self hll
  · rw [hp, List.getElem?_set_ne hlw]; exact hw
  · rw [hcp]; exact List.getElem?_set_self hlcp
  · intro i hi
    rw [hcp]; exact List.getElem?_set_ne (Ne.symm hi)

theorem per_point_merge_effect_witness :
    ∃ s' w l, per_point 3 (-1) 0 (ex_nodes 0).pi.get_inverse 0
        (ex_state_init 4 [false, false, false]) 0 1 = .ok s' ∧
      ((w = 0 ∧ l = 1) ∨ (w = 1 ∧ l = 0)) ∧
      (s'.nodes 0).data.parent[l]? = some w ∧
      (s'.nodes 0).data.parent[w]? = some w ∧
      (s'.nodes 0).data.num_roots =
        ((ex_state_init 4 [false, false, false]).nodes 0).data.num_roots - 1 ∧
      (s'.nodes 0).child_pruned[l]? = some true ∧
      (∀ i, i ≠ l → (s'.nodes 0).child_pruned[i]? =
        ((ex_state_init 4 [false, false, false]).nodes 0).child_pruned[i]?) ∧
      s'.trace = (ex_state_init 4 [false, false, false]).trace ++
        (match ((ex_state_init 4 [false, false, false]).nodes 0).children[l]? with
          | some (some child) => [Event.prune_subtree child]
          | _ => []) :=
  per_point_merge_effect 3 (-1) 0 (ex_nodes 0).pi.get_inverse 0
    (ex_state_init 4 [false, false, false]) 0 1
    (ex_root_init_node_ok _ rfl) (ex_root_init_uf_ok _) (by decide) (by decide) (by decide)
    (by decide) 0 1 (rootOf_self rfl) (rootOf_self rfl) (by decide)

/-- C6: when the two distinct roots `r` and `r'` both differ from `canon_child_local_idx` and
neither is marked in `child_pruned`, the merge of `per_point` makes `min r r'` the winner and
`max r r'` the loser. -/
theorem per_point_merge_smaller_wins {G : Type} (fuel : Nat) (canon : Int) (a_t : Nat)
    (pinv : Nat → Nat) (cb : Nat) (s : State G) (idx v' : Nat)
    (hok : node_ok fuel (s.nodes a_t)) (huf : uf_ok (s.nodes a_t))
    (hidx : idx < (s.nodes a_t).children.length)
    (hlo : cb ≤ pinv v') (hhi : pinv v' < (s.nodes a_t).pi.get_cell_end cb)
    (himg : pinv v' - cb < (s.nodes a_t).children.length) (r r' : Nat)
    (hr : RootOf (s.nodes a_t).data.parent idx r)
    (hr' : RootOf (s.nodes a_t).data.parent (pinv v' - cb) r') (hne : r ≠ r')
    (hc1 : (r : Int) ≠ canon) (hc2 : (r' : Int) ≠ canon)
    (hp1 : (s.nodes a_t).child_pruned[r]? = some false)
    (_hp2 : (s.nodes a_t).child_pruned[r']? = some false) :
    merge_order canon (s.nodes a_t).child_pruned r r' = .ok (min r r', max r r') ∧
    ∃ s' p2, per_point fuel canon a_t pinv cb s idx v' = .ok s' ∧
      Compresses (s.nodes a_t).data.parent p2 ∧
      (s'.nodes a_t).data.parent = p2.set (max r r') (min r r') ∧
      (s'.nodes a_t).child_pruned = (s.nodes a_t).child_pruned.set (max r r') true := by
  have hmo : merge_order canon (s.nodes a_t).child_pruned r r' = .ok (min r r', max r r') := by
    unfold merge_order
    rw [if_neg hc1, if_neg hc2]
    simp only [rd, hp1]
    by_cases h : r' < r
    · rw [if_pos h, Nat.min_eq_right (le_of_lt h), Nat.max_eq_left (le_of_lt h)]
    · rw [if_neg h, Nat.min_eq_left (by omega), Nat.max_eq_right (by omega)]
  refine ⟨hmo, ?_⟩
  obtain ⟨s', p2, w, l, hrun, hc, hmo', _, hp, _, hcp, _⟩ :=
    per_point_merge_core fuel canon a_t pinv cb s idx v' hok huf hidx hlo hhi himg r r' hr hr' hne
  rw [hmo] at hmo'
  cases hmo'
  exact ⟨s', p2, hrun, hc, hp, hcp⟩

theorem per_point_merge_smaller_wins_witness :
    merge_order (-1) ((ex_state_init 4 [false, false, false]).nodes 0).child_pruned 2 1 =
      .ok (min 2 1, max 2 1) ∧
    ∃ s' p2, per_point 3 (-1) 0 (ex_nodes 0).pi.get_inverse 0
        (ex_state_init 4 [false, false, false]) 2 1 = .ok s' ∧
      Compresses ((ex_state_init 4 [false, false, false]).nodes 0).data.parent p2 ∧
      (s'.nodes 0).data.parent = p2.set (max 2 1) (min 2 1) ∧
      (s'.nodes 0).child_pruned =
        ((ex_state_init 4 [false, false, false]).nodes 0).child_pruned.set (max 2 1) true :=
  per_point_merge_smaller_wins 3 (-1) 0 (ex_nodes 0).pi.get_inverse 0
    (ex_state_init 4 [false, false, false]) 2 1
    (ex_root_init_node_ok _ rfl) (ex_root_init_uf_ok _) (by decide) (by decide) (by decide)
    (by decide) 2 1 (rootOf_self rfl) (rootOf_self rfl) (by decide) (by decide) (by decide)
    rfl rfl

/-- C5, counterexample: the roots `0` and `1` are merged, neither is the protected index
(`canon_child_local_idx = -1`) and the root `0` of the scanned index is already marked in
`child_pruned`; the marked root does not stay the root (`parent[0]` becomes `1`), the other
root is not marked, and `prune_subtree` is invoked on the child in the slot of the marked
root. -/
theorem per_point_pruned_root_loses :
    ((ex_state_init 4 [true, false, false]).nodes 0).child_pruned = [true, false, false] ∧
    node_view (per_point 3 (-1) 0 (ex_nodes 0).pi.get_inverse 0
        (ex_state_init 4 [true, false, false]) 0 1) 0 =
      some ([1, 1, 2], 1, [true, false, false]) ∧
    result_pruned_calls (per_point 3 (-1) 0 (ex_nodes 0).pi.get_inverse 0
        (ex_state_init 4 [true, false, false]) 0 1) = some [1] := by
  decide

/-- C5, second counterexample: only the root `1` of the image is marked in `child_pruned`;
the smaller root `0` wins although it is the unmarked one, so the marked root does not win. -/
theorem per_point_pruned_image_root_loses :
    node_view (per_point 3 (-1) 0 (ex_nodes 0).pi.get_inverse 0
        (ex_state_init 4 [false, true, false]) 0 1) 0 =
      some ([0, 0, 2], 1, [false, true, false]) := by
  decide

/-- C5, amended: in a merge of two distinct roots `r` (of the scanned index) and `r'` (of its
image), neither of them `canon_child_local_idx`, the call returns, writes `parent[l] = w` and
`child_pruned[l] = true` for the loser `l` and the winner `w`, and its trace gains
`prune_subtree` on `children[l]` exactly when that slot holds a node.  If `child_pruned[r]` is
set, then `r'` wins and the already marked `r` is the loser: `child_pruned` is unchanged and
`prune_subtree` is invoked on `children[r]` if present; if `child_pruned[r]` is not set, the
smaller of the two wins, whatever `child_pruned[r']` is. -/
theorem per_point_merge_pruned_root {G : Type} (fuel : Nat) (canon : Int) (a_t : Nat)
    (pinv : Nat → Nat) (cb : Nat) (s : State G) (idx v' : Nat)
    (hok : node_ok fuel (s.nodes a_t)) (huf : uf_ok (s.nodes a_t))
    (hidx : idx < (s.nodes a_t).children.length)
    (hlo : cb ≤ pinv v') (hhi : pinv v' < (s.nodes a_t).pi.get_cell_end cb)
    (himg : pinv v' - cb < (s.nodes a_t).children.length) (r r' : Nat)
    (hr : RootOf (s.nodes a_t).data.parent idx r)
    (hr' : RootOf (s.nodes a_t).data.parent (pinv v' - cb) r') (hne : r ≠ r')
    (hc1 : (r : Int) ≠ canon) (hc2 : (r' : Int) ≠ canon) :
    ∃ s' p2 w l, per_point fuel canon a_t pinv cb s idx v' = .ok s' ∧
      Compresses (s.nodes a_t).data.parent p2 ∧
      (s'.nodes a_t).data.parent = p2.set l w ∧
      (s'.nodes a_t).child_pruned = (s.nodes a_t).child_pruned.set l true ∧
      s'.trace = s.trace ++
        (match (s.nodes a_t).children[l]? with
          | some (some child) => [Event.prune_subtree child]
          | _ => []) ∧
      ((s.nodes a_t).child_pruned[r]? = some true →
        w = r' ∧ l = r ∧ (s'.nodes a_t).child_pruned = (s.nodes a_t).child_pruned ∧
        (∀ child, (s.nodes a_t).children[r]? = some (some child) →
          s'.trace = s.trace ++ [Event.prune_subtree child]) ∧
        ((s.nodes a_t).children[r]? = some none → s'.trace = s.trace)) ∧
      ((s.nodes a_t).child_pruned[r]? = some false → w = min r r' ∧ l = max r r') := by
  obtain ⟨s', p2, w, l, hrun, hc, hmo, _, hp, _, hcp, htr⟩ :=
    per_point_merge_core fuel canon a_t pinv cb s idx v' hok huf hidx hlo hhi himg r r' hr hr' hne
  refine ⟨s', p2, w, l, hrun, hc, hp, hcp, htr, ?_, ?_⟩
  · intro hpr
    unfold merge_order at hmo
    rw [if_neg hc1, if_neg hc2] at hmo
    simp only [rd, hpr] at hmo
    cases hmo
    refine ⟨rfl, rfl, ?_, ?_, ?_⟩
    · rw [hcp]
      apply List.ext_getElem?
      intro i
      by_cases hi : r = i
      · subst hi
        rw [List.getElem?_set_self (lt_of_getElem?_eq_some hpr), hpr]
      · rw [List.getElem?_set_ne hi]
    · intro child hch
      rw [htr, hch]
    · intro hch
      rw [htr, hch]
      simp
  · intro hpr
    unfold merge_order at hmo
    rw [if_neg hc1, if_neg hc2] at hmo
    simp only [rd, hpr] at hmo
    by_cases h : r' < r
    · rw [if_pos h] at hmo
      cases hmo
      exact ⟨(Nat.min_eq_right (le_of_lt h)).symm, (Nat.max_eq_left (le_of_lt h)).symm⟩
    · rw [if_neg h] at hmo
      cases hmo
      exact ⟨(Nat.min_eq_left (by omega)).symm, (Nat.max_eq_right (by omega)).symm⟩

theorem per_point_merge_pruned_root_witness :
    ∃ s' p2 w l, per_point 3 (-1) 0 (ex_nodes 0).pi.get_inverse 0
        (ex_state_init 4 [true, false, false]) 0 1 = .ok s' ∧
      Compresses ((ex_state_init 4 [true, false, false]).nodes 0).data.parent p2 ∧
      (s'.nodes 0).data.parent = p2.set l w ∧
      (s'.nodes 0).child_pruned =
        ((ex_state_init 4 [true, false, false]).nodes 0).child_pruned.set l true ∧
      s'.trace = (ex_state_init 4 [true, false, false]).trace ++
        (match ((ex_state_init 4 [true, false, false]).nodes 0).children[l]? with
          | some (some child) => [Event.prune_subtree child]
          | _ => []) ∧
      (((ex_state_init 4 [true, false, false]).nodes 0).child_pruned[0]? = some true →
        w = 1 ∧ l = 0 ∧ (s'.nodes 0).child_pruned =
          ((ex_state_init 4 [true, false, false]).nodes 0).child_pruned ∧
        (∀ child, ((ex_state_init 4 [true, false, false]).nodes 0).children[0]? =
            some (some child) →
          s'.trace = (ex_state_init 4 [true, false, false]).trace ++
            [Event.prune_subtree child]) ∧
        (((ex_state_init 4 [true, false, false]).nodes 0).children[0]? = some none →
          s'.trace = (ex_state_init 4 [true, false, false]).trace)) ∧
      (((ex_state_init 4 [true, false, false]).nodes 0).child_pruned[0]? = some false →
        w = min 0 1 ∧ l = max 0 1) :=
  per_point_merge_pruned_root 3 (-1) 0 (ex_nodes 0).pi.get_inverse 0
    (ex_state_init 4 [true, false, false]) 0 1
    (ex_root_init_node_ok _ rfl) (ex_root_init_uf_ok _) (by decide) (by decide) (by decide)
    (by decide) 0 1 (rootOf_self rfl) (rootOf_self rfl) (by decide) (by decide) (by decide)


/-- C4: at a node `a_t` satisfying the invariant, with protected index `c` and generators that
map the target cell to itself: whenever one of the two distinct roots handed to the merge rule
is `c`, the rule makes `c` the winner; the whole scan returns, leaves `child_pruned[c]` as it
was, keeps `c` a root if it was one, and every `prune_subtree` it invokes is on a child slot
different from `c`. -/
theorem scan_auts_protects_canon {G : Type} (fuel : Nat) (c : Nat) (a_t : Nat) (s0 : State G)
    (auts : List Perm) (hok : node_ok fuel (s0.nodes a_t)) (huf : uf_ok (s0.nodes a_t))
    (hA : ∀ aut ∈ auts, maps_cell (s0.nodes a_t) aut) :
    (∀ (cp : List Bool) (o : Nat), o ≠ c →
      merge_order (c : Int) cp c o = .ok (c, o) ∧ merge_order (c : Int) cp o c = .ok (c, o)) ∧
    ∃ s', scan_auts fuel (c : Int) a_t (s0.nodes a_t).pi.get (s0.nodes a_t).pi.get_inverse
        (s0.nodes a_t).child_refiner_cell (s0.nodes a_t).children.length auts s0 = .ok s' ∧
      (s'.nodes a_t).child_pruned[c]? = (s0.nodes a_t).child_pruned[c]? ∧
      ((s0.nodes a_t).data.parent[c]? = some c → (s'.nodes a_t).data.parent[c]? = some c) ∧
      ∃ evs, s'.trace = s0.trace ++ evs ∧
        ∀ e ∈ evs, ∃ (l : Nat) (child : Nat), e = Event.prune_subtree child ∧
          (s0.nodes a_t).children[l]? = some (some child) ∧ l ≠ c := by
  constructor
  · intro cp o ho
    constructor
    · unfold merge_order
      rw [if_pos rfl]
    · unfold merge_order
      rw [if_neg (by exact_mod_cast ho), if_pos rfl]
  · obtain ⟨s', hrun, _, _, hrel, _⟩ := scan_auts_spec fuel (c : Int) a_t s0 auts hok huf hA
    obtain ⟨evs, htr, hev, _⟩ := hrel.trace
    refine ⟨s', hrun, (hrel.canon_bit c rfl).1, (hrel.canon_bit c rfl).2, evs, htr, ?_⟩
    intro e he
    obtain ⟨l, child, h1, h2, h3⟩ := hev e he
    exact ⟨l, child, h1, h2, fun h => h3 (by rw [h])⟩

theorem ex_maps_cell_root (cp : List Bool) :
    ∀ aut ∈ [transposition 0 1], maps_cell ((ex_state_init 6 cp).nodes 0) aut := by
  intro aut h
  rw [List.mem_singleton] at h
  subst h
  have h0 : maps_cell (ex_nodes 0) (transposition 0 1) := by
    unfold maps_cell
    decide
  exact h0

theorem scan_auts_protects_canon_witness :
    (∀ (cp : List Bool) (o : Nat), o ≠ 1 →
      merge_order ((1 : Nat) : Int) cp 1 o = .ok (1, o) ∧
      merge_order ((1 : Nat) : Int) cp o 1 = .ok (1, o)) ∧
    ∃ s', scan_auts 3 ((1 : Nat) : Int) 0
        ((ex_state_init 6 [false, false, false]).nodes 0).pi.get
        ((ex_state_init 6 [false, false, false]).nodes 0).pi.get_inverse
        ((ex_state_init 6 [false, false, false]).nodes 0).child_refiner_cell
        ((ex_state_init 6 [false, false, false]).nodes 0).children.length
        [transposition 0 1] (ex_state_init 6 [false, false, false]) = .ok s' ∧
      (s'.nodes 0).child_pruned[1]? =
        ((ex_state_init 6 [false, false, false]).nodes 0).child_pruned[1]? ∧
      (((ex_state_init 6 [false, false, false]).nodes 0).data.parent[1]? = some 1 →
        (s'.nodes 0).data.parent[1]? = some 1) ∧
      ∃ evs, s'.trace = (ex_state_init 6 [false, false, false]).trace ++ evs ∧
        ∀ e ∈ evs, ∃ (l : Nat) (child : Nat), e = Event.prune_subtree child ∧
          ((ex_state_init 6 [false, false, false]).nodes 0).children[l]? = some (some child) ∧
          l ≠ 1 :=
  scan_auts_protects_canon 3 1 0 (ex_state_init 6 [false, false, false]) [transposition 0 1]
    (ex_root_init_node_ok _ rfl) (ex_root_init_uf_ok _) (ex_maps_cell_root _)


/-! ## One round of the main loop -/

theorem canon_child_local_idx_spec {G : Type} {s s3 : State G} {a_t : Nat} {c : Int}
    (h : canon_child_local_idx s a_t = .ok (c, s3)) :
    s3.nodes = s.nodes ∧ s3.g = s.g ∧ s3.trace = s.trace ∧ s3.t_path = s.t_path ∧
    s3.canon_leaf = s.canon_leaf ∧ (s3.c_path = s.c_path ∨ s3.c_path = []) ∧
    (∀ pre, s.c_path = pre ++ [a_t] → s3.c_path = s.c_path) ∧
    ∀ (pre : List Nat) (c2 : Nat), s.c_path = pre ++ [c2, a_t] →
      c = canon_formula s.nodes c2 a_t := by
  unfold canon_child_local_idx at h
  cases hl : s.c_path.getLast? with
  | none =>
    rw [hl] at h
    cases h
    refine ⟨rfl, rfl, rfl, rfl, rfl, Or.inl rfl, fun _ _ => rfl, ?_⟩
    intro pre c2 hp
    rw [hp] at hl
    simp at hl
  | some back =>
    rw [hl] at h
    simp only at h
    by_cases hb : back = a_t
    · subst hb
      rw [if_neg (by simp)] at h
      by_cases hlen : s.c_path.length ≤ 1
      · rw [if_pos hlen] at h; cases h
      · rw [if_neg hlen] at h
        cases hrd : rd s.c_path (s.c_path.length - 2) with
        | error e => rw [hrd] at h; cases h
        | ok c2' =>
          rw [hrd] at h
          cases h
          refine ⟨rfl, rfl, rfl, rfl, rfl, Or.inl rfl, fun _ _ => rfl, ?_⟩
          intro pre c2 hp
          have : c2' = c2 := by
            have h2 : rd s.c_path (s.c_path.length - 2) = .ok c2 := by
              rw [hp]
              have : (pre ++ [c2, back]).length - 2 = pre.length := by simp
              rw [this]
              have h3 : (pre ++ [c2, back])[pre.length]? = some c2 := by
                rw [List.getElem?_append_right (le_refl _)]
                simp
              simp only [rd, h3]
            rw [h2] at hrd
            cases hrd
            rfl
          subst this
          rfl
    · rw [if_pos hb] at h
      cases h
      refine ⟨rfl, rfl, rfl, rfl, rfl, Or.inr rfl, ?_, ?_⟩
      · intro pre hp
        rw [hp] at hl
        simp at hl
        exact absurd hl.symm hb
      · intro pre c2 hp
        rw [hp] at hl
        simp at hl
        exact absurd hl.symm hb


theorem process_node_cases {G : Type} (d : Derived G) (fuel : Nat) (s : State G) (a_t : Nat)
    (s' : State G) (b : Bool) (h : process_node d fuel s a_t = .ok (s', b)) :
    ((s.nodes a_t).is_pruned = true ∧ s' = s ∧ b = true) ∨
    ((s.nodes a_t).is_pruned = false ∧ (d.update s.g s.nodes a_t).1 = [] ∧
      s' = after_update d s a_t ∧ (b = true ↔ (s.nodes a_t).get_parent.isSome = true)) ∨
    ((s.nodes a_t).is_pruned = false ∧ (d.update s.g s.nodes a_t).1 ≠ [] ∧
      (s.nodes a_t).data.parent ≠ [] ∧ (s.nodes a_t).data.num_roots = 0 ∧
      s' = after_update d s a_t ∧ b = false) ∨
    ((s.nodes a_t).is_pruned = false ∧ (d.update s.g s.nodes a_t).1 ≠ [] ∧
      ∃ s2 c s3,
        (((s.nodes a_t).data.parent = [] ∧ s2 = after_init (after_update d s a_t) a_t) ∨
         ((s.nodes a_t).data.parent ≠ [] ∧ (s.nodes a_t).data.num_roots ≠ 0 ∧
            s2 = after_update d s a_t)) ∧
        canon_child_local_idx s2 a_t = .ok (c, s3) ∧
        scan_auts fuel c a_t (s3.nodes a_t).pi.get (s3.nodes a_t).pi.get_inverse
          (s3.nodes a_t).child_refiner_cell (s.nodes a_t).children.length
          (d.update s.g s.nodes a_t).1 s3 = .ok s' ∧ b = false) := by
  unfold process_node at h
  by_cases hp : (s.nodes a_t).is_pruned = true
  · rw [if_pos hp] at h
    cases h
    exact Or.inl ⟨hp, rfl, rfl⟩
  · rw [if_neg hp] at h
    have hp' : (s.nodes a_t).is_pruned = false := by
      cases hb : (s.nodes a_t).is_pruned with
      | true => exact absurd hb hp
      | false => rfl
    right
    simp only at h
    by_cases he : (d.update s.g s.nodes a_t).1 = []
    · left
      rw [he] at h
      simp only [List.isEmpty_nil, if_true] at h
      by_cases hpar : (s.nodes a_t).get_parent.isSome = true
      · rw [if_pos hpar] at h
        cases h
        exact ⟨hp', he, by simp [after_update, he], by simp [hpar]⟩
      · rw [if_neg hpar] at h
        cases h
        exact ⟨hp', he, by simp [after_update, he], by simp [hpar]⟩
    · right
      have he' : (d.update s.g s.nodes a_t).1.isEmpty = false := by
        cases hl : (d.update s.g s.nodes a_t).1 with
        | nil => exact absurd hl he
        | cons _ _ => rfl
      rw [he'] at h
      simp only [Bool.false_eq_true, if_false] at h
      by_cases hpe : (s.nodes a_t).data.parent = []
      · right
        rw [hpe] at h
        simp only [List.isEmpty_nil, if_true] at h
        refine ⟨hp', he, ?_⟩
        cases hc : canon_child_local_idx (after_init (after_update d s a_t) a_t) a_t with
        | error e =>
          simp only [after_init, after_update] at hc
          rw [hc] at h
          cases h
        | ok r =>
          obtain ⟨c, s3⟩ := r
          have hc' := hc
          simp only [after_init, after_update] at hc
          rw [hc] at h
          simp only at h
          cases hs : scan_auts fuel c a_t (s3.nodes a_t).pi.get (s3.nodes a_t).pi.get_inverse
            (s3.nodes a_t).child_refiner_cell (s.nodes a_t).children.length
            (d.update s.g s.nodes a_t).1 s3 with
          | error e => rw [hs] at h; cases h
          | ok s4 =>
            rw [hs] at h
            cases h
            exact ⟨_, c, s3, Or.inl ⟨hpe, rfl⟩, hc', hs, rfl⟩
      · have hpe' : (s.nodes a_t).data.parent.isEmpty = false := by
          cases hl : (s.nodes a_t).data.parent with
          | nil => exact absurd hl hpe
          | cons _ _ => rfl
        rw [hpe'] at h
        simp only [Bool.false_eq_true, if_false] at h
        by_cases hz : (s.nodes a_t).data.num_roots = 0
        · left
          rw [if_pos hz] at h
          cases h
          exact ⟨hp', he, hpe, hz, rfl, rfl⟩
        · right
          rw [if_neg hz] at h
          simp only at h
          refine ⟨hp', he, ?_⟩
          cases hc : canon_child_local_idx (after_update d s a_t) a_t with
          | error e =>
            simp only [after_update] at hc
            rw [hc] at h
            cases h
          | ok r =>
            obtain ⟨c, s3⟩ := r
            have hc' := hc
            simp only [after_update] at hc
            rw [hc] at h
            simp only at h
            cases hs : scan_auts fuel c a_t (s3.nodes a_t).pi.get
              (s3.nodes a_t).pi.get_inverse (s3.nodes a_t).child_refiner_cell
              (s.nodes a_t).children.length (d.update s.g s.nodes a_t).1 s3 with
            | error e => rw [hs] at h; cases h
            | ok s4 =>
              rw [hs] at h
              cases h
              exact ⟨_, c, s3, Or.inr ⟨hpe, hz, rfl⟩, hc', hs, rfl⟩


theorem count_roots_one {parent : List Nat} (h : count_roots parent = 1) {i j : Nat}
    (hi : parent[i]? = some i) (hj : parent[j]? = some j) : i = j := by
  unfold count_roots at h
  have hle := (Finset.card_le_one.1 (le_of_eq h))
  exact hle i (by simp [lt_of_getElem?_eq_some hi, hi]) j
    (by simp [lt_of_getElem?_eq_some hj, hj])

theorem unpruned_is_root {nd : TreeNode} (huf : uf_ok nd) (_hlen : nd.child_pruned.length =
    nd.children.length) {i : Nat} (_hi : i < nd.children.length)
    (hp : nd.child_pruned[i]? = some false) : nd.data.parent[i]? = some i := by
  by_contra hne
  have := huf.nonroot_pruned i (by rw [huf.len_parent]; exact _hi) hne
  rw [hp] at this
  cases this

theorem orbit_complete_of_single_root {nd : TreeNode} (huf : uf_ok nd)
    (hlen : nd.child_pruned.length = nd.children.length)
    (hz : nd.data.num_roots = 0) (aut : Perm) : orbit_complete nd aut := by
  intro i j hi hj hij hpi hpj _
  have h1 : count_roots nd.data.parent = 1 := by
    have := huf.count
    rw [hz] at this
    omega
  exact hij (count_roots_one h1 (unpruned_is_root huf hlen hi hpi)
    (unpruned_is_root huf hlen hj hpj))

theorem orbit_complete_of_classes {nd nd0 : TreeNode} (hst : static_eq nd0 nd) (huf : uf_ok nd)
    (hlen : nd.child_pruned.length = nd.children.length) (hbij : cell_bijective nd0)
    (aut : Perm)
    (h : ∀ i, i < nd0.children.length →
      nd0.pi.get (i + nd0.child_refiner_cell) ≠ aut (nd0.pi.get (i + nd0.child_refiner_cell)) →
      ∃ r, RootOf nd.data.parent i r ∧ RootOf nd.data.parent (image_local nd0 aut i) r) :
    orbit_complete nd aut := by
  intro i j hi hj hij hpi hpj heq
  rw [hst.children] at hi hj
  rw [hst.pi, hst.child_refiner_cell] at heq
  have hbi := hbij i hi
  have hbj := hbij j hj
  have hmv : nd0.pi.get (i + nd0.child_refiner_cell) ≠
      aut (nd0.pi.get (i + nd0.child_refiner_cell)) := by
    intro hfix
    rw [Nat.add_comm i] at hfix
    rw [← hfix] at heq
    have : nd0.child_refiner_cell + i = nd0.child_refiner_cell + j := by
      rw [← hbi, ← hbj, heq]
    omega
  obtain ⟨r, hr1, hr2⟩ := h i hi hmv
  have himg : image_local nd0 aut i = j := by
    unfold image_local
    rw [Nat.add_comm i, heq, hbj]
    omega
  rw [himg] at hr2
  have hri := unpruned_is_root huf hlen (by rw [hst.children]; exact hi) hpi
  have hrj := unpruned_is_root huf hlen (by rw [hst.children]; exact hj) hpj
  exact hij ((rootOf_unique (rootOf_self hri) hr1).trans (rootOf_unique hr2 (rootOf_self hrj)))

theorem canon_formula_congr {nodes nodes' : Nat → TreeNode}
    (h : ∀ m, static_eq (nodes m) (nodes' m)) (c2 a : Nat) :
    canon_formula nodes' c2 a = canon_formula nodes c2 a := by
  unfold canon_formula
  rw [(h a).pi, (h c2).pi, (h a).child_individualized_position, (h a).child_refiner_cell]

theorem node_mono_of_uninit (nd nd' : TreeNode) (h : nd.data.parent = [])
    (hcp : nd'.child_pruned = nd.child_pruned) : node_mono nd nd' := by
  refine ⟨fun i hi => by rw [hcp]; exact hi, by rw [hcp], fun hne => absurd h hne,
    fun hne => absurd h hne, ?_⟩
  intro i j r hi _
  obtain ⟨n, hn⟩ := hi
  have := rootOfN_lt hn
  rw [h] at this
  exact absurd this (Nat.not_lt_zero _)

theorem after_init_static {G : Type} (s : State G) (a_t m : Nat) :
    static_eq (s.nodes m) ((after_init s a_t).nodes m) := by
  unfold after_init
  apply set_node_static
  exact ⟨rfl, rfl, rfl, rfl, rfl, rfl, rfl⟩

theorem after_init_node {G : Type} (s : State G) (a_t : Nat) :
    (after_init s a_t).nodes a_t = { s.nodes a_t with data := { (s.nodes a_t).data with
      parent := List.range (s.nodes a_t).children.length
      num_roots := ((s.nodes a_t).children.length : Int) - 1 } } :=
  set_node_nodes_self _ _ _

theorem after_init_uf_ok {G : Type} (s : State G) (a_t : Nat) :
    uf_ok ((after_init s a_t).nodes a_t) := by
  rw [after_init_node]
  exact uf_ok_of_range _ rfl rfl

theorem node_ok_congr {fuel : Nat} {a b : TreeNode} (hst : static_eq a b)
    (hd : b.data = a.data) (hcp : b.child_pruned = a.child_pruned) (h : node_ok fuel a) :
    node_ok fuel b := by
  refine ⟨by rw [hcp, hst.children]; exact h.len_pruned, by rw [hst.children]; exact h.fuel_ok,
    ?_, ?_⟩
  · rw [hst.children, hst.pi, hst.child_refiner_cell]; exact h.cell_size
  · rcases h.uf with hu | hu
    · exact Or.inl (by rw [hd]; exact hu)
    · right
      refine ⟨by rw [hd, hst.children]; exact hu.len_parent, by rw [hd]; exact hu.forest,
        by rw [hd]; exact hu.count, ?_⟩
      intro i hi hni
      rw [hd] at hi hni
      rw [hcp]
      exact hu.nonroot_pruned i hi hni

theorem maps_cell_congr {a b : TreeNode} (hst : static_eq a b) {aut : Perm}
    (h : maps_cell a aut) : maps_cell b aut := by
  unfold maps_cell at h ⊢
  rw [hst.children, hst.pi, hst.child_refiner_cell]
  exact h

theorem cell_bijective_congr {a b : TreeNode} (hst : static_eq a b)
    (h : cell_bijective a) : cell_bijective b := by
  unfold cell_bijective at h ⊢
  rw [hst.children, hst.pi, hst.child_refiner_cell]
  exact h


theorem update_event_inj {a b : Nat} {x y : List Perm}
    (h : Event.update a x = Event.update b y) : a = b ∧ x = y := by
  injection h with h1 h2
  exact ⟨h1, h2⟩

/-- One round of the main loop, at a node satisfying the invariant and with cell-preserving
generators: what it may change. -/
theorem process_node_rel {G : Type} (d : Derived G) (fuel : Nat) (s : State G) (a_t : Nat)
    (s' : State G) (b : Bool) (hok : node_ok fuel (s.nodes a_t))
    (hupd : ∀ aut ∈ (d.update s.g s.nodes a_t).1, maps_cell (s.nodes a_t) aut)
    (h : process_node d fuel s a_t = .ok (s', b)) : proc_rel fuel a_t s s' := by
  rcases process_node_cases d fuel s a_t s' b h with
    ⟨_, rfl, _⟩ | ⟨_, he, rfl, _⟩ | ⟨_, _, hpar, hz, rfl, _⟩ | ⟨_, _, s2, c, s3, hs2, hc, hscan, _⟩
  · exact
      { canon_leaf_eq := rfl, t_path_eq := rfl, c_path := Or.inl rfl
        c_path_keep := fun _ _ => rfl
        static := fun _ => static_eq_refl _
        others := fun _ _ => ⟨rfl, rfl⟩
        ok := hok
        mono := node_mono_refl _
        prot := fun _ _ _ _ _ => rfl
        trace := ⟨[], by simp, fun _ h => absurd h (List.not_mem_nil _), fun _ h => Or.inl h,
          fun _ h => absurd h (List.not_mem_nil _)⟩ }
  · exact
      { canon_leaf_eq := rfl, t_path_eq := rfl, c_path := Or.inl rfl
        c_path_keep := fun _ _ => rfl
        static := fun _ => static_eq_refl _
        others := fun _ _ => ⟨rfl, rfl⟩
        ok := hok
        mono := node_mono_refl _
        prot := fun _ _ _ _ _ => rfl
        trace := ⟨[Event.update a_t (d.update s.g s.nodes a_t).1], rfl,
          fun e he' => Or.inl ⟨_, List.mem_singleton.1 he'⟩, fun _ h => Or.inl h,
          fun auts hm _ aut haut => by
            have := (update_event_inj (List.mem_singleton.1 hm)).2
            rw [this, he] at haut
            exact absurd haut (List.not_mem_nil _)⟩ }
  · have huf : uf_ok (s.nodes a_t) := by
      rcases hok.uf with hu | hu
      · exact absurd hu hpar
      · exact hu
    exact
      { canon_leaf_eq := rfl, t_path_eq := rfl, c_path := Or.inl rfl
        c_path_keep := fun _ _ => rfl
        static := fun _ => static_eq_refl _
        others := fun _ _ => ⟨rfl, rfl⟩
        ok := hok
        mono := node_mono_refl _
        prot := fun _ _ _ _ _ => rfl
        trace := ⟨[Event.update a_t (d.update s.g s.nodes a_t).1], rfl,
          fun e he' => Or.inl ⟨_, List.mem_singleton.1 he'⟩, fun _ h => Or.inl h,
          fun auts _ _ aut _ => orbit_complete_of_single_root huf hok.len_pruned hz aut⟩ }
  · have key : (∀ m, static_eq (s.nodes m) (s2.nodes m)) ∧
        (∀ m, m ≠ a_t → s2.nodes m = s.nodes m) ∧ node_ok fuel (s2.nodes a_t) ∧
        uf_ok (s2.nodes a_t) ∧ (s2.nodes a_t).child_pruned = (s.nodes a_t).child_pruned ∧
        node_mono (s.nodes a_t) (s2.nodes a_t) ∧ s2.c_path = s.c_path ∧
        s2.trace = s.trace ++ [Event.update a_t (d.update s.g s.nodes a_t).1] ∧
        s2.canon_leaf = s.canon_leaf ∧ s2.t_path = s.t_path ∧
        (∀ m, (s2.nodes m).is_pruned = (s.nodes m).is_pruned) := by
      rcases hs2 with ⟨hpe, rfl⟩ | ⟨hpe, _, rfl⟩
      · have hnode := after_init_node (after_update d s a_t) a_t
        have huf := after_init_uf_ok (after_update d s a_t) a_t
        refine ⟨fun m => after_init_static (after_update d s a_t) a_t m,
          fun m hm => set_node_nodes_ne _ _ _ hm, ?_, huf, by rw [hnode]; rfl, ?_, rfl, rfl,
          rfl, rfl, ?_⟩
        · refine ⟨?_, ?_, ?_, Or.inr huf⟩
          · rw [hnode]; exact hok.len_pruned
          · rw [hnode]; exact hok.fuel_ok
          · rw [hnode]; exact hok.cell_size
        · exact node_mono_of_uninit _ _ hpe (by rw [hnode]; rfl)
        · intro m
          by_cases hm : m = a_t
          · subst hm; rw [hnode]; rfl
          · rw [after_init, set_node_nodes_ne _ _ _ hm]; rfl
      · have huf : uf_ok (s.nodes a_t) := by
          rcases hok.uf with hu | hu
          · exact absurd hu hpe
          · exact hu
        exact ⟨fun _ => static_eq_refl _, fun _ _ => rfl, hok, huf, rfl, node_mono_refl _,
          rfl, rfl, rfl, rfl, fun _ => rfl⟩
    obtain ⟨k1, k2, k3, k4, k5, k6, k7, k8, k9, k10, k11⟩ := key
    obtain ⟨c1, _, c3, c4, c5, c6, c7, c8⟩ := canon_child_local_idx_spec hc
    have hst3 : ∀ m, static_eq (s.nodes m) (s3.nodes m) := by
      intro m; rw [c1]; exact k1 m
    have hok3 : node_ok fuel (s3.nodes a_t) := by rw [c1]; exact k3
    have huf3 : uf_ok (s3.nodes a_t) := by rw [c1]; exact k4
    obtain ⟨s'', hrun, r1, r2, r3, r4⟩ :=
      scan_auts_spec fuel c a_t s3 (d.update s.g s.nodes a_t).1 hok3 huf3
        (fun aut ha => maps_cell_congr (hst3 a_t) (hupd aut ha))
    rw [(hst3 a_t).children, hscan] at hrun
    cases hrun
    obtain ⟨evs, t1, t2, t3⟩ := r3.trace
    refine
      { canon_leaf_eq := by rw [r3.canon_leaf_eq, c5, k9]
        t_path_eq := by rw [r3.t_path_eq, c4, k10]
        c_path := by
          rw [r3.c_path_eq]
          rcases c6 with h6 | h6
          · left; rw [h6, k7]
          · right; exact h6
        c_path_keep := fun pre hp => by
          rw [r3.c_path_eq, c7 pre (by rw [k7]; exact hp), k7]
        static := fun m => static_eq_trans (hst3 m) (r3.static m)
        others := fun m hm => by
          have := r3.others m hm
          rw [c1, k2 m hm] at this
          exact this
        ok := r1
        mono := node_mono_trans k6 (by have := r3.mono; rw [c1] at this; exact this)
        prot := fun pre c2 k hp hk => by
          have hcf := c8 pre c2 (by rw [k7]; exact hp)
          rw [canon_formula_congr k1] at hcf
          have := (r3.canon_bit k (by rw [hk, hcf])).1
          rw [c1, k5] at this
          exact this
        trace := ⟨Event.update a_t (d.update s.g s.nodes a_t).1 :: evs, by
            rw [t1, c3, k8, List.append_assoc]; rfl, ?_, ?_, ?_⟩ }
    · intro e he
      rcases List.mem_cons.1 he with rfl | he
      · exact Or.inl ⟨_, rfl⟩
      · obtain ⟨l, child, e1, e2, e3⟩ := t2 e he
        refine Or.inr ⟨l, child, e1, by rw [← (hst3 a_t).children]; exact e2, ?_⟩
        intro pre c2 hp
        have hcf := c8 pre c2 (by rw [k7]; exact hp)
        rw [canon_formula_congr k1] at hcf
        rw [← hcf]
        exact e3
    · intro m hm
      rcases t3 m hm with h' | ⟨child, h1, h2⟩
      · left
        rw [c1, k11] at h'
        exact h'
      · right
        refine ⟨child, List.mem_cons_of_mem _ h1, ?_⟩
        rw [← is_ancestor_or_self_congr hst3]
        exact h2
    · intro auts hm hbij aut haut
      have hauts : auts = (d.update s.g s.nodes a_t).1 := by
        rcases List.mem_cons.1 hm with h' | h'
        · exact (update_event_inj h').2
        · obtain ⟨l, child, e1, _⟩ := t2 _ h'
          cases e1
      rw [hauts] at haut
      rcases r4 with h4 | h4
      · exact orbit_complete_of_classes (r3.static a_t) r2 r1.len_pruned
          (cell_bijective_congr (hst3 a_t) hbij) aut (h4 aut haut)
      · exact orbit_complete_of_single_root r2 r1.len_pruned h4 aut


/-! ## The main loop and the whole call -/

theorem descend_loop_induct {G : Type} (d : Derived G) (fuel : Nat) (P : State G → Prop)
    (hstep : ∀ s a_t s' b, P s → s.t_path.getLast? = some a_t →
      process_node d fuel s a_t = .ok (s', b) → P s' ∧ (b = false → P (next_iteration s'))) :
    ∀ (n : Nat) (s s' : State G), descend_loop d fuel n s = .ok s' → P s → P s' := by
  intro n
  induction n with
  | zero =>
    intro s s' h hP
    unfold descend_loop at h
    by_cases he : s.t_path.isEmpty = true
    · rw [if_pos he] at h; cases h; exact hP
    · rw [if_neg he] at h; cases h
  | succ n ih =>
    intro s s' h hP
    unfold descend_loop at h
    cases hl : s.t_path.getLast? with
    | none => rw [hl] at h; cases h; exact hP
    | some a_t =>
      rw [hl] at h
      simp only at h
      cases hp : process_node d fuel s a_t with
      | error e => rw [hp] at h; cases h
      | ok r =>
        obtain ⟨s1, b⟩ := r
        rw [hp] at h
        obtain ⟨h1, h2⟩ := hstep s a_t s1 b hP hl hp
        cases b with
        | true => simp only at h; cases h; exact h1
        | false => simp only at h; exact ih _ _ h (h2 rfl)

theorem collect_path_spec {G : Type} (d : Derived G) :
    ∀ (fuel : Nat) (a : Option Nat) (s : State G) (path : List Nat) (s' : State G)
      (path' : List Nat), collect_path d fuel a s path = .ok (s', path') →
      s'.nodes = s.nodes ∧ s'.canon_leaf = s.canon_leaf ∧ s'.t_path = s.t_path ∧
      s'.c_path = s.c_path ∧
      ∃ evs, s'.trace = s.trace ++ evs ∧ ∀ e ∈ evs, ∃ n, e = Event.need_update n := by
  intro fuel
  induction fuel with
  | zero =>
    intro a s path s' path' h
    cases a with
    | none =>
      simp only [collect_path] at h
      cases h
      exact ⟨rfl, rfl, rfl, rfl, [], by simp, fun _ h => absurd h (List.not_mem_nil _)⟩
    | some a => simp only [collect_path] at h; cases h
  | succ n ih =>
    intro a s path s' path' h
    cases a with
    | none =>
      simp only [collect_path] at h
      cases h
      exact ⟨rfl, rfl, rfl, rfl, [], by simp, fun _ h => absurd h (List.not_mem_nil _)⟩
    | some a =>
      simp only [collect_path] at h
      by_cases hb : (d.need_update s.g s.nodes a).1 = true
      · rw [if_pos hb] at h
        obtain ⟨h1, h2, h3, h4, evs, h5, h6⟩ := ih _ _ _ _ _ h
        refine ⟨h1, h2, h3, h4, Event.need_update a :: evs, ?_, ?_⟩
        · rw [h5]; simp
        · intro e he
          rcases List.mem_cons.1 he with rfl | he
          · exact ⟨a, rfl⟩
          · exact h6 e he
      · rw [if_neg hb] at h
        cases h
        exact ⟨rfl, rfl, rfl, rfl, [Event.need_update a], rfl,
          fun e he => ⟨a, List.mem_singleton.1 he⟩⟩

theorem tree_before_descend_cases {G : Type} (d : Derived G) (fuel : Nat) (s : State G)
    (t : Nat) (s' : State G) (h : tree_before_descend d fuel s t = .ok s') :
    (s'.nodes = s.nodes ∧ s'.canon_leaf = s.canon_leaf ∧
      (s'.trace = s.trace ∨ s'.trace = s.trace ++ [Event.need_update t])) ∨
    ∃ s3 n, s3.nodes = s.nodes ∧ s3.canon_leaf = s.canon_leaf ∧
      (∃ evs, s3.trace = s.trace ++ evs ∧ ∀ e ∈ evs, ∃ n, e = Event.need_update n) ∧
      descend_loop d fuel n s3 = .ok s' := by
  unfold tree_before_descend at h
  by_cases h1 : (s.nodes t).is_pruned = true
  · rw [if_pos h1] at h; cases h; exact Or.inl ⟨rfl, rfl, Or.inl rfl⟩
  · rw [if_neg h1] at h
    by_cases h2 : (s.nodes t).data.child_count = 0
    · rw [if_pos h2] at h; cases h; exact Or.inl ⟨rfl, rfl, Or.inl rfl⟩
    · rw [if_neg h2] at h
      simp only at h
      by_cases h3 : (!(d.need_update s.g s.nodes t).1) = true
      · rw [if_pos h3] at h; cases h; exact Or.inl ⟨rfl, rfl, Or.inr rfl⟩
      · rw [if_neg h3] at h
        right
        cases hc1 : collect_path d fuel (some t)
            { nodes := s.nodes, canon_leaf := s.canon_leaf, g := (d.need_update s.g s.nodes t).2,
              t_path := [], c_path := [], trace := s.trace ++ [Event.need_update t] } [] with
        | error e => rw [hc1] at h; cases h
        | ok r1 =>
          obtain ⟨s2, t_path⟩ := r1
          rw [hc1] at h
          simp only at h
          cases hc2 : collect_path d fuel s2.canon_leaf s2 [] with
          | error e => rw [hc2] at h; cases h
          | ok r2 =>
            obtain ⟨s3, c_path⟩ := r2
            rw [hc2] at h
            simp only at h
            by_cases h4 : t_path.isEmpty = true
            · rw [if_pos h4] at h; cases h
            · rw [if_neg h4] at h
              obtain ⟨a1, a2, _, _, ev1, a5, a6⟩ := collect_path_spec d _ _ _ _ _ _ hc1
              obtain ⟨b1, b2, _, _, ev2, b5, b6⟩ := collect_path_spec d _ _ _ _ _ _ hc2
              refine ⟨_, _, ?_, ?_, ⟨Event.need_update t :: (ev1 ++ ev2), ?_, ?_⟩, h⟩
              · show s3.nodes = s.nodes
                rw [b1, a1]
              · show s3.canon_leaf = s.canon_leaf
                rw [b2, a2]
              · show s3.trace = _
                rw [b5, a5]
                simp
              · intro e he
                rcases List.mem_cons.1 he with rfl | he
                · exact ⟨t, rfl⟩
                · rcases List.mem_append.1 he with he | he
                  · exact a6 e he
                  · exact b6 e he


theorem node_mono_of_eq {a b : TreeNode} (hd : b.data = a.data)
    (hcp : b.child_pruned = a.child_pruned) : node_mono a b :=
  ⟨fun i h => by rw [hcp]; exact h, by rw [hcp], fun _ => by rw [hd], fun _ => by rw [hd],
    fun i j r hi hj => ⟨r, by rw [hd]; exact hi, by rw [hd]; exact hj⟩⟩

theorem orbit_complete_mono {a b : TreeNode} (hst : static_eq a b) (hm : node_mono a b)
    {aut : Perm} (h : orbit_complete a aut) : orbit_complete b aut := by
  have key : ∀ i : Nat, b.child_pruned[i]? = some false → a.child_pruned[i]? = some false := by
    intro i hi
    have hlt : i < a.child_pruned.length := by
      rw [← hm.len_pruned]; exact lt_of_getElem?_eq_some hi
    cases hx : a.child_pruned[i] with
    | true =>
      have := hm.bits i (by rw [List.getElem?_eq_getElem hlt, hx])
      rw [hi] at this
      cases this
    | false => rw [List.getElem?_eq_getElem hlt, hx]
  intro i j hi hj hij hpi hpj
  rw [hst.children] at hi hj
  rw [hst.pi, hst.child_refiner_cell]
  exact h i j hi hj hij (key i hpi) (key j hpj)

theorem whole_rel_of_nodes_eq {G : Type} {s s' : State G} (hn : s'.nodes = s.nodes)
    (hc : s'.canon_leaf = s.canon_leaf)
    (ht : ∃ evs, s'.trace = s.trace ++ evs ∧ ∀ e ∈ evs, ∃ n, e = Event.need_update n) :
    whole_rel s s' := by
  obtain ⟨evs, h1, h2⟩ := ht
  refine ⟨hc, fun m => by rw [hn]; exact static_eq_refl _,
    fun m => by rw [hn]; exact node_mono_refl _, evs, h1, ?_, ?_, ?_⟩
  · intro a auts hm
    obtain ⟨n, hn'⟩ := h2 _ hm
    cases hn'
  · intro child hm
    obtain ⟨n, hn'⟩ := h2 _ hm
    cases hn'
  · intro m hm
    rw [hn] at hm
    exact Or.inl hm

theorem whole_rel_trans {G : Type} {s1 s2 s3 : State G} (h12 : whole_rel s1 s2)
    (h23 : whole_rel s2 s3) : whole_rel s1 s3 := by
  obtain ⟨ev1, t1, u1, v1, w1⟩ := h12.trace
  obtain ⟨ev2, t2, u2, v2, w2⟩ := h23.trace
  refine ⟨h23.canon_leaf_eq.trans h12.canon_leaf_eq,
    fun m => static_eq_trans (h12.static m) (h23.static m),
    fun m => node_mono_trans (h12.mono m) (h23.mono m),
    ev1 ++ ev2, by rw [t2, t1, List.append_assoc], ?_, ?_, ?_⟩
  · intro a auts hm hbij aut haut
    rcases List.mem_append.1 hm with hm | hm
    · exact orbit_complete_mono (h23.static a) (h23.mono a) (u1 a auts hm hbij aut haut)
    · exact u2 a auts hm (cell_bijective_congr (h12.static a) hbij) aut haut
  · intro child hm
    rcases List.mem_append.1 hm with hm | hm
    · exact v1 child hm
    · obtain ⟨a, l, hal⟩ := v2 child hm
      exact ⟨a, l, by rw [← (h12.static a).children]; exact hal⟩
  · intro m hm
    rcases w2 m hm with h | ⟨child, hc, ha⟩
    · rcases w1 m h with h' | ⟨child, hc, ha⟩
      · exact Or.inl h'
      · exact Or.inr ⟨child, List.mem_append_left _ hc, ha⟩
    · refine Or.inr ⟨child, List.mem_append_right _ hc, ?_⟩
      rw [← is_ancestor_or_self_congr h12.static]
      exact ha

theorem whole_rel_of_proc {G : Type} {fuel a_t : Nat} {s s' : State G}
    (h : proc_rel fuel a_t s s') : whole_rel s s' := by
  obtain ⟨evs, t1, t2, t3, t4⟩ := h.trace
  refine ⟨h.canon_leaf_eq, h.static, ?_, evs, t1, ?_, ?_, t3⟩
  · intro m
    by_cases hm : m = a_t
    · subst hm; exact h.mono
    · exact node_mono_of_eq (h.others m hm).1 (h.others m hm).2
  · intro a auts hm hbij aut haut
    have ha : a = a_t := by
      rcases t2 _ hm with ⟨auts', he⟩ | ⟨l, child, he, _⟩
      · exact (update_event_inj he).1
      · cases he
    subst ha
    exact t4 auts hm hbij aut haut
  · intro child hm
    rcases t2 _ hm with ⟨auts', he⟩ | ⟨l, child', he, hch, _⟩
    · cases he
    · cases he
      exact ⟨a_t, l, hch⟩

theorem next_iteration_nodes {G : Type} (s : State G) :
    (next_iteration s).nodes = s.nodes ∧ (next_iteration s).trace = s.trace ∧
    (next_iteration s).canon_leaf = s.canon_leaf ∧ (next_iteration s).g = s.g :=
  ⟨rfl, rfl, rfl, rfl⟩

theorem whole_rel_next_iteration {G : Type} {s s' : State G} (h : whole_rel s s') :
    whole_rel s (next_iteration s') :=
  ⟨h.canon_leaf_eq, h.static, h.mono, h.trace⟩

/-- A returning call of `tree_before_descend` on a tree whose nodes satisfy the invariant,
with cell-preserving generators: the invariant still holds and the states are related by
`whole_rel`. -/
theorem tree_before_descend_whole {G : Type} (d : Derived G) (fuel : Nat) (s : State G)
    (t : Nat) (s' : State G) (hinv : ∀ m, node_ok fuel (s.nodes m))
    (hcontract : cell_contract d s.nodes) (h : tree_before_descend d fuel s t = .ok s') :
    whole_rel s s' ∧ ∀ m, node_ok fuel (s'.nodes m) := by
  rcases tree_before_descend_cases d fuel s t s' h with
    ⟨h1, h2, h3⟩ | ⟨s3, n, h1, h2, h3, hloop⟩
  · refine ⟨whole_rel_of_nodes_eq h1 h2 ?_, fun m => by rw [h1]; exact hinv m⟩
    rcases h3 with h3 | h3
    · exact ⟨[], by rw [h3]; simp, fun _ h => absurd h (List.not_mem_nil _)⟩
    · exact ⟨[Event.need_update t], h3, fun e he => ⟨t, List.mem_singleton.1 he⟩⟩
  · have h03 : whole_rel s s3 := whole_rel_of_nodes_eq h1 h2 h3
    have := descend_loop_induct d fuel
      (fun s'' => (∀ m, node_ok fuel (s''.nodes m)) ∧ whole_rel s s'')
      (by
        intro s1 a_t s2 b ⟨hok1, hrel1⟩ _ hp
        have hpr := process_node_rel d fuel s1 a_t s2 b (hok1 a_t)
          (fun aut ha => maps_cell_congr (hrel1.static a_t)
            (hcontract s1.g s1.nodes a_t hrel1.static aut ha)) hp
        have hP2 : (∀ m, node_ok fuel (s2.nodes m)) ∧ whole_rel s s2 := by
          refine ⟨?_, whole_rel_trans hrel1 (whole_rel_of_proc hpr)⟩
          intro m
          by_cases hm : m = a_t
          · subst hm; exact hpr.ok
          · exact node_ok_congr (hpr.static m) (hpr.others m hm).1 (hpr.others m hm).2 (hok1 m)
        exact ⟨hP2, fun _ => ⟨hP2.1, whole_rel_next_iteration hP2.2⟩⟩)
      n s3 s' hloop ⟨fun m => by rw [h1]; exact hinv m, h03⟩
    exact ⟨this.2, this.1⟩


/-! ## Facts about the example tree; the result of the leaf hook -/

theorem ex_nodes_ok : ∀ m, node_ok 3 (ex_nodes m) := by
  intro m
  match m with
  | 0 | 1 | 2 | 3 | 4 | 5 | 6 | 7 =>
    exact ⟨rfl, by decide, fun _ => by first | rfl | contradiction, Or.inl rfl⟩
  | _ + 8 => exact ⟨rfl, Nat.zero_le 3, fun h => absurd h (Nat.lt_irrefl 0), Or.inl rfl⟩

theorem ex_contract (nu : Nat → Bool) : cell_contract (ex_derived nu ex_auts) ex_nodes := by
  intro g nodes a _ aut ha
  match a with
  | 0 =>
    have h0 : aut = transposition 0 1 := List.mem_singleton.1 ha
    subst h0
    unfold maps_cell
    decide
  | _ + 1 => exact absurd ha (List.not_mem_nil _)

theorem automorphism_leaf_result {G : Type} (d : Derived G) (fuel : Nat) (s : State G)
    (t : Nat) (aut : Perm) (s' : State G) (h : automorphism_leaf d fuel s t aut = .ok s') :
    ∃ x, s' = prune_subtree { s with g := d.add_automorphism s.g s.nodes t aut
                                     trace := s.trace ++ [Event.add_automorphism t] } x := by
  unfold automorphism_leaf at h
  simp only at h
  repeat' split at h
  all_goals cases h
  exact ⟨_, rfl⟩

theorem ex_root_bijective : cell_bijective ((ex_state 6).nodes 0) := by
  unfold cell_bijective
  decide

/-! ## `num_roots` counts the roots (C10) -/

theorem count_roots_pos {parent : List Nat} (hf : Forest parent) (hk : 0 < parent.length) :
    1 ≤ count_roots parent := by
  obtain ⟨r, hr⟩ := hf 0 hk
  have hroot := rootOf_root hr
  unfold count_roots
  exact Finset.card_pos.2 ⟨r, by simp [lt_of_getElem?_eq_some hroot, hroot]⟩

/-- C10: at a node `a_t` with at least one child slot that satisfies the invariant, in a round
of the main loop with a non-empty range of cell-preserving generators: if the union-find is
not materialized yet, the scan starts from `parent = [0, .., k-1]` and `num_roots = k - 1`;
every `per_point` started with `num_roots + 1` equal to the number of self-loops of `parent`
(invariant `uf_ok`) returns with this equality again; and at the end of the round
`num_roots + 1` is the number of self-loops, `num_roots` is not negative, and it is zero
exactly when one root is left. -/
theorem num_roots_counts_roots {G : Type} (d : Derived G) (fuel : Nat) (s : State G)
    (a_t : Nat) (hok : node_ok fuel (s.nodes a_t))
    (hk : 1 ≤ (s.nodes a_t).children.length)
    (hupd : ∀ aut ∈ (d.update s.g s.nodes a_t).1, maps_cell (s.nodes a_t) aut)
    (hpr : (s.nodes a_t).is_pruned = false) (hne : (d.update s.g s.nodes a_t).1 ≠ []) :
    (∀ s' b, process_node d fuel s a_t = .ok (s', b) → (s.nodes a_t).data.parent = [] →
      ∃ c s3, scan_auts fuel c a_t (s3.nodes a_t).pi.get (s3.nodes a_t).pi.get_inverse
          (s3.nodes a_t).child_refiner_cell (s.nodes a_t).children.length
          (d.update s.g s.nodes a_t).1 s3 = .ok s' ∧
        (s3.nodes a_t).data.parent = List.range (s.nodes a_t).children.length ∧
        (s3.nodes a_t).data.num_roots = ((s.nodes a_t).children.length : Int) - 1 ∧
        (s3.nodes a_t).data.num_roots + 1 = (count_roots (s3.nodes a_t).data.parent : Int)) ∧
    (∀ (canon : Int) (pinv : Nat → Nat) (cb : Nat) (s1 : State G) (idx v' : Nat),
      node_ok fuel (s1.nodes a_t) → uf_ok (s1.nodes a_t) →
      idx < (s1.nodes a_t).children.length → cb ≤ pinv v' →
      pinv v' < (s1.nodes a_t).pi.get_cell_end cb →
      pinv v' - cb < (s1.nodes a_t).children.length →
      ∃ s1', per_point fuel canon a_t pinv cb s1 idx v' = .ok s1' ∧
        (s1'.nodes a_t).data.num_roots + 1 = (count_roots (s1'.nodes a_t).data.parent : Int)) ∧
    (∀ s' b, process_node d fuel s a_t = .ok (s', b) →
      (s'.nodes a_t).data.num_roots + 1 = (count_roots (s'.nodes a_t).data.parent : Int) ∧
      0 ≤ (s'.nodes a_t).data.num_roots ∧
      ((s'.nodes a_t).data.num_roots = 0 ↔ count_roots (s'.nodes a_t).data.parent = 1)) := by
  refine ⟨?_, ?_, ?_⟩
  · intro s' b h hpe
    rcases process_node_cases d fuel s a_t s' b h with
      ⟨hp, _, _⟩ | ⟨_, he, _, _⟩ | ⟨_, _, hpar, _, _, _⟩ | ⟨_, _, s2, c, s3, hs2, hc, hscan, _⟩
    · rw [hpr] at hp; cases hp
    · exact absurd he hne
    · exact absurd hpe hpar
    · rcases hs2 with ⟨_, rfl⟩ | ⟨hpar, _, _⟩
      · obtain ⟨c1, _⟩ := canon_child_local_idx_spec hc
        have hnode := after_init_node (after_update d s a_t) a_t
        refine ⟨c, s3, hscan, ?_, ?_, ?_⟩
        · rw [c1, hnode]; rfl
        · rw [c1, hnode]; rfl
        · rw [c1]; exact (after_init_uf_ok (after_update d s a_t) a_t).count
      · exact absurd hpe hpar
  · intro canon pinv cb s1 idx v' h1 h2 h3 h4 h5 h6
    obtain ⟨s1', hrun, _, huf', _⟩ :=
      per_point_step fuel canon a_t pinv cb s1 idx v' h1 h2 h3 h4 h5 h6
    exact ⟨s1', hrun, huf'.count⟩
  · intro s' b h
    have hrel := process_node_rel d fuel s a_t s' b hok hupd h
    have hk' : 1 ≤ (s'.nodes a_t).children.length := by
      rw [(hrel.static a_t).children]; exact hk
    have huf : uf_ok (s'.nodes a_t) := by
      rcases process_node_cases d fuel s a_t s' b h with
        ⟨hp, _, _⟩ | ⟨_, he, _, _⟩ | ⟨_, _, hpar, _, rfl, _⟩ | ⟨_, _, s2, c, s3, hs2, hc, hscan, _⟩
      · rw [hpr] at hp; cases hp
      · exact absurd he hne
      · rcases hok.uf with hu | hu
        · exact absurd hu hpar
        · exact hu
      · rcases hrel.ok.uf with hu | hu
        · exfalso
          have hs2uf : uf_ok (s2.nodes a_t) := by
            rcases hs2 with ⟨_, rfl⟩ | ⟨hpar, _, rfl⟩
            · exact after_init_uf_ok _ _
            · rcases hok.uf with hu' | hu'
              · exact absurd hu' hpar
              · exact hu'
          have hs2len : (s2.nodes a_t).children.length = (s.nodes a_t).children.length := by
            rcases hs2 with ⟨_, rfl⟩ | ⟨_, _, rfl⟩
            · rw [(after_init_static (after_update d s a_t) a_t a_t).children]; rfl
            · rfl
          obtain ⟨c1, _⟩ := canon_child_local_idx_spec hc
          have hs2ok : node_ok fuel (s3.nodes a_t) := by
            rw [c1]
            refine ⟨?_, by rw [hs2len]; exact hok.fuel_ok, ?_, Or.inr hs2uf⟩
            · rcases hs2 with ⟨_, rfl⟩ | ⟨_, _, rfl⟩
              · rw [after_init_node]; exact hok.len_pruned
              · exact hok.len_pruned
            · rcases hs2 with ⟨_, rfl⟩ | ⟨_, _, rfl⟩
              · rw [after_init_node]; exact hok.cell_size
              · exact hok.cell_size
          have hst3 : static_eq (s.nodes a_t) (s3.nodes a_t) := by
            rw [c1]
            rcases hs2 with ⟨_, rfl⟩ | ⟨_, _, rfl⟩
            · exact after_init_static (after_update d s a_t) a_t a_t
            · exact static_eq_refl _
          obtain ⟨s'', hrun, _, r2, _, _⟩ :=
            scan_auts_spec fuel c a_t s3 (d.update s.g s.nodes a_t).1 hs2ok
              (by rw [c1]; exact hs2uf)
              (fun aut ha => maps_cell_congr hst3 (hupd aut ha))
          rw [hst3.children, hscan] at hrun
          cases hrun
          have := r2.len_parent
          rw [hu] at this
          simp at this
          omega
        · exact hu
    have hpos := count_roots_pos huf.forest (by rw [huf.len_parent]; omega)
    have hc := huf.count
    refine ⟨hc, by omega, ?_⟩
    constructor
    · intro hz; rw [hz] at hc; omega
    · intro h1; rw [h1] at hc; omega

theorem ex_maps_cell_update :
    ∀ aut ∈ ((ex_derived (fun _ => true) ex_auts).update (ex_state 6).g (ex_state 6).nodes 0).1,
      maps_cell ((ex_state 6).nodes 0) aut :=
  ex_contract (fun _ => true) () ex_nodes 0 (fun _ => static_eq_refl _)

theorem num_roots_counts_roots_witness :
    ∃ s' b, process_node (ex_derived (fun _ => true) ex_auts) 3 (ex_state 6) 0 = .ok (s', b) ∧
      (s'.nodes 0).data.num_roots + 1 = (count_roots (s'.nodes 0).data.parent : Int) ∧
      0 ≤ (s'.nodes 0).data.num_roots ∧
      ((s'.nodes 0).data.num_roots = 0 ↔ count_roots (s'.nodes 0).data.parent = 1) :=
  ⟨_, _, rfl, (num_roots_counts_roots (ex_derived (fun _ => true) ex_auts) 3 (ex_state 6) 0
    (ex_nodes_ok 0) (by decide) ex_maps_cell_update rfl
    (by intro h; cases h)).2.2 _ _ rfl⟩


/-! ## The two paths of `tree_before_descend` when `need_update` is a predicate -/

theorem upChain_unique {nodes : Nat → TreeNode} {nu : Nat → Bool} {o : Option Nat}
    {l1 : List Nat} (h1 : UpChain nodes nu o l1) :
    ∀ {l2 : List Nat}, UpChain nodes nu o l2 → l1 = l2 := by
  induction h1 with
  | stop_null => intro l2 h2; cases h2; rfl
  | stop_nu hf =>
    intro l2 h2
    cases h2 with
    | stop_nu _ => rfl
    | step ht _ => rw [hf] at ht; cases ht
  | step ht _ ih =>
    intro l2 h2
    cases h2 with
    | stop_nu hf => rw [ht] at hf; cases hf
    | step _ h2' => rw [ih h2']

theorem upChain_suffix {nodes : Nat → TreeNode} {nu : Nat → Bool} :
    ∀ (pre : List Nat) {o : Option Nat} {x : Nat} {up : List Nat},
      UpChain nodes nu o (pre ++ x :: up) → UpChain nodes nu (some x) (x :: up) := by
  intro pre
  induction pre with
  | nil =>
    intro o x up h
    cases h with
    | step ht h' => exact UpChain.step ht h'
  | cons y pre ih =>
    intro o x up h
    cases h with
    | step _ h' => exact ih h'

theorem upChain_anc {nodes : Nat → TreeNode} {nu : Nat → Bool} {o : Option Nat}
    {l : List Nat} (h : UpChain nodes nu o l) :
    ∀ a, o = some a → ∀ y ∈ l, AncestorOrSelf nodes y a := by
  induction h with
  | stop_null => intro a _ y hy; exact absurd hy (List.not_mem_nil _)
  | stop_nu _ => intro a _ y hy; exact absurd hy (List.not_mem_nil _)
  | @step a' rest _ h' ih =>
    intro a ha y hy
    cases ha
    rcases List.mem_cons.1 hy with rfl | hy
    · exact AncestorOrSelf.refl _
    · cases hp : (nodes a').get_parent with
      | none =>
        rw [hp] at h'
        cases h'
        exact absurd hy (List.not_mem_nil _)
      | some p => exact AncestorOrSelf.step hp (ih p hp y hy)

theorem upChain_nodup {nodes : Nat → TreeNode} {nu : Nat → Bool} (hwf : wf_levels nodes)
    {o : Option Nat} {l : List Nat} (h : UpChain nodes nu o l) : l.Nodup := by
  induction h with
  | stop_null => exact List.nodup_nil
  | stop_nu _ => exact List.nodup_nil
  | @step a rest _ h' ih =>
    refine List.nodup_cons.2 ⟨?_, ih⟩
    intro ha
    cases hp : (nodes a).get_parent with
    | none =>
      rw [hp] at h'
      cases h'
      exact absurd ha (List.not_mem_nil _)
    | some p =>
      have h1 := anc_level_le hwf (upChain_anc h' p hp a ha)
      have h2 := hwf.2 a p hp
      omega

theorem collect_path_upchain {G : Type} (d : Derived G) (nu : Nat → Bool)
    (hnu : ∀ g nodes n, (d.need_update g nodes n).1 = nu n) :
    ∀ (fuel : Nat) (a : Option Nat) (s : State G) (path : List Nat) (s' : State G)
      (path' : List Nat), collect_path d fuel a s path = .ok (s', path') →
      ∃ ext, path' = path ++ ext ∧ UpChain s.nodes nu a ext := by
  intro fuel
  induction fuel with
  | zero =>
    intro a s path s' path' h
    cases a with
    | none =>
      simp only [collect_path] at h
      cases h
      exact ⟨[], by simp, UpChain.stop_null⟩
    | some a => simp only [collect_path] at h; cases h
  | succ n ih =>
    intro a s path s' path' h
    cases a with
    | none =>
      simp only [collect_path] at h
      cases h
      exact ⟨[], by simp, UpChain.stop_null⟩
    | some a =>
      simp only [collect_path] at h
      by_cases hb : (d.need_update s.g s.nodes a).1 = true
      · rw [if_pos hb] at h
        obtain ⟨ext, h1, h2⟩ := ih _ _ _ _ _ h
        refine ⟨a :: ext, by rw [h1]; simp, UpChain.step (by rw [← hnu]; exact hb) h2⟩
      · rw [if_neg hb] at h
        cases h
        refine ⟨[], by simp, UpChain.stop_nu ?_⟩
        rw [← hnu s.g s.nodes a]
        cases hx : (d.need_update s.g s.nodes a).1 with
        | true => exact absurd hx hb
        | false => rfl

theorem tree_before_descend_paths {G : Type} (d : Derived G) (nu : Nat → Bool)
    (hnu : ∀ g nodes n, (d.need_update g nodes n).1 = nu n) (fuel : Nat) (s : State G)
    (t : Nat) (s' : State G) (h : tree_before_descend d fuel s t = .ok s') :
    (s'.nodes = s.nodes ∧
      (s'.trace = s.trace ∨ s'.trace = s.trace ++ [Event.need_update t])) ∨
    ∃ s3 tl cl, s3.nodes = s.nodes ∧
      (∃ evs, s3.trace = s.trace ++ evs ∧ ∀ e ∈ evs, ∃ n, e = Event.need_update n) ∧
      UpChain s.nodes nu (some t) tl ∧ UpChain s.nodes nu s.canon_leaf cl ∧
      s3.t_path = tl ∧
      s3.c_path = (if !cl.isEmpty && tl.getLast? != cl.getLast? then [] else cl) ∧
      descend_loop d fuel tl.length s3 = .ok s' := by
  unfold tree_before_descend at h
  by_cases h1 : (s.nodes t).is_pruned = true
  · rw [if_pos h1] at h; cases h; exact Or.inl ⟨rfl, Or.inl rfl⟩
  · rw [if_neg h1] at h
    by_cases h2 : (s.nodes t).data.child_count = 0
    · rw [if_pos h2] at h; cases h; exact Or.inl ⟨rfl, Or.inl rfl⟩
    · rw [if_neg h2] at h
      simp only at h
      by_cases h3 : (!(d.need_update s.g s.nodes t).1) = true
      · rw [if_pos h3] at h; cases h; exact Or.inl ⟨rfl, Or.inr rfl⟩
      · rw [if_neg h3] at h
        right
        cases hc1 : collect_path d fuel (some t)
            { nodes := s.nodes, canon_leaf := s.canon_leaf, g := (d.need_update s.g s.nodes t).2,
              t_path := [], c_path := [], trace := s.trace ++ [Event.need_update t] } [] with
        | error e => rw [hc1] at h; cases h
        | ok r1 =>
          obtain ⟨s2, t_path⟩ := r1
          rw [hc1] at h
          simp only at h
          cases hc2 : collect_path d fuel s2.canon_leaf s2 [] with
          | error e => rw [hc2] at h; cases h
          | ok r2 =>
            obtain ⟨s3, c_path⟩ := r2
            rw [hc2] at h
            simp only at h
            by_cases h4 : t_path.isEmpty = true
            · rw [if_pos h4] at h; cases h
            · rw [if_neg h4] at h
              obtain ⟨a1, a2, _, _, ev1, a5, a6⟩ := collect_path_spec d _ _ _ _ _ _ hc1
              obtain ⟨b1, b2, _, _, ev2, b5, b6⟩ := collect_path_spec d _ _ _ _ _ _ hc2
              obtain ⟨e1, p1, u1⟩ := collect_path_upchain d nu hnu _ _ _ _ _ _ hc1
              obtain ⟨e2, p2, u2⟩ := collect_path_upchain d nu hnu _ _ _ _ _ _ hc2
              simp only [List.nil_append] at p1 p2
              subst p1 p2
              rw [a1, a2] at u2
              refine ⟨_, t_path, c_path, ?_, ⟨Event.need_update t :: (ev1 ++ ev2), ?_, ?_⟩,
                u1, u2, rfl, rfl, h⟩
              · show s3.nodes = s.nodes
                rw [b1, a1]
              · show s3.trace = _
                rw [b5, a5]
                simp
              · intro e he
                rcases List.mem_cons.1 he with rfl | he
                · exact ⟨t, rfl⟩
                · rcases List.mem_append.1 he with he | he
                  · exact a6 e he
                  · exact b6 e he


/-! ## Protection of the canonical child in the main loop -/

theorem protect_inv_next {G : Type} {fuel : Nat} {s3 : State G} {a c k : Nat} {s2 : State G}
    (h : protect_inv fuel s3 a c k s2)
    (hphase : a ∉ s2.t_path.dropLast ∨
      ∃ tlo up cpre, s2.t_path.dropLast = tlo ++ a :: up ∧
        (if s2.c_path.isEmpty then s2.c_path else s2.c_path.dropLast) = cpre ++ c :: a :: up) :
    protect_inv fuel s3 a c k (next_iteration s2) :=
  { ok := h.ok, static := h.static, bit := h.bit, trace := h.trace
    nodup := List.Nodup.sublist (List.dropLast_sublist _) h.nodup
    phase := hphase }

theorem protect_step {G : Type} (d : Derived G) (fuel : Nat) (s3 : State G) (a c k : Nat)
    (hcontract : cell_contract d s3.nodes)
    (hch : ∀ (a' l x : Nat), (s3.nodes a').children[l]? = some (some x) →
      (s3.nodes x).get_parent = some a')
    (hpc : (s3.nodes c).get_parent = some a)
    (hk : (k : Int) = canon_formula s3.nodes c a)
    (hslot : ∀ l : Nat, (s3.nodes a).children[l]? = some (some c) → l = k)
    (s1 : State G) (a_t : Nat) (s2 : State G) (b : Bool)
    (hP : protect_inv fuel s3 a c k s1) (hl : s1.t_path.getLast? = some a_t)
    (hp : process_node d fuel s1 a_t = .ok (s2, b)) :
    protect_inv fuel s3 a c k s2 ∧ (b = false → protect_inv fuel s3 a c k (next_iteration s2)) := by
  have hpr := process_node_rel d fuel s1 a_t s2 b (hP.ok a_t)
    (fun aut ha => maps_cell_congr (hP.static a_t)
      (hcontract s1.g s1.nodes a_t hP.static aut ha)) hp
  obtain ⟨ys, hys⟩ := List.getLast?_eq_some_iff.1 hl
  obtain ⟨evs0, ht0, hn0⟩ := hP.trace
  obtain ⟨evs, ht, hev, _, _⟩ := hpr.trace
  have hok2 : ∀ m, node_ok fuel (s2.nodes m) := by
    intro m
    by_cases hm : m = a_t
    · subst hm; exact hpr.ok
    · exact node_ok_congr (hpr.static m) (hpr.others m hm).1 (hpr.others m hm).2 (hP.ok m)
  have hst2 : ∀ m, static_eq (s3.nodes m) (s2.nodes m) :=
    fun m => static_eq_trans (hP.static m) (hpr.static m)
  have hnd2 : s2.t_path.Nodup := by rw [hpr.t_path_eq]; exact hP.nodup
  -- a round at a node other than `a`
  have other : a_t ≠ a →
      (s2.nodes a).child_pruned[k]? = (s3.nodes a).child_pruned[k]? ∧
      ∃ evs', s2.trace = s3.trace ++ evs' ∧ Event.prune_subtree c ∉ evs' := by
    intro hne
    refine ⟨by rw [(hpr.others a (Ne.symm hne)).2]; exact hP.bit, evs0 ++ evs,
      by rw [ht, ht0, List.append_assoc], ?_⟩
    intro hmem
    rcases List.mem_append.1 hmem with hmem | hmem
    · exact hn0 hmem
    · rcases hev _ hmem with ⟨auts, he⟩ | ⟨l, child, he, hchild, _⟩
      · cases he
      · cases he
        rw [(hP.static a_t).children] at hchild
        have := hch a_t l c hchild
        rw [hpc] at this
        cases this
        exact hne rfl
  rcases hP.phase with hB | ⟨tlo, up, cpre, htp, hcp⟩
  · -- `a` is not on `t_path` any more
    have hne : a_t ≠ a := by
      rintro rfl
      exact hB (by rw [hys]; simp)
    obtain ⟨o1, o2⟩ := other hne
    have hB2 : a ∉ s2.t_path := by rw [hpr.t_path_eq]; exact hB
    have hP2 : protect_inv fuel s3 a c k s2 :=
      { ok := hok2, static := hst2, bit := o1, trace := o2, nodup := hnd2, phase := Or.inl hB2 }
    exact ⟨hP2, fun _ => protect_inv_next hP2
      (Or.inl (fun hm => hB2 (List.mem_of_mem_dropLast hm)))⟩
  · rcases List.eq_nil_or_concat up with rfl | ⟨up0, b0, rfl⟩
    · -- the round at `a` itself
      have hat : a_t = a := by
        have := hys.symm.trans htp
        have h2 := (List.append_inj' this rfl).2
        cases h2
        rfl
      subst hat
      have hcp' : s1.c_path = cpre ++ [c, a_t] := hcp
      have hk1 : (k : Int) = canon_formula s1.nodes c a_t := by
        rw [canon_formula_congr hP.static]; exact hk
      have hkeep : s2.c_path = s1.c_path :=
        hpr.c_path_keep (cpre ++ [c]) (by rw [hcp']; simp)
      have hbit : (s2.nodes a_t).child_pruned[k]? = (s3.nodes a_t).child_pruned[k]? := by
        rw [hpr.prot cpre c k hcp' hk1]; exact hP.bit
      have htr : ∃ evs', s2.trace = s3.trace ++ evs' ∧ Event.prune_subtree c ∉ evs' := by
        refine ⟨evs0 ++ evs, by rw [ht, ht0, List.append_assoc], ?_⟩
        intro hmem
        rcases List.mem_append.1 hmem with hmem | hmem
        · exact hn0 hmem
        · rcases hev _ hmem with ⟨auts, he⟩ | ⟨l, child, he, hchild, hl'⟩
          · cases he
          · cases he
            rw [(hP.static a_t).children] at hchild
            have hlk := hslot l hchild
            subst hlk
            exact hl' cpre c hcp' hk1
      have hP2 : protect_inv fuel s3 a_t c k s2 :=
        { ok := hok2, static := hst2, bit := hbit, trace := htr, nodup := hnd2
          phase := Or.inr ⟨tlo, [], cpre, by rw [hpr.t_path_eq]; exact htp,
            by rw [hkeep]; exact hcp⟩ }
      refine ⟨hP2, fun _ => protect_inv_next hP2 (Or.inl ?_)⟩
      rw [hpr.t_path_eq, htp]
      have hnd := hP.nodup
      rw [htp] at hnd
      simp only [List.dropLast_concat]
      intro hmem
      have := (List.nodup_append.1 hnd).2.2
      exact this hmem (List.mem_singleton_self _)
    · -- a round above `a`
      rw [List.concat_eq_append] at htp hcp
      have hsplit : s1.t_path = (tlo ++ a :: up0) ++ [b0] := by rw [htp]; simp
      have hat : ys = tlo ++ a :: up0 ∧ [a_t] = [b0] :=
        List.append_inj' (hys.symm.trans hsplit) rfl
      have hb0 : b0 = a_t := by
        have := hat.2
        cases this
        rfl
      subst hb0
      have hne : b0 ≠ a := by
        rintro rfl
        have hnd := hP.nodup
        rw [htp] at hnd
        have h1 := (List.nodup_append.1 hnd).2.1
        have h2 := (List.nodup_cons.1 h1).1
        exact h2 (by simp)
      obtain ⟨o1, o2⟩ := other hne
      have hcsplit : s1.c_path = (cpre ++ c :: a :: up0) ++ [b0] := by rw [hcp]; simp
      have hkeep : s2.c_path = s1.c_path := hpr.c_path_keep _ hcsplit
      have hP2 : protect_inv fuel s3 a c k s2 :=
        { ok := hok2, static := hst2, bit := o1, trace := o2, nodup := hnd2
          phase := Or.inr ⟨tlo, up0 ++ [b0], cpre, by rw [hpr.t_path_eq]; exact htp,
            by rw [hkeep]; exact hcp⟩ }
      refine ⟨hP2, fun _ => protect_inv_next hP2 (Or.inr ⟨tlo, up0, cpre, ?_, ?_⟩)⟩
      · rw [hpr.t_path_eq, hsplit, List.dropLast_concat]
      · have h1 : ((cpre ++ c :: a :: up0) ++ [b0]).isEmpty = false := by simp
        rw [hkeep, hcsplit, h1]
        simp only [Bool.false_eq_true, if_false, List.dropLast_concat]


theorem upChain_through {nodes : Nat → TreeNode} {nu : Nat → Bool} {c cl : Nat}
    (hanc : AncestorOrSelf nodes c cl) :
    (∀ x, AncestorOrSelf nodes c x → AncestorOrSelf nodes x cl → nu x = true) →
    ∀ l, UpChain nodes nu (some cl) l → ∃ pre rest, l = pre ++ c :: rest := by
  induction hanc with
  | refl =>
    intro hcov l hl
    have hc := hcov c (AncestorOrSelf.refl _) (AncestorOrSelf.refl _)
    cases hl with
    | stop_nu hf => rw [hc] at hf; cases hf
    | step _ _ => exact ⟨[], _, rfl⟩
  | @step p m hp hcp ih =>
    intro hcov l hl
    have hm := hcov m (AncestorOrSelf.step hp hcp) (AncestorOrSelf.refl _)
    cases hl with
    | stop_nu hf => rw [hm] at hf; cases hf
    | @step _ rest' _ h' =>
      rw [hp] at h'
      obtain ⟨pre, rest, hr⟩ :=
        ih (fun x h1 h2 => hcov x h1 (AncestorOrSelf.step hp h2)) rest' h'
      exact ⟨m :: pre, rest, by rw [hr]; rfl⟩

theorem getLast?_append_cons {α : Type} (pre : List α) (a : α) (up : List α) :
    (pre ++ a :: up).getLast? = (a :: up).getLast? := by
  cases h : (a :: up).getLast? with
  | none => simp at h
  | some x =>
    obtain ⟨ys, hys⟩ := List.getLast?_eq_some_iff.1 h
    rw [hys, ← List.append_assoc]
    exact List.getLast?_concat _

/-- The canonical child `c` of `a` (slot `k`) is protected by a whole call of
`tree_before_descend`, when `need_update` is the predicate `nu` and holds from the canonical
leaf up to `c`. -/
theorem tree_before_descend_protects_pair {G : Type} (d : Derived G) (nu : Nat → Bool)
    (fuel : Nat) (s : State G) (t : Nat) (s' : State G) (cl a c k : Nat)
    (hwf : wf_levels s.nodes) (hinv : ∀ m, node_ok fuel (s.nodes m))
    (hcontract : cell_contract d s.nodes)
    (hnu : ∀ g nodes n, (d.need_update g nodes n).1 = nu n)
    (hch : ∀ (a' l x : Nat), (s.nodes a').children[l]? = some (some x) →
      (s.nodes x).get_parent = some a')
    (hcl : s.canon_leaf = some cl) (hpc : (s.nodes c).get_parent = some a)
    (hanc : AncestorOrSelf s.nodes c cl)
    (hcov : ∀ x, AncestorOrSelf s.nodes c x → AncestorOrSelf s.nodes x cl → nu x = true)
    (hk : (k : Int) = canon_formula s.nodes c a)
    (hslot : ∀ l : Nat, (s.nodes a).children[l]? = some (some c) → l = k)
    (h : tree_before_descend d fuel s t = .ok s') :
    (s'.nodes a).child_pruned[k]? = (s.nodes a).child_pruned[k]? ∧
    ∃ evs, s'.trace = s.trace ++ evs ∧ Event.prune_subtree c ∉ evs := by
  rcases tree_before_descend_paths d nu hnu fuel s t s' h with
    ⟨h1, h2⟩ | ⟨s3, tl, cl_, hn, ⟨nevs, htr, hnev⟩, ut, uc, htp, hcp, hloop⟩
  · refine ⟨by rw [h1], ?_⟩
    rcases h2 with h2 | h2
    · exact ⟨[], by rw [h2]; simp, List.not_mem_nil _⟩
    · refine ⟨[Event.need_update t], h2, ?_⟩
      intro hm
      cases List.mem_singleton.1 hm
  · have hphase : a ∉ s3.t_path ∨
        ∃ tlo up cpre, s3.t_path = tlo ++ a :: up ∧ s3.c_path = cpre ++ c :: a :: up := by
      by_cases ha : a ∈ tl
      · right
        obtain ⟨tpre, up, rfl⟩ := List.append_of_mem ha
        have hua := upChain_suffix tpre ut
        rw [hcl] at uc
        obtain ⟨pre, rest, rfl⟩ := upChain_through hanc hcov cl_ uc
        have huc := upChain_suffix pre uc
        have hrest : rest = a :: up := by
          cases huc with
          | step _ h' =>
            rw [hpc] at h'
            exact upChain_unique h' hua
        subst hrest
        refine ⟨tpre, up, pre, htp, ?_⟩
        rw [hcp]
        have e1 : (tpre ++ a :: up).getLast? = (a :: up).getLast? := getLast?_append_cons _ _ _
        have e2 : (pre ++ c :: a :: up).getLast? = (a :: up).getLast? := by
          have : pre ++ c :: a :: up = (pre ++ [c]) ++ a :: up := by simp
          rw [this]
          exact getLast?_append_cons _ _ _
        rw [e1, e2]
        simp
      · left
        rw [htp]
        exact ha
    have h0 : protect_inv fuel s3 a c k s3 :=
      { ok := fun m => by rw [hn]; exact hinv m
        static := fun _ => static_eq_refl _
        bit := rfl
        trace := ⟨[], by simp, List.not_mem_nil _⟩
        nodup := by rw [htp]; exact upChain_nodup hwf ut
        phase := hphase }
    have hfin := descend_loop_induct d fuel (protect_inv fuel s3 a c k)
      (fun s1 a_t s2 b hP hl hp =>
        protect_step d fuel s3 a c k (by rw [hn]; exact hcontract) (by rw [hn]; exact hch)
          (by rw [hn]; exact hpc) (by rw [hn]; exact hk) (by rw [hn]; exact hslot)
          s1 a_t s2 b hP hl hp)
      tl.length s3 s' hloop h0
    obtain ⟨evs, hevs, hnot⟩ := hfin.trace
    refine ⟨by rw [hfin.bit, hn], nevs ++ evs, by rw [hevs, htr, List.append_assoc], ?_⟩
    intro hm
    rcases List.mem_append.1 hm with hm | hm
    · obtain ⟨n, hn'⟩ := hnev _ hm
      cases hn'
    · exact hnot hm


/-- A second input on which the canonical child is pruned: the canonical leaf is `6`, below the child `2` (slot `1`) of the root;
`need_update` holds at the root only, `update` returns at the root the transposition of the
vertices `0` and `1`, which maps the target cell to itself.  The call processes the root, an
ancestor of the canonical leaf, sets `child_pruned[1]` there and invokes `prune_subtree` on the
child `2`, so the canonical leaf ends up pruned. -/
theorem tree_before_descend_prunes_canon_child :
    (ex_state 6).canon_leaf = some 6 ∧ (ex_nodes 6).get_parent = some 2 ∧
    (ex_nodes 2).get_parent = some 0 ∧ (ex_nodes 0).children[1]? = some (some 2) ∧
    node_view (tree_before_descend (ex_derived (fun n => n == 0) ex_auts) 3 (ex_state 6) 0) 0 =
      some ([0, 0, 2], 1, [false, true, false]) ∧
    result_pruned_calls
      (tree_before_descend (ex_derived (fun n => n == 0) ex_auts) 3 (ex_state 6) 0) = some [2] ∧
    pruned_nodes
      (tree_before_descend (ex_derived (fun n => n == 0) ex_auts) 3 (ex_state 6) 0) 8 =
      some [2, 6, 7] := by
  decide

/-- C1: on the example tree with canonical leaf `6`, below the child `2` (slot `1`) of the
root, let `need_update` hold on every node that has children (the nodes `0` to `3`) and not on
the leaves, and let `update` return at the root the transposition of the vertices `0` and `1`,
which maps the target cell to itself.  The walk from the canonical leaf stops at its first
test, `c_path` stays empty, and the call `tree_before_descend(0)` processes the root, an
ancestor of the canonical leaf, without a protected index: it sets `child_pruned[1]` there and
invokes `prune_subtree` on the child `2`, so the canonical leaf and its parent end up pruned.
With `need_update` true on the canonical leaf as well, the same call prunes the child `1`
instead and the canonical path is untouched. -/
theorem tree_before_descend_loses_canon_protection :
    (ex_state 6).canon_leaf = some 6 ∧ (ex_nodes 6).get_parent = some 2 ∧
    (ex_nodes 2).get_parent = some 0 ∧ (ex_nodes 0).children[1]? = some (some 2) ∧
    (ex_nodes 6).children = [] ∧
    pruned_nodes (.ok (ex_state 6)) 8 = some [] ∧
    result_need_update_calls
      (tree_before_descend (ex_derived (fun n => decide (n < 4)) ex_auts) 3 (ex_state 6) 0) =
      some [0, 0, 6] ∧
    node_view
      (tree_before_descend (ex_derived (fun n => decide (n < 4)) ex_auts) 3 (ex_state 6) 0) 0 =
      some ([0, 0, 2], 1, [false, true, false]) ∧
    result_pruned_calls
      (tree_before_descend (ex_derived (fun n => decide (n < 4)) ex_auts) 3 (ex_state 6) 0) =
      some [2] ∧
    pruned_nodes
      (tree_before_descend (ex_derived (fun n => decide (n < 4)) ex_auts) 3 (ex_state 6) 0) 8 =
      some [2, 6, 7] ∧
    result_pruned_calls
      (tree_before_descend (ex_derived (fun _ => true) ex_auts) 3 (ex_state 6) 0) =
      some [1] ∧
    pruned_nodes
      (tree_before_descend (ex_derived (fun _ => true) ex_auts) 3 (ex_state 6) 0) 8 =
      some [1, 4, 5] := by
  decide

/-- The protection the code gives when `c_path` reaches the node: let `need_update` be a
predicate `nu` of the node, let the nodes satisfy the
invariant `node_ok`, the levels be well formed, the child slots hold children, and the
generators map the target cell to itself.  If `c` is a child of `a` on the path to the
canonical leaf, `nu` holds from the canonical leaf up to `c`, and `c` sits in no slot of `a`
other than the slot `k` that the code computes (`canon_formula`), then a returning call of
`tree_before_descend` leaves `child_pruned[k]` of `a` as it was and does not invoke
`prune_subtree` on `c`.  If this holds along the whole path, no node on the path from the root
to the canonical leaf becomes pruned by the call. -/
theorem tree_before_descend_protects_canon {G : Type} (d : Derived G) (nu : Nat → Bool)
    (fuel : Nat) (s : State G) (t : Nat) (s' : State G) (cl a c k : Nat)
    (hwf : wf_levels s.nodes) (hinv : ∀ m, node_ok fuel (s.nodes m))
    (hcontract : cell_contract d s.nodes)
    (hnu : ∀ g nodes n, (d.need_update g nodes n).1 = nu n)
    (hch : ∀ (a' l x : Nat), (s.nodes a').children[l]? = some (some x) →
      (s.nodes x).get_parent = some a')
    (hcl : s.canon_leaf = some cl) (hpc : (s.nodes c).get_parent = some a)
    (hanc : AncestorOrSelf s.nodes c cl)
    (hcov : ∀ x, AncestorOrSelf s.nodes c x → AncestorOrSelf s.nodes x cl → nu x = true)
    (hk : (k : Int) = canon_formula s.nodes c a)
    (hslot : ∀ l : Nat, (s.nodes a).children[l]? = some (some c) → l = k)
    (h : tree_before_descend d fuel s t = .ok s') :
    ((s'.nodes a).child_pruned[k]? = (s.nodes a).child_pruned[k]? ∧
      ∃ evs, s'.trace = s.trace ++ evs ∧ Event.prune_subtree c ∉ evs) ∧
    ((∀ x, AncestorOrSelf s.nodes x cl → (s.nodes x).get_parent ≠ none → nu x = true) →
      (∀ a' c', (s.nodes c').get_parent = some a' → AncestorOrSelf s.nodes c' cl →
        ∃ k' : Nat, (k' : Int) = canon_formula s.nodes c' a' ∧
          ∀ l : Nat, (s.nodes a').children[l]? = some (some c') → l = k') →
      ∀ x, AncestorOrSelf s.nodes x cl → (s'.nodes x).is_pruned = true →
        (s.nodes x).is_pruned = true) := by
  refine ⟨tree_before_descend_protects_pair d nu fuel s t s' cl a c k hwf hinv hcontract hnu
    hch hcl hpc hanc hcov hk hslot h, ?_⟩
  intro hcovall hslotall x hx hpr
  obtain ⟨evs, t1, _, v, w⟩ := (tree_before_descend_whole d fuel s t s' hinv hcontract h).1.trace
  rcases w x hpr with h' | ⟨child, hmem, hreach⟩
  · exact h'
  · exfalso
    have hcx : AncestorOrSelf s.nodes child x := reaches_sound _ _ hreach
    have hccl : AncestorOrSelf s.nodes child cl := anc_trans hcx hx
    obtain ⟨a', l, hal⟩ := v child hmem
    have hpa := hch a' l child hal
    obtain ⟨k', hk', hslot'⟩ := hslotall a' child hpa hccl
    have hcov' : ∀ y, AncestorOrSelf s.nodes child y → AncestorOrSelf s.nodes y cl →
        nu y = true := by
      intro y hy1 hy2
      apply hcovall y hy2
      rcases anc_cases hy1 with rfl | ⟨p, hp, _⟩
      · rw [hpa]; exact fun h => Option.noConfusion h
      · rw [hp]; exact fun h => Option.noConfusion h
    obtain ⟨_, evs', t2, hnot⟩ := tree_before_descend_protects_pair d nu fuel s t s' cl a' child
      k' hwf hinv hcontract hnu hch hcl hpa hccl hcov' hk' hslot' h
    have : evs = evs' := List.append_cancel_left (t1.symm.trans t2)
    subst this
    exact hnot hmem

theorem ex_children_consistent : ∀ (a' l x : Nat),
    ((ex_state 6).nodes a').children[l]? = some (some x) →
      ((ex_state 6).nodes x).get_parent = some a' := by
  intro a' l x h
  have h' : (ex_nodes a').children[l]? = some (some x) := h
  show (ex_nodes x).get_parent = some a'
  match a' with
  | 0 =>
    match l with
    | 0 | 1 | 2 => cases h'; rfl
    | _ + 3 => cases h'
  | 1 | 2 =>
    match l with
    | 0 | 1 => cases h'; rfl
    | _ + 2 => cases h'
  | 3 =>
    match l with
    | 0 | 1 => cases h'
    | _ + 2 => cases h'
  | 4 | 5 | 6 | 7 => cases h'
  | _ + 8 => cases h'

theorem tree_before_descend_protects_canon_witness :
    (((result_state (tree_before_descend (ex_derived (fun _ => true) ex_auts) 3 (ex_state 6) 0)
        (ex_state 6)).nodes 0).child_pruned[1]? = ((ex_state 6).nodes 0).child_pruned[1]? ∧
      ∃ evs, (result_state (tree_before_descend (ex_derived (fun _ => true) ex_auts) 3
          (ex_state 6) 0) (ex_state 6)).trace = (ex_state 6).trace ++ evs ∧
        Event.prune_subtree 2 ∉ evs) ∧
    ((∀ x, AncestorOrSelf (ex_state 6).nodes x 6 → ((ex_state 6).nodes x).get_parent ≠ none →
        (fun _ => true) x = true) →
      (∀ a' c', ((ex_state 6).nodes c').get_parent = some a' →
        AncestorOrSelf (ex_state 6).nodes c' 6 →
        ∃ k' : Nat, (k' : Int) = canon_formula (ex_state 6).nodes c' a' ∧
          ∀ l : Nat, ((ex_state 6).nodes a').children[l]? = some (some c') → l = k') →
      ∀ x, AncestorOrSelf (ex_state 6).nodes x 6 →
        ((result_state (tree_before_descend (ex_derived (fun _ => true) ex_auts) 3 (ex_state 6) 0)
          (ex_state 6)).nodes x).is_pruned = true →
        ((ex_state 6).nodes x).is_pruned = true) :=
  tree_before_descend_protects_canon (ex_derived (fun _ => true) ex_auts) (fun _ => true) 3
    (ex_state 6) 0 _ 6 0 2 1 ex_nodes_wf ex_nodes_ok (ex_contract _) (fun _ _ _ => rfl)
    ex_children_consistent rfl rfl (reaches_sound 2 6 (by decide)) (fun _ _ _ => rfl)
    (by decide)
    (by
      intro l hl
      have hl' : (ex_nodes 0).children[l]? = some (some 2) := hl
      match l with
      | 0 => cases hl'
      | 1 => rfl
      | 2 => cases hl'
      | _ + 3 => cases hl')
    rfl


/-! ## Frame of a round at another node -/

theorem frame_rel_refl {G : Type} (a_t : Nat) (s : State G) : frame_rel a_t s s :=
  ⟨fun _ => static_eq_refl _, fun _ _ => ⟨rfl, rfl⟩,
    [], by simp, fun _ h => absurd h (List.not_mem_nil _)⟩

theorem frame_rel_trans {G : Type} {a_t : Nat} {s1 s2 s3 : State G}
    (h12 : frame_rel a_t s1 s2) (h23 : frame_rel a_t s2 s3) : frame_rel a_t s1 s3 := by
  obtain ⟨e1, t1, u1⟩ := h12.trace
  obtain ⟨e2, t2, u2⟩ := h23.trace
  refine ⟨fun m => static_eq_trans (h12.static m) (h23.static m),
    fun m hm => ⟨((h23.others m hm).1).trans (h12.others m hm).1,
      ((h23.others m hm).2).trans (h12.others m hm).2⟩,
    e1 ++ e2, by rw [t2, t1, List.append_assoc], ?_⟩
  intro e he
  rcases List.mem_append.1 he with he | he
  · exact u1 e he
  · exact u2 e he

theorem frame_rel_set_node {G : Type} (a_t : Nat) (s : State G) (nd : TreeNode)
    (h : static_eq (s.nodes a_t) nd) : frame_rel a_t s (s.set_node a_t nd) :=
  ⟨set_node_static s a_t nd h, fun m hm => by rw [set_node_nodes_ne s a_t nd hm]; exact ⟨rfl, rfl⟩,
    [], by simp [State.set_node], fun _ h => absurd h (List.not_mem_nil _)⟩

theorem frame_rel_prune {G : Type} (a_t : Nat) (s : State G) (c : Nat) :
    frame_rel a_t s (prune_subtree s c) :=
  ⟨fun m => prune_subtree_static s c m,
    fun m _ => ⟨prune_subtree_data s c m, prune_subtree_child_pruned s c m⟩,
    [Event.prune_subtree c], rfl, fun _ he => Or.inr ⟨c, List.mem_singleton.1 he⟩⟩

theorem per_point_frame {G : Type} {fuel : Nat} {canon : Int} {a_t : Nat} {pinv : Nat → Nat}
    {cb : Nat} {s s' : State G} {idx v' : Nat}
    (h : per_point fuel canon a_t pinv cb s idx v' = .ok s') : frame_rel a_t s s' := by
  unfold per_point at h
  simp only at h
  repeat' split at h
  all_goals cases h
  all_goals first
    | (apply frame_rel_set_node; exact ⟨rfl, rfl, rfl, rfl, rfl, rfl, rfl⟩)
    | (refine frame_rel_trans ?_ (frame_rel_prune a_t _ _)
       apply frame_rel_set_node
       exact ⟨rfl, rfl, rfl, rfl, rfl, rfl, rfl⟩)

theorem frame_rel_of_nodes_eq {G : Type} (a_t : Nat) {s s' : State G}
    (hn : s'.nodes = s.nodes) (ht : s'.trace = s.trace) : frame_rel a_t s s' :=
  ⟨fun m => by rw [hn]; exact static_eq_refl _, fun m _ => by rw [hn]; exact ⟨rfl, rfl⟩,
    [], by rw [ht]; simp, fun _ h => absurd h (List.not_mem_nil _)⟩

theorem frame_rel_after_update {G : Type} (d : Derived G) (s : State G) (a_t : Nat) :
    frame_rel a_t s (after_update d s a_t) :=
  ⟨fun _ => static_eq_refl _, fun _ _ => ⟨rfl, rfl⟩,
    [Event.update a_t (d.update s.g s.nodes a_t).1], rfl,
    fun _ he => Or.inl ⟨_, List.mem_singleton.1 he⟩⟩

theorem scan_cell_frame {G : Type} {fuel : Nat} {canon : Int} {a_t : Nat}
    {pb pinv : Nat → Nat} {cb : Nat} {aut : Perm} :
    ∀ (remaining j : Nat) (s s' : State G),
      scan_cell fuel canon a_t pb pinv cb aut remaining j s = .ok s' → frame_rel a_t s s' := by
  intro remaining
  induction remaining with
  | zero =>
    intro j s s' h
    simp only [scan_cell] at h
    cases h
    exact frame_rel_refl _ _
  | succ n ih =>
    intro j s s' h
    simp only [scan_cell] at h
    by_cases hfix : pb (j + cb) = aut (pb (j + cb))
    · rw [if_pos hfix] at h
      exact ih _ _ _ h
    · rw [if_neg hfix] at h
      cases hp : per_point fuel canon a_t pinv cb s j (aut (pb (j + cb))) with
      | error e => rw [hp] at h; cases h
      | ok s1 =>
        rw [hp] at h
        simp only at h
        have h1 := per_point_frame hp
        by_cases hz : (s1.nodes a_t).data.num_roots = 0
        · rw [if_pos hz] at h; cases h; exact h1
        · rw [if_neg hz] at h
          exact frame_rel_trans h1 (ih _ _ _ h)

theorem scan_auts_frame {G : Type} {fuel : Nat} {canon : Int} {a_t : Nat}
    {pb pinv : Nat → Nat} {cb k : Nat} :
    ∀ (auts : List Perm) (s s' : State G),
      scan_auts fuel canon a_t pb pinv cb k auts s = .ok s' → frame_rel a_t s s' := by
  intro auts
  induction auts with
  | nil =>
    intro s s' h
    simp only [scan_auts] at h
    cases h
    exact frame_rel_refl _ _
  | cons aut rest ih =>
    intro s s' h
    simp only [scan_auts] at h
    cases hc : scan_cell fuel canon a_t pb pinv cb aut k 0 s with
    | error e => rw [hc] at h; cases h
    | ok s1 =>
      rw [hc] at h
      simp only at h
      have h1 := scan_cell_frame _ _ _ _ hc
      by_cases hz : (s1.nodes a_t).data.num_roots = 0
      · rw [if_pos hz] at h; cases h; exact h1
      · rw [if_neg hz] at h
        exact frame_rel_trans h1 (ih _ _ h)

/-- A round of the main loop at `a_t`, whatever the state of `a_t`: the frame. -/
theorem process_node_frame {G : Type} (d : Derived G) (fuel : Nat) (s : State G) (a_t : Nat)
    (s' : State G) (b : Bool) (h : process_node d fuel s a_t = .ok (s', b)) :
    frame_rel a_t s s' := by
  rcases process_node_cases d fuel s a_t s' b h with
    ⟨_, rfl, _⟩ | ⟨_, _, rfl, _⟩ | ⟨_, _, _, _, rfl, _⟩ | ⟨_, _, s2, c, s3, hs2, hc, hscan, _⟩
  · exact frame_rel_refl _ _
  · exact frame_rel_after_update d s a_t
  · exact frame_rel_after_update d s a_t
  · obtain ⟨c1, _, c3, _⟩ := canon_child_local_idx_spec hc
    have h2 : frame_rel a_t s s2 := by
      rcases hs2 with ⟨_, rfl⟩ | ⟨_, _, rfl⟩
      · refine frame_rel_trans (frame_rel_after_update d s a_t) ?_
        unfold after_init
        apply frame_rel_set_node
        exact ⟨rfl, rfl, rfl, rfl, rfl, rfl, rfl⟩
      · exact frame_rel_after_update d s a_t
    exact frame_rel_trans h2
      (frame_rel_trans (frame_rel_of_nodes_eq a_t c1 c3) (scan_auts_frame _ _ _ hscan))

/-- A returning call of `tree_before_descend`, seen from one node `T` that satisfies the
invariant and whose generators map its target cell to itself. -/
theorem tree_before_descend_node {G : Type} (d : Derived G) (fuel : Nat) (s : State G)
    (t : Nat) (s' : State G) (T : Nat) (hok : node_ok fuel (s.nodes T))
    (hgen : ∀ (g : G) (nodes : Nat → TreeNode), (∀ m, static_eq (s.nodes m) (nodes m)) →
      ∀ aut ∈ (d.update g nodes T).1, maps_cell (s.nodes T) aut)
    (h : tree_before_descend d fuel s t = .ok s') : node_inv fuel s T s' := by
  rcases tree_before_descend_cases d fuel s t s' h with
    ⟨h1, _, h3⟩ | ⟨s3, n, h1, _, ⟨nevs, hnt, hne⟩, hloop⟩
  · refine ⟨fun m => by rw [h1]; exact static_eq_refl _, by rw [h1]; exact hok,
      by rw [h1]; exact node_mono_refl _, ?_⟩
    rcases h3 with h3 | h3
    · exact ⟨[], by rw [h3]; simp, fun _ hm => absurd hm (List.not_mem_nil _)⟩
    · refine ⟨[Event.need_update t], h3, fun _ hm => ?_⟩
      cases List.mem_singleton.1 hm
  · have h0 : node_inv fuel s T s3 := by
      refine ⟨fun m => by rw [h1]; exact static_eq_refl _, by rw [h1]; exact hok,
        by rw [h1]; exact node_mono_refl _, nevs, hnt, fun auts hm => ?_⟩
      obtain ⟨n', hn'⟩ := hne _ hm
      cases hn'
    refine descend_loop_induct d fuel (node_inv fuel s T) ?_ n s3 s' hloop h0
    intro s1 a_t s2 b hP _ hp
    obtain ⟨evs0, ht0, hu0⟩ := hP.trace
    have hP2 : node_inv fuel s T s2 := by
      by_cases hat : a_t = T
      · subst hat
        have hpr := process_node_rel d fuel s1 a_t s2 b hP.ok
          (fun aut ha => maps_cell_congr (hP.static a_t) (hgen s1.g s1.nodes hP.static aut ha)) hp
        obtain ⟨evs, ht, _, _, hu⟩ := hpr.trace
        refine ⟨fun m => static_eq_trans (hP.static m) (hpr.static m), hpr.ok,
          node_mono_trans hP.mono hpr.mono, evs0 ++ evs, by rw [ht, ht0, List.append_assoc], ?_⟩
        intro auts hm hbij aut haut
        rcases List.mem_append.1 hm with hm | hm
        · exact orbit_complete_mono (hpr.static a_t) hpr.mono (hu0 auts hm hbij aut haut)
        · exact hu auts hm (cell_bijective_congr (hP.static a_t) hbij) aut haut
      · have hfr := process_node_frame d fuel s1 a_t s2 b hp
        obtain ⟨evs, ht, hev⟩ := hfr.trace
        have hT := hfr.others T (Ne.symm hat)
        have hm2 : node_mono (s1.nodes T) (s2.nodes T) := node_mono_of_eq hT.1 hT.2
        refine ⟨fun m => static_eq_trans (hP.static m) (hfr.static m),
          node_ok_congr (hfr.static T) hT.1 hT.2 hP.ok, node_mono_trans hP.mono hm2,
          evs0 ++ evs, by rw [ht, ht0, List.append_assoc], ?_⟩
        intro auts hm hbij aut haut
        rcases List.mem_append.1 hm with hm | hm
        · exact orbit_complete_mono (hfr.static T) hm2 (hu0 auts hm hbij aut haut)
        · exfalso
          rcases hev _ hm with ⟨auts', he⟩ | ⟨c, he⟩
          · exact hat (update_event_inj he).1.symm
          · cases he
    exact ⟨hP2, fun _ => ⟨hP2.static, hP2.ok, hP2.mono, hP2.trace⟩⟩


/-! ## Monotonicity (C9) and orbit completeness (C8) -/

/-- C9: every operation of the pruner is monotone at a node `T` that satisfies the invariant
`node_ok` and whose generators map its target cell to itself (`node_mono`): no `child_pruned`
bit goes from true to false, and once the union-find of `T` is materialized its `num_roots`
does not grow and two indices with the same root keep a common root.  This holds for
`tree_create_node_begin`, `automorphism_leaf`, `automorphism_implicit` and
`tree_before_descend`, at any node `t` and for any automorphism. -/
theorem pruner_operations_monotone {G : Type} (d : Derived G) (fuel : Nat) (s : State G)
    (t : Nat) (aut : Perm) (tag : Nat) (T : Nat) (hok : node_ok fuel (s.nodes T))
    (hgen : ∀ (g : G) (nodes : Nat → TreeNode), (∀ m, static_eq (s.nodes m) (nodes m)) →
      ∀ a ∈ (d.update g nodes T).1, maps_cell (s.nodes T) a) :
    node_mono (s.nodes T) ((tree_create_node_begin s t).2.nodes T) ∧
    (∀ s', automorphism_leaf d fuel s t aut = .ok s' → node_mono (s.nodes T) (s'.nodes T)) ∧
    node_mono (s.nodes T) ((automorphism_implicit d s t aut tag).nodes T) ∧
    (∀ s', tree_before_descend d fuel s t = .ok s' → node_mono (s.nodes T) (s'.nodes T)) := by
  refine ⟨?_, ?_, node_mono_refl _, ?_⟩
  · unfold tree_create_node_begin
    cases hp : (s.nodes t).get_parent with
    | none => exact node_mono_refl _
    | some p =>
      simp only
      by_cases hT : T = p
      · subst hT
        simp only [Function.update_same]
        exact ⟨fun _ h => h, rfl, fun _ => rfl, fun _ => le_refl _,
          fun i j r hi hj => ⟨r, hi, hj⟩⟩
      · simp only [Function.update_noteq hT]
        exact node_mono_refl _
  · intro s' h
    obtain ⟨x, rfl⟩ := automorphism_leaf_result d fuel s t aut s' h
    exact node_mono_of_eq (prune_subtree_data _ x T) (prune_subtree_child_pruned _ x T)
  · intro s' h
    exact (tree_before_descend_node d fuel s t s' T hok hgen h).mono

theorem pruner_operations_monotone_witness :
    node_view (.ok (ex_state_init 6 [false, false, true])) 0 =
      some ([0, 1, 2], 2, [false, false, true]) ∧
    node_view (tree_before_descend (ex_derived (fun _ => true) ex_auts) 3
      (ex_state_init 6 [false, false, true]) 0) 0 =
      some ([1, 1, 2], 1, [true, false, true]) ∧
    node_mono ((ex_state_init 6 [false, false, true]).nodes 0)
      ((tree_create_node_begin (ex_state_init 6 [false, false, true]) 1).2.nodes 0) ∧
    node_mono ((ex_state_init 6 [false, false, true]).nodes 0)
      ((result_state (automorphism_leaf (ex_derived (fun _ => true) ex_auts) 3
        (ex_state_init 6 [false, false, true]) 4 (transposition 0 1))
        (ex_state 6)).nodes 0) ∧
    node_mono ((ex_state_init 6 [false, false, true]).nodes 0)
      ((automorphism_implicit (ex_derived (fun _ => true) ex_auts)
        (ex_state_init 6 [false, false, true]) 4 (transposition 0 1) 0).nodes 0) ∧
    node_mono ((ex_state_init 6 [false, false, true]).nodes 0)
      ((result_state (tree_before_descend (ex_derived (fun _ => true) ex_auts) 3
        (ex_state_init 6 [false, false, true]) 0) (ex_state 6)).nodes 0) :=
  ⟨by decide, by decide,
    (pruner_operations_monotone (ex_derived (fun _ => true) ex_auts) 3
      (ex_state_init 6 [false, false, true]) 1 (transposition 0 1) 0 0
      (ex_root_init_node_ok _ rfl)
      (fun _ _ _ a ha => ex_maps_cell_root [false, false, true] a ha)).1,
    (pruner_operations_monotone (ex_derived (fun _ => true) ex_auts) 3
      (ex_state_init 6 [false, false, true]) 4 (transposition 0 1) 0 0
      (ex_root_init_node_ok _ rfl)
      (fun _ _ _ a ha => ex_maps_cell_root [false, false, true] a ha)).2.1 _ rfl,
    (pruner_operations_monotone (ex_derived (fun _ => true) ex_auts) 3
      (ex_state_init 6 [false, false, true]) 4 (transposition 0 1) 0 0
      (ex_root_init_node_ok _ rfl)
      (fun _ _ _ a ha => ex_maps_cell_root [false, false, true] a ha)).2.2.1,
    (pruner_operations_monotone (ex_derived (fun _ => true) ex_auts) 3
      (ex_state_init 6 [false, false, true]) 0 (transposition 0 1) 0 0
      (ex_root_init_node_ok _ rfl)
      (fun _ _ _ a ha => ex_maps_cell_root [false, false, true] a ha)).2.2.2 _ rfl⟩

theorem pruner_operations_monotone_example :
    pruned_nodes (automorphism_leaf (ex_derived (fun _ => true) ex_auts) 3
      (ex_state_init 6 [false, false, true]) 4 (transposition 0 1)) 8 = some [1, 4, 5] ∧
    node_view (automorphism_leaf (ex_derived (fun _ => true) ex_auts) 3
      (ex_state_init 6 [false, false, true]) 4 (transposition 0 1)) 0 =
      some ([0, 1, 2], 2, [false, false, true]) := by
  decide

/-- C8: let the node `a_t` satisfy the invariant `node_ok` (its union-find is not materialized,
or it is a forest in which every index that is not a root is marked in `child_pruned`), let
`pi` be bijective on its target cell and let the generators returned by `update(a_t)` map the
cell to itself.  After a returning call of `tree_before_descend`, for every call of
`update(a_t)` it made and every generator `sigma` returned, no two distinct local indices `i`,
`j` with both `child_pruned` bits false have
`sigma(pi.get(cell_begin + i)) = pi.get(cell_begin + j)`. -/
theorem tree_before_descend_orbit_complete {G : Type} (d : Derived G) (fuel : Nat)
    (s : State G) (t : Nat) (s' : State G) (a_t : Nat) (hok : node_ok fuel (s.nodes a_t))
    (hbij : cell_bijective (s.nodes a_t))
    (hgen : ∀ (g : G) (nodes : Nat → TreeNode), (∀ m, static_eq (s.nodes m) (nodes m)) →
      ∀ a ∈ (d.update g nodes a_t).1, maps_cell (s.nodes a_t) a)
    (h : tree_before_descend d fuel s t = .ok s') :
    ∃ evs, s'.trace = s.trace ++ evs ∧
      ∀ auts, Event.update a_t auts ∈ evs →
        ∀ sigma ∈ auts, ∀ i j, i < (s'.nodes a_t).children.length →
          j < (s'.nodes a_t).children.length → i ≠ j →
          (s'.nodes a_t).child_pruned[i]? = some false →
          (s'.nodes a_t).child_pruned[j]? = some false →
          sigma ((s'.nodes a_t).pi.get ((s'.nodes a_t).child_refiner_cell + i)) ≠
            (s'.nodes a_t).pi.get ((s'.nodes a_t).child_refiner_cell + j) := by
  obtain ⟨evs, h1, h2⟩ := (tree_before_descend_node d fuel s t s' a_t hok hgen h).trace
  exact ⟨evs, h1, fun auts hm => h2 auts hm hbij⟩

theorem tree_before_descend_orbit_complete_witness :
    orbit_complete
      ((result_state (tree_before_descend (ex_derived (fun _ => true) ex_auts) 3 (ex_state 6) 0)
        (ex_state 6)).nodes 0) (transposition 0 1) := by
  obtain ⟨evs, h1, h2⟩ := tree_before_descend_orbit_complete
    (ex_derived (fun _ => true) ex_auts) 3 (ex_state 6) 0
    (result_state (tree_before_descend (ex_derived (fun _ => true) ex_auts) 3 (ex_state 6) 0)
      (ex_state 6)) 0 (ex_nodes_ok 0) ex_root_bijective
    (fun g nodes hst => ex_contract (fun _ => true) g nodes 0 hst) rfl
  have h3 : evs = (result_state (tree_before_descend (ex_derived (fun _ => true) ex_auts) 3
      (ex_state 6) 0) (ex_state 6)).trace := by
    rw [h1]; rfl
  have h4 : Event.update 0 [transposition 0 1] ∈ evs := by
    rw [h3]
    exact List.getElem?_mem (n := 5) rfl
  exact h2 [transposition 0 1] h4 _ (List.mem_singleton_self _)

/-! ## Early returns, `automorphism_implicit`, `tree_create_node_begin` -/

/-- C11: if `T.is_pruned`, or `D(T).child_count == 0`, or `need_update(state, T)` is false,
then `tree_before_descend(T)` returns, the tree is the one before the call (so `parent`,
`num_roots`, `child_pruned` and `is_pruned` of every node are unchanged), and the only callback
the trace can have gained is the call `need_update(T)`: no `update`, no `prune_subtree`. -/
theorem tree_before_descend_early_return {G : Type} (d : Derived G) (fuel : Nat)
    (s : State G) (t : Nat)
    (h : (s.nodes t).is_pruned = true ∨ (s.nodes t).data.child_count = 0 ∨
      (d.need_update s.g s.nodes t).1 = false) :
    ∃ s', tree_before_descend d fuel s t = .ok s' ∧ s'.nodes = s.nodes ∧
      s'.canon_leaf = s.canon_leaf ∧
      (∃ evs, s'.trace = s.trace ++ evs ∧ (∀ e ∈ evs, e = Event.need_update t) ∧
        pruned_calls evs = [] ∧ ∀ a auts, Event.update a auts ∉ evs) ∧
      ∀ m, (s'.nodes m).data.parent = (s.nodes m).data.parent ∧
        (s'.nodes m).data.num_roots = (s.nodes m).data.num_roots ∧
        (s'.nodes m).child_pruned = (s.nodes m).child_pruned ∧
        (s'.nodes m).is_pruned = (s.nodes m).is_pruned := by
  unfold tree_before_descend
  by_cases h1 : (s.nodes t).is_pruned = true
  · rw [if_pos h1]
    exact ⟨s, rfl, rfl, rfl, ⟨[], by simp, by simp, rfl, by simp⟩, fun m => ⟨rfl, rfl, rfl, rfl⟩⟩
  · rw [if_neg h1]
    by_cases h2 : (s.nodes t).data.child_count = 0
    · rw [if_pos h2]
      exact ⟨s, rfl, rfl, rfl, ⟨[], by simp, by simp, rfl, by simp⟩,
        fun m => ⟨rfl, rfl, rfl, rfl⟩⟩
    · rw [if_neg h2]
      have h3 : (d.need_update s.g s.nodes t).1 = false := by
        rcases h with h | h | h
        · exact absurd h h1
        · exact absurd h h2
        · exact h
      simp only [h3, Bool.not_false, if_true]
      refine ⟨_, rfl, rfl, rfl, ⟨[Event.need_update t], rfl, by simp, rfl, by simp⟩,
        fun m => ⟨rfl, rfl, rfl, rfl⟩⟩

theorem tree_before_descend_early_return_witness :
    ∃ s', tree_before_descend (ex_derived (fun n => decide (n = 0)) ex_auts) 3 (ex_state 6) 2 =
        .ok s' ∧ s'.nodes = (ex_state 6).nodes ∧
      s'.canon_leaf = (ex_state 6).canon_leaf ∧
      (∃ evs, s'.trace = (ex_state 6).trace ++ evs ∧ (∀ e ∈ evs, e = Event.need_update 2) ∧
        pruned_calls evs = [] ∧ ∀ a auts, Event.update a auts ∉ evs) ∧
      ∀ m, (s'.nodes m).data.parent = ((ex_state 6).nodes m).data.parent ∧
        (s'.nodes m).data.num_roots = ((ex_state 6).nodes m).data.num_roots ∧
        (s'.nodes m).child_pruned = ((ex_state 6).nodes m).child_pruned ∧
        (s'.nodes m).is_pruned = ((ex_state 6).nodes m).is_pruned :=
  tree_before_descend_early_return (ex_derived (fun n => decide (n = 0)) ex_auts) 3
    (ex_state 6) 2 (Or.inr (Or.inr rfl))

/-- C12: `automorphism_implicit(T, sigma, tag)` calls `add_automorphism(state, T, sigma)` once
(the state of the derived class is the one this call returns, the trace gains this one event)
and nothing else: no `prune_subtree`, the tree and both buffers are unchanged, so no
`is_pruned`, `child_pruned`, `parent`, `num_roots` or `child_count` changes; the value of
`tag` plays no role. -/
theorem automorphism_implicit_forwards {G : Type} (d : Derived G) (s : State G) (t : Nat)
    (sigma : Perm) (tag : Nat) :
    (automorphism_implicit d s t sigma tag).g = d.add_automorphism s.g s.nodes t sigma ∧
    (automorphism_implicit d s t sigma tag).trace = s.trace ++ [Event.add_automorphism t] ∧
    pruned_calls (automorphism_implicit d s t sigma tag).trace = pruned_calls s.trace ∧
    (automorphism_implicit d s t sigma tag).nodes = s.nodes ∧
    (automorphism_implicit d s t sigma tag).canon_leaf = s.canon_leaf ∧
    (automorphism_implicit d s t sigma tag).t_path = s.t_path ∧
    (automorphism_implicit d s t sigma tag).c_path = s.c_path ∧
    (∀ m, ((automorphism_implicit d s t sigma tag).nodes m).is_pruned = (s.nodes m).is_pruned ∧
      ((automorphism_implicit d s t sigma tag).nodes m).child_pruned =
        (s.nodes m).child_pruned ∧
      ((automorphism_implicit d s t sigma tag).nodes m).data = (s.nodes m).data) ∧
    ∀ tag2, automorphism_implicit d s t sigma tag2 = automorphism_implicit d s t sigma tag := by
  refine ⟨rfl, rfl, ?_, rfl, rfl, rfl, rfl, fun m => ⟨rfl, rfl, rfl⟩, fun _ => rfl⟩
  show pruned_calls (s.trace ++ [Event.add_automorphism t]) = pruned_calls s.trace
  induction s.trace with
  | nil => rfl
  | cons e l ih =>
    cases e <;> simpa [pruned_calls] using ih

theorem tree_create_node_begin_node {G : Type} (s : State G) (t m : Nat) :
    ((tree_create_node_begin s t).2.nodes m).get_parent = (s.nodes m).get_parent ∧
    ((tree_create_node_begin s t).2.nodes m).data.child_count =
      (s.nodes m).data.child_count + (if (s.nodes t).get_parent = some m then 1 else 0) := by
  unfold tree_create_node_begin
  cases hp : (s.nodes t).get_parent with
  | none => simp
  | some p =>
    by_cases hm : m = p
    · subst hm; simp
    · have hne : ¬ p = m := fun h => hm h.symm
      simp [Function.update_noteq hm, hne]

theorem create_nodes_count {G : Type} (ts : List Nat) :
    ∀ (s : State G) (m : Nat),
      (∀ n, ((create_nodes s ts).nodes n).get_parent = (s.nodes n).get_parent) ∧
      ((create_nodes s ts).nodes m).data.child_count =
        (s.nodes m).data.child_count +
          ts.countP (fun t => decide ((s.nodes t).get_parent = some m)) := by
  induction ts with
  | nil => intro s m; simp [create_nodes]
  | cons t ts ih =>
    intro s m
    have h1 := fun n => (tree_create_node_begin_node s t n).1
    constructor
    · intro n
      show ((create_nodes (tree_create_node_begin s t).2 ts).nodes n).get_parent = _
      rw [(ih _ n).1 n, h1 n]
    · show ((create_nodes (tree_create_node_begin s t).2 ts).nodes m).data.child_count = _
      rw [(ih _ m).2, (tree_create_node_begin_node s t m).2]
      simp only [h1, List.countP_cons]
      by_cases hp : (s.nodes t).get_parent = some m
      · simp [hp]; omega
      · simp [hp]

/-- C13: `tree_create_node_begin(T)` returns `true`.  If `T` has the parent `P`, then
`D(P).child_count` grows by one, every other field of `P` and every other node is unchanged,
and so is the rest of the state; if `T` has no parent the state is unchanged.  For a driver
that calls the hook for the nodes of a list: `child_count` of a node never decreases, and if
all `m` nodes of the list have the parent `P` whose count was `0`, it is `m` afterwards. -/
theorem tree_create_node_begin_counts {G : Type} (s : State G) (t : Nat) :
    (tree_create_node_begin s t).1 = true ∧
    (∀ p, (s.nodes t).get_parent = some p →
      ((tree_create_node_begin s t).2.nodes p).data =
        { (s.nodes p).data with child_count := (s.nodes p).data.child_count + 1 } ∧
      (tree_create_node_begin s t).2.nodes p =
        { s.nodes p with data := ((tree_create_node_begin s t).2.nodes p).data } ∧
      (∀ m, m ≠ p → (tree_create_node_begin s t).2.nodes m = s.nodes m) ∧
      (tree_create_node_begin s t).2.g = s.g ∧
      (tree_create_node_begin s t).2.trace = s.trace ∧
      (tree_create_node_begin s t).2.canon_leaf = s.canon_leaf) ∧
    ((s.nodes t).get_parent = none → (tree_create_node_begin s t).2 = s) ∧
    (∀ (ts : List Nat) (m : Nat),
      (s.nodes m).data.child_count ≤ ((create_nodes s ts).nodes m).data.child_count) ∧
    ∀ (ts : List Nat) (P : Nat), (∀ c ∈ ts, (s.nodes c).get_parent = some P) →
      (s.nodes P).data.child_count = 0 →
      ((create_nodes s ts).nodes P).data.child_count = ts.length := by
  refine ⟨?_, ?_, ?_, ?_, ?_⟩
  · unfold tree_create_node_begin
    cases (s.nodes t).get_parent <;> rfl
  · intro p hp
    unfold tree_create_node_begin
    rw [hp]
    refine ⟨by simp, by simp, ?_, rfl, rfl, rfl⟩
    intro m hm
    simp [Function.update_noteq hm]
  · intro hp
    unfold tree_create_node_begin
    rw [hp]
  · intro ts m
    rw [(create_nodes_count ts s m).2]
    omega
  · intro ts P hall h0
    rw [(create_nodes_count ts s P).2, h0, Nat.zero_add]
    rw [List.countP_eq_length.2]
    intro c hc
    simp [hall c hc]

theorem tree_create_node_begin_counts_witness :
    ((create_nodes ex_state_fresh [1, 2, 3]).nodes 0).data.child_count = [1, 2, 3].length :=
  (tree_create_node_begin_counts ex_state_fresh 1).2.2.2.2 [1, 2, 3] 0
    (by decide) rfl
/-! ## The calls of `need_update`, the protected index, `find_root` -/

/-- C14: on the example tree with canonical leaf `4`, every node unpruned and `need_update`
true everywhere, the call `tree_before_descend(1)` passes to `need_update` the nodes
`1, 1, 0` (the test of line 192 and the loop over `t_path`) and then `4, 1, 0` (the loop over
`c_path`, which starts at the canonical leaf): the node `4` has no child slot and
`child_count == 0`, it is a leaf. -/
theorem tree_before_descend_need_update_on_leaf :
    (ex_state 4).canon_leaf = some 4 ∧ (ex_nodes 4).children = [] ∧
    (ex_nodes 4).data.child_count = 0 ∧ (ex_nodes 1).is_pruned = false ∧
    (ex_nodes 1).data.child_count = 2 ∧
    result_need_update_calls
      (tree_before_descend (ex_derived (fun _ => true) ex_auts) 3 (ex_state 4) 1) =
      some [1, 1, 0, 4, 1, 0] := by
  decide

/-- C19, counterexample: with `c_path = [4, 1, 0]` and `a_t = 0` (the canonical child is the
node `1`, in slot `0` of the root) the lambda returns `0`, the index of the vertex
`c2.pi.get(a_t.child_individualized_position)`; reading `a_t.pi` at the position stored on
`c2` gives `1`, the slot of the node `2`. -/
theorem canon_child_local_idx_reads_child_partition :
    (ex_state_c_path 4 [4, 1, 0]).c_path = [4, 1, 0] ∧
    (ex_nodes 0).children[0]? = some (some 1) ∧ (ex_nodes 0).children[1]? = some (some 2) ∧
    result_value (canon_child_local_idx (ex_state_c_path 4 [4, 1, 0]) 0) = some 0 ∧
    canon_formula_spec ex_nodes 1 0 = 1 := by
  decide

/-- C19 (amended): when `c_path` ends in `c2, a_t`, the lambda returns
`a_t.pi.get_inverse(v) - a_t.child_refiner_cell` for the vertex
`v = c2.pi.get(a_t.child_individualized_position)`, read from the partition of the child `c2`
at the position stored on `a_t`, and leaves the state as it is; when `c_path` is empty, or its
last entry is not `a_t`, it returns `-1` and `c_path` is empty afterwards. -/
theorem canon_child_local_idx_value {G : Type} (s : State G) (a_t : Nat) :
    (∀ (pre : List Nat) (c2 : Nat), s.c_path = pre ++ [c2, a_t] →
      canon_child_local_idx s a_t =
        .ok ((((s.nodes a_t).pi.get_inverse
            ((s.nodes c2).pi.get (s.nodes a_t).child_individualized_position) : Nat) : Int) -
          (((s.nodes a_t).child_refiner_cell : Nat) : Int), s)) ∧
    (s.c_path = [] → canon_child_local_idx s a_t = .ok (-1, s)) ∧
    (∀ back, s.c_path.getLast? = some back → back ≠ a_t →
      canon_child_local_idx s a_t = .ok (-1, { s with c_path := [] })) := by
  refine ⟨?_, ?_, ?_⟩
  · intro pre c2 h
    have hl : s.c_path.getLast? = some a_t := by
      rw [h, show pre ++ [c2, a_t] = (pre ++ [c2]) ++ [a_t] by simp, List.getLast?_concat]
    have hlen : s.c_path.length = pre.length + 2 := by rw [h]; simp
    have hc2 : s.c_path[pre.length]? = some c2 := by
      rw [h, List.getElem?_append_right (le_refl _)]; simp
    unfold canon_child_local_idx
    rw [hl]
    simp only [ne_eq, not_true_eq_false, if_false]
    rw [if_neg (by omega)]
    have : s.c_path.length - 2 = pre.length := by omega
    rw [this]
    simp only [rd, hc2]
  · intro h
    unfold canon_child_local_idx
    rw [h]
    rfl
  · intro back hl hne
    unfold canon_child_local_idx
    rw [hl]
    simp only [ne_eq, hne, not_false_eq_true, if_true]

theorem canon_child_local_idx_value_witness :
    canon_child_local_idx (ex_state_c_path 4 [4, 1, 0]) 0 =
      .ok (((((ex_state_c_path 4 [4, 1, 0]).nodes 0).pi.get_inverse
          (((ex_state_c_path 4 [4, 1, 0]).nodes 1).pi.get
            ((ex_state_c_path 4 [4, 1, 0]).nodes 0).child_individualized_position) : Nat) : Int) -
        ((((ex_state_c_path 4 [4, 1, 0]).nodes 0).child_refiner_cell : Nat) : Int),
        ex_state_c_path 4 [4, 1, 0]) :=
  (canon_child_local_idx_value (ex_state_c_path 4 [4, 1, 0]) 0).1 [4] 1 rfl

/-- C20: on a forest `parent` and an index `i` in range, `find_root(i)` returns (any fuel from
`parent.size()` on is enough) the root `r` of `i` (`parent[r] == r`, reached from `i` along
the parent links); the array after the call has the same length and the same self-loops, and
every index has the root it had before the call. -/
theorem find_root_correct (fuel : Nat) (parent : List Nat) (i : Nat) (hf : Forest parent)
    (hi : i < parent.length) (hfuel : parent.length ≤ fuel) :
    ∃ r parent', find_root fuel parent i = .ok (r, parent') ∧
      parent[r]? = some r ∧ RootOf parent i r ∧
      parent'.length = parent.length ∧
      (∀ j : Nat, parent'[j]? = some j ↔ parent[j]? = some j) ∧
      ∀ j r' : Nat, RootOf parent' j r' ↔ RootOf parent j r' := by
  obtain ⟨r, n, hn⟩ := hf i hi
  have hlt := rootOfN_lt_length hn
  obtain ⟨parent', hrun, hc⟩ := find_root_spec fuel parent i n r hn (by omega)
  refine ⟨r, parent', hrun, rootOfN_root hn, ⟨n, hn⟩, hc.1, hc.2.1, ?_⟩
  intro j r'
  constructor
  · intro hj
    obtain ⟨m, hm⟩ := hj
    have hjlt : j < parent.length := by rw [← hc.1]; exact rootOfN_lt hm
    obtain ⟨r0, hr0⟩ := hf j hjlt
    obtain ⟨m0, hm0⟩ := compresses_rootOf hc hr0
    have := (rootOfN_unique hm hm0).2
    rw [this]
    exact hr0
  · intro hj
    exact compresses_rootOf hc hj

theorem forest_chain : Forest [0, 0, 1, 2] := by
  have h0 : RootOfN [0, 0, 1, 2] 0 0 0 := RootOfN.root rfl
  have h1 : RootOfN [0, 0, 1, 2] 1 1 0 := RootOfN.step rfl (by decide) h0
  have h2 : RootOfN [0, 0, 1, 2] 2 2 0 := RootOfN.step rfl (by decide) h1
  have h3 : RootOfN [0, 0, 1, 2] 3 3 0 := RootOfN.step rfl (by decide) h2
  intro i hi
  match i, hi with
  | 0, _ => exact ⟨0, 0, h0⟩
  | 1, _ => exact ⟨0, 1, h1⟩
  | 2, _ => exact ⟨0, 2, h2⟩
  | 3, _ => exact ⟨0, 3, h3⟩
  | n + 4, h => simp at h

theorem find_root_correct_witness :
    ∃ r parent', find_root 4 [0, 0, 1, 2] 3 = .ok (r, parent') ∧
      [0, 0, 1, 2][r]? = some r ∧ RootOf [0, 0, 1, 2] 3 r ∧
      parent'.length = [0, 0, 1, 2].length ∧
      (∀ j : Nat, parent'[j]? = some j ↔ [0, 0, 1, 2][j]? = some j) ∧
      ∀ j r' : Nat, RootOf parent' j r' ↔ RootOf [0, 0, 1, 2] j r' :=
  find_root_correct 4 [0, 0, 1, 2] 3 forest_chain (by decide) (by decide)

/-! ## Sorting -/

theorem ordered_insert_perm {α : Type} (less : α → α → Bool) (a : α) :
    ∀ l : List α, (ordered_insert less a l).Perm (a :: l) := by
  intro l
  induction l with
  | nil => exact List.Perm.refl _
  | cons b l ih =>
    unfold ordered_insert
    by_cases h : less a b = true
    · rw [if_pos h]
    · rw [if_neg h]
      exact (List.Perm.cons b ih).trans (List.Perm.swap a b l)

theorem insertion_sort_perm {α : Type} (less : α → α → Bool) :
    ∀ l : List α, (insertion_sort less l).Perm l := by
  intro l
  induction l with
  | nil => exact List.Perm.refl _
  | cons a l ih =>
    exact (ordered_insert_perm less a _).trans (List.Perm.cons a ih)

theorem StrictWeakOrder.asymm {α : Type} {less : α → α → Bool} (h : StrictWeakOrder less)
    {a b : α} (hab : less a b = true) : less b a = false := by
  cases hba : less b a with
  | false => rfl
  | true =>
    have := h.trans a b a hab hba
    rw [h.irrefl a] at this
    cases this

theorem ordered_insert_sorted {α : Type} {less : α → α → Bool} (h : StrictWeakOrder less)
    (a : α) : ∀ l : List α, sorted_by less l → sorted_by less (ordered_insert less a l) := by
  intro l
  induction l with
  | nil => intro _; exact List.pairwise_singleton _ _
  | cons b l ih =>
    intro hs
    have hs' := List.pairwise_cons.1 hs
    unfold ordered_insert
    by_cases hab : less a b = true
    · rw [if_pos hab]
      refine List.pairwise_cons.2 ⟨?_, hs⟩
      intro x hx
      rcases List.mem_cons.1 hx with rfl | hx
      · exact h.asymm hab
      · cases hxa : less x a with
        | false => rfl
        | true =>
          have := h.trans x a b hxa hab
          rw [hs'.1 x hx] at this
          cases this
    · rw [if_neg hab]
      refine List.pairwise_cons.2 ⟨?_, ih hs'.2⟩
      intro x hx
      rcases List.mem_cons.1 ((ordered_insert_perm less a l).subset hx) with rfl | hx
      · simpa using hab
      · exact hs'.1 x hx

theorem insertion_sort_sorts {α : Type} : sorts (insertion_sort : (α → α → Bool) → _) := by
  intro less l h
  refine ⟨insertion_sort_perm less l, ?_⟩
  induction l with
  | nil => exact List.Pairwise.nil
  | cons a l ih => exact ordered_insert_sorted h a _ ih

theorem always_false_strict_weak {α : Type} : StrictWeakOrder (always_false : α → α → Bool) where
  irrefl := fun _ => rfl
  trans := fun _ _ _ h => Bool.noConfusion h
  incomp_trans := fun _ _ _ _ _ _ _ => ⟨rfl, rfl⟩

theorem key_less_iff {α : Type} (key : α → Nat) (less : α → α → Bool) (a b : α) :
    key_less key less a b = true ↔ key a < key b ∨ (key a = key b ∧ less a b = true) := by
  unfold key_less
  by_cases h : key a = key b
  · simp [h]
  · simp [h]

theorem key_less_eq_false {α : Type} (key : α → Nat) (less : α → α → Bool) (a b : α) :
    key_less key less a b = false ↔ ¬ key a < key b ∧ (key a = key b → less a b = false) := by
  rw [← Bool.not_eq_true, key_less_iff]
  constructor
  · intro h
    refine ⟨fun h1 => h (Or.inl h1), fun h1 => ?_⟩
    cases hl : less a b with
    | false => rfl
    | true => exact absurd (Or.inr ⟨h1, hl⟩) h
  · rintro ⟨h1, h2⟩ (h3 | ⟨h3, h4⟩)
    · exact h1 h3
    · rw [h2 h3] at h4
      cases h4

theorem key_less_strict_weak {α : Type} (key : α → Nat) {less : α → α → Bool}
    (h : StrictWeakOrder less) : StrictWeakOrder (key_less key less) := by
  constructor
  · intro a
    rw [key_less_eq_false]
    exact ⟨Nat.lt_irrefl _, fun _ => h.irrefl a⟩
  · intro a b c hab hbc
    rw [key_less_iff] at hab hbc ⊢
    rcases hab with hab | ⟨hab, lab⟩
    · rcases hbc with hbc | ⟨hbc, _⟩
      · exact Or.inl (by omega)
      · exact Or.inl (by omega)
    · rcases hbc with hbc | ⟨hbc, lbc⟩
      · exact Or.inl (by omega)
      · exact Or.inr ⟨hab.trans hbc, h.trans a b c lab lbc⟩
  · intro a b c hab hba hbc hcb
    rw [key_less_eq_false] at hab hba hbc hcb ⊢
    rw [key_less_eq_false]
    have e1 : key a = key b := by omega
    have e2 : key b = key c := by omega
    have := h.incomp_trans a b c (hab.2 e1) (hba.2 e1.symm) (hbc.2 e2) (hcb.2 e2.symm)
    exact ⟨⟨by omega, fun _ => this.1⟩, ⟨by omega, fun _ => this.2⟩⟩

theorem out_edge_less_strict_weak {V E : Type} (g : Graph V E) (idx : V → Nat)
    {edge_less : E → E → Bool} (h : StrictWeakOrder edge_less) :
    StrictWeakOrder (out_edge_less g idx edge_less) :=
  key_less_strict_weak (fun e => idx (g.target e)) h

theorem in_edge_less_strict_weak {V E : Type} (g : Graph V E) (idx : V → Nat)
    {edge_less : E → E → Bool} (h : StrictWeakOrder edge_less) :
    StrictWeakOrder (in_edge_less g idx edge_less) :=
  key_less_strict_weak (fun e => idx (g.source e)) h

theorem key_less_false {α : Type} (key : α → Nat) (less : α → α → Bool) {a b : α}
    (h : key_less key less b a = false) :
    key a ≤ key b ∧ (key a = key b → less b a = false) := by
  rw [key_less_eq_false] at h
  exact ⟨by omega, fun e => h.2 e.symm⟩

theorem sorted_perm_unique {α : Type} {r : α → α → Prop} :
    ∀ (l1 l2 : List α), l1.Perm l2 → l1.Pairwise r → l2.Pairwise r →
      (∀ a ∈ l1, ∀ b ∈ l1, r a b → r b a → a = b) → l1 = l2 := by
  intro l1
  induction l1 with
  | nil => intro l2 hp _ _ _; exact hp.nil_eq
  | cons a l1 ih =>
    intro l2 hp h1 h2 hanti
    cases l2 with
    | nil => exact absurd hp.length_eq (by simp)
    | cons b l2 =>
      have h1' := List.pairwise_cons.1 h1
      have h2' := List.pairwise_cons.1 h2
      have hab : a = b := by
        have ha : a ∈ b :: l2 := hp.subset (List.mem_cons_self _ _)
        have hb : b ∈ a :: l1 := hp.symm.subset (List.mem_cons_self _ _)
        rcases List.mem_cons.1 ha with e | ha
        · exact e
        · rcases List.mem_cons.1 hb with e | hb'
          · exact e.symm
          · exact hanti a (List.mem_cons_self _ _) b hb (h1'.1 b hb') (h2'.1 a ha)
      subst hab
      have hp' : l1.Perm l2 := (List.perm_cons a).1 hp
      rw [ih l2 hp' h1'.2 h2'.2
        (fun x hx y hy => hanti x (List.mem_cons_of_mem _ hx) y (List.mem_cons_of_mem _ hy))]
/-! ## The constructors of the ordered view -/

theorem ordered_incidence_loop_eq {V E : Type} (sort : (E → E → Bool) → List E → List E)
    (g : Graph V E) (idx : V → Nat) (edge_less : E → E → Bool) :
    ∀ (vs : List V) (data : List (ordered_adj V E)),
      ordered_incidence_loop sort g idx edge_less vs data =
        update_loop idx (fun v adj =>
          { adj with
            v := v
            out_edges := sort (out_edge_less g idx edge_less) (adj.out_edges ++ g.out_edges v) })
          vs data := by
  intro vs
  induction vs with
  | nil => intro data; rfl
  | cons v rest ih =>
    intro data
    unfold ordered_incidence_loop update_loop
    cases rd data (idx v) with
    | error e => rfl
    | ok adj => exact ih _

theorem ordered_bidirectional_loop_eq {V E : Type} (sort : (E → E → Bool) → List E → List E)
    (g : Graph V E) (idx : V → Nat) (edge_less : E → E → Bool) :
    ∀ (vs : List V) (data : List (ordered_adj V E)),
      ordered_bidirectional_loop sort g idx edge_less vs data =
        update_loop idx (fun v adj =>
          { adj with
            in_edges := sort (in_edge_less g idx edge_less) (adj.in_edges ++ g.in_edges v) })
          vs data := by
  intro vs
  induction vs with
  | nil => intro data; rfl
  | cons v rest ih =>
    intro data
    unfold ordered_bidirectional_loop update_loop
    cases rd data (idx v) with
    | error e => rfl
    | ok adj => exact ih _

theorem update_loop_spec {V E : Type} (idx : V → Nat)
    (f : V → ordered_adj V E → ordered_adj V E) :
    ∀ (vs : List V) (data : List (ordered_adj V E)), vs.Nodup →
      (∀ v ∈ vs, idx v < data.length) →
      (∀ v ∈ vs, ∀ w ∈ vs, idx v = idx w → v = w) →
      ∃ data', update_loop idx f vs data = .ok data' ∧ data'.length = data.length ∧
        (∀ v ∈ vs, ∀ adj, data[idx v]? = some adj → data'[idx v]? = some (f v adj)) ∧
        ∀ i : Nat, (∀ v ∈ vs, idx v ≠ i) → data'[i]? = data[i]? := by
  intro vs
  induction vs with
  | nil =>
    intro data _ _ _
    exact ⟨data, rfl, rfl, fun v hv => absurd hv (List.not_mem_nil v), fun _ _ => rfl⟩
  | cons v rest ih =>
    intro data hnd hlt hinj
    have hnd' := List.nodup_cons.1 hnd
    have hv : idx v < data.length := hlt v (List.mem_cons_self _ _)
    have hget : data[idx v]? = some data[idx v] := List.getElem?_eq_getElem hv
    have hrest : ∀ u ∈ rest, idx u ≠ idx v := by
      intro u hu e
      have := hinj u (List.mem_cons_of_mem _ hu) v (List.mem_cons_self _ _) e
      rw [this] at hu
      exact hnd'.1 hu
    obtain ⟨data', hrun, hlen, hin, hout⟩ := ih (data.set (idx v) (f v data[idx v])) hnd'.2
      (fun u hu => by rw [List.length_set]; exact hlt u (List.mem_cons_of_mem _ hu))
      (fun u hu w hw => hinj u (List.mem_cons_of_mem _ hu) w (List.mem_cons_of_mem _ hw))
    refine ⟨data', ?_, ?_, ?_, ?_⟩
    · unfold update_loop
      simp only [rd, hget]
      exact hrun
    · rw [hlen, List.length_set]
    · intro w hw adj hadj
      rcases List.mem_cons.1 hw with rfl | hw'
      · rw [hout (idx w) hrest, List.getElem?_set_self hv]
        rw [hget] at hadj
        cases hadj
        rfl
      · apply hin w hw' adj
        rw [List.getElem?_set_ne (fun e => hrest w hw' e.symm)]
        exact hadj
    · intro i hi
      rw [hout i (fun u hu => hi u (List.mem_cons_of_mem _ hu)),
        List.getElem?_set_ne (hi v (List.mem_cons_self _ _))]

theorem index_onto {V : Type} (idx : V → Nat) (vs : List V) (hnd : vs.Nodup)
    (hlt : ∀ v ∈ vs, idx v < vs.length)
    (hinj : ∀ v ∈ vs, ∀ w ∈ vs, idx v = idx w → v = w) :
    ∀ i, i < vs.length → ∃ v ∈ vs, idx v = i := by
  have h1 : (vs.map idx).Nodup := List.Nodup.map_on (fun v hv w hw e => hinj v hv w hw e) hnd
  have h2 : (vs.map idx).toFinset ⊆ Finset.range vs.length := by
    intro i hi
    obtain ⟨v, hv, rfl⟩ := List.mem_map.1 (List.mem_toFinset.1 hi)
    exact Finset.mem_range.2 (hlt v hv)
  have h3 : (vs.map idx).toFinset.card = vs.length := by
    rw [List.toFinset_card_of_nodup h1, List.length_map]
  have h4 : (vs.map idx).toFinset = Finset.range vs.length :=
    Finset.eq_of_subset_of_card_le h2 (by rw [h3, Finset.card_range])
  intro i hi
  have : i ∈ (vs.map idx).toFinset := by rw [h4]; exact Finset.mem_range.2 hi
  obtain ⟨v, hv, e⟩ := List.mem_map.1 (List.mem_toFinset.1 this)
  exact ⟨v, hv, e⟩

theorem ordered_incidence_spec {V E : Type} [Inhabited V]
    (sort : (E → E → Bool) → List E → List E) (g : Graph V E) (idx : V → Nat)
    (edge_less : E → E → Bool) (hb : index_bijection g idx) :
    ∃ data, ordered_incidence sort g idx edge_less = .ok data ∧
      data.length = g.vertices.length ∧
      ∀ v ∈ g.vertices, data[idx v]? =
        some ⟨v, sort (out_edge_less g idx edge_less) (g.out_edges v), []⟩ := by
  unfold ordered_incidence
  rw [ordered_incidence_loop_eq]
  obtain ⟨data, hrun, hlen, hin, _⟩ := update_loop_spec idx (fun v (adj : ordered_adj V E) =>
      { adj with
        v := v
        out_edges := sort (out_edge_less g idx edge_less) (adj.out_edges ++ g.out_edges v) })
    g.vertices (List.replicate g.vertices.length ⟨default, [], []⟩) hb.1
    (fun v hv => by rw [List.length_replicate]; exact hb.2.1 v hv) hb.2.2
  refine ⟨data, hrun, by rw [hlen, List.length_replicate], ?_⟩
  intro v hv
  rw [hin v hv ⟨default, [], []⟩ (by
    rw [List.getElem?_replicate, if_pos (hb.2.1 v hv)])]
  rfl

theorem ordered_bidirectional_spec {V E : Type} [Inhabited V]
    (sort : (E → E → Bool) → List E → List E) (g : Graph V E) (idx : V → Nat)
    (edge_less : E → E → Bool) (hb : index_bijection g idx) :
    ∃ data, ordered_bidirectional sort g idx edge_less = .ok data ∧
      data.length = g.vertices.length ∧
      ∀ v ∈ g.vertices, data[idx v]? =
        some ⟨v, sort (out_edge_less g idx edge_less) (g.out_edges v),
          sort (in_edge_less g idx edge_less) (g.in_edges v)⟩ := by
  obtain ⟨data0, hrun0, hlen0, hin0⟩ := ordered_incidence_spec sort g idx edge_less hb
  unfold ordered_bidirectional
  rw [hrun0]
  simp only
  rw [ordered_bidirectional_loop_eq]
  obtain ⟨data, hrun, hlen, hin, _⟩ := update_loop_spec idx (fun v (adj : ordered_adj V E) =>
      { adj with
        in_edges := sort (in_edge_less g idx edge_less) (adj.in_edges ++ g.in_edges v) })
    g.vertices data0 hb.1 (fun v hv => by rw [hlen0]; exact hb.2.1 v hv) hb.2.2
  refine ⟨data, hrun, by rw [hlen, hlen0], ?_⟩
  intro v hv
  rw [hin v hv _ (hin0 v hv)]
  rfl

theorem make_ordered_graph_spec {V E : Type} [Inhabited V] (WithInEdges : Bool)
    (sort : (E → E → Bool) → List E → List E) (g : Graph V E) (idx : V → Nat)
    (edge_less : E → E → Bool) (hb : index_bijection g idx) :
    ∃ og, make_ordered_graph WithInEdges sort g idx edge_less = .ok og ∧
      og.g = g ∧ og.idx = idx ∧ og.data.length = g.vertices.length ∧
      ∀ v ∈ g.vertices, og.data[idx v]? =
        some ⟨v, sort (out_edge_less g idx edge_less) (g.out_edges v),
          if WithInEdges then sort (in_edge_less g idx edge_less) (g.in_edges v) else []⟩ := by
  unfold make_ordered_graph
  cases WithInEdges with
  | false =>
    obtain ⟨data, hrun, hlen, hin⟩ := ordered_incidence_spec sort g idx edge_less hb
    simp only [Bool.false_eq_true, if_false, hrun]
    exact ⟨_, rfl, rfl, rfl, hlen, hin⟩
  | true =>
    obtain ⟨data, hrun, hlen, hin⟩ := ordered_bidirectional_spec sort g idx edge_less hb
    simp only [if_true, hrun]
    exact ⟨_, rfl, rfl, rfl, hlen, hin⟩
/-! ## Iteration order of the ordered view -/

theorem view_spec {V E : Type} [Inhabited V] (WithInEdges : Bool)
    (sort : (E → E → Bool) → List E → List E) (g : Graph V E) (idx : V → Nat)
    (edge_less : E → E → Bool) (hb : index_bijection g idx) :
    ∃ og, make_ordered_graph WithInEdges sort g idx edge_less = .ok og ∧
      num_vertices og = g.vertices.length ∧
      ∀ v ∈ g.vertices, (vertices og)[idx v]? = some v ∧
        out_edges v og = .ok (sort (out_edge_less g idx edge_less) (g.out_edges v)) ∧
        out_degree v og =
          .ok (sort (out_edge_less g idx edge_less) (g.out_edges v)).length ∧
        adjacent_vertices v og =
          .ok ((sort (out_edge_less g idx edge_less) (g.out_edges v)).map g.target) ∧
        in_edges v og = .ok (if WithInEdges then
          sort (in_edge_less g idx edge_less) (g.in_edges v) else []) := by
  obtain ⟨og, hrun, hg, hidx, hlen, hin⟩ :=
    make_ordered_graph_spec WithInEdges sort g idx edge_less hb
  refine ⟨og, hrun, hlen, ?_⟩
  intro v hv
  have h := hin v hv
  refine ⟨?_, ?_, ?_, ?_, ?_⟩
  · simp only [vertices, List.getElem?_map, h, Option.map_some']
  · simp only [out_edges, rd, hidx, h]
  · simp only [out_degree, rd, hidx, h]
  · simp only [adjacent_vertices, rd, hidx, h, hg]
  · simp only [in_edges, rd, hidx, h]

theorem view_vertices_spec {V E : Type} [Inhabited V] (WithInEdges : Bool)
    (sort : (E → E → Bool) → List E → List E) (g : Graph V E) (idx : V → Nat)
    (edge_less : E → E → Bool) (hb : index_bijection g idx) :
    ∃ og, make_ordered_graph WithInEdges sort g idx edge_less = .ok og ∧
      (vertices og).length = g.vertices.length ∧
      num_vertices og = g.vertices.length ∧
      (∀ i, i < g.vertices.length → ∃ v ∈ g.vertices, (vertices og)[i]? = some v ∧
        idx v = i ∧ ∀ w ∈ g.vertices, idx w = i → w = v) ∧
      (vertices og).Pairwise (fun a b => idx a < idx b) ∧
      (vertices og).Nodup ∧ (vertices og).Perm g.vertices := by
  obtain ⟨og, hrun, hn, hv⟩ := view_spec WithInEdges sort g idx edge_less hb
  have hlen : (vertices og).length = g.vertices.length := by
    rw [← hn]; simp [vertices, num_vertices]
  have hentry : ∀ i, i < g.vertices.length → ∃ v ∈ g.vertices, (vertices og)[i]? = some v ∧
      idx v = i ∧ ∀ w ∈ g.vertices, idx w = i → w = v := by
    intro i hi
    obtain ⟨v, hmem, e⟩ := index_onto idx g.vertices hb.1 hb.2.1 hb.2.2 i hi
    refine ⟨v, hmem, ?_, e, fun w hw ew => hb.2.2 w hw v hmem (ew.trans e.symm)⟩
    rw [← e]
    exact (hv v hmem).1
  have hidx : ∀ (i : Nat) (h : i < (vertices og).length),
      (vertices og)[i] ∈ g.vertices ∧ idx (vertices og)[i] = i := by
    intro i h
    obtain ⟨v, hmem, hget, e, _⟩ := hentry i (by rw [← hlen]; exact h)
    rw [List.getElem?_eq_getElem h] at hget
    cases hget
    exact ⟨hmem, e⟩
  have hpw : (vertices og).Pairwise (fun a b => idx a < idx b) := by
    rw [List.pairwise_iff_getElem]
    intro i j hi hj hij
    rw [(hidx i hi).2, (hidx j hj).2]
    exact hij
  have hnd : (vertices og).Nodup :=
    List.Pairwise.imp (fun {a b} h e => by rw [e] at h; exact Nat.lt_irrefl _ h) hpw
  refine ⟨og, hrun, hlen, hn, hentry, hpw, hnd, ?_⟩
  rw [List.perm_ext_iff_of_nodup hnd hb.1]
  intro a
  constructor
  · intro ha
    obtain ⟨i, h, e⟩ := List.mem_iff_getElem.1 ha
    rw [← e]
    exact (hidx i h).1
  · intro ha
    exact List.getElem?_mem (hv a ha).1

/-- C15: for a graph with `n` vertices and an index map that is a bijection from the vertices
onto `[0, n)`, the view is constructed and `vertices(view)` has `n` entries; the entry `i` is
a vertex `v` of the graph with `idx(v) == i`, the only one; the sequence is strictly increasing
in `idx` and is a permutation without repetition of the vertices of the graph. -/
theorem vertices_in_index_order {V E : Type} [Inhabited V] (WithInEdges : Bool)
    (sort : (E → E → Bool) → List E → List E) (g : Graph V E) (idx : V → Nat)
    (edge_less : E → E → Bool) (hb : index_bijection g idx) :
    ∃ og, make_ordered_graph WithInEdges sort g idx edge_less = .ok og ∧
      (vertices og).length = g.vertices.length ∧
      num_vertices og = g.vertices.length ∧
      (∀ i, i < g.vertices.length → ∃ v ∈ g.vertices, (vertices og)[i]? = some v ∧
        idx v = i ∧ ∀ w ∈ g.vertices, idx w = i → w = v) ∧
      (vertices og).Pairwise (fun a b => idx a < idx b) ∧
      (vertices og).Nodup ∧ (vertices og).Perm g.vertices :=
  view_vertices_spec WithInEdges sort g idx edge_less hb

/-- C16: for a comparator `edge_less` that is a strict weak ordering and an index map that is
a bijection, the list `out_edges(v, view)` of every vertex `v` is a permutation of
`out_edges(v, g)`, and for `e1` before `e2` in it `idx(target(e1)) <= idx(target(e2))` and,
when these are equal, `edge_less(e2, e1)` is false; for a view with in-edges the same holds
for `in_edges(v, view)`, `in_edges(v, g)` and `source`. -/
theorem stored_edges_sorted_perm {V E : Type} [Inhabited V] (WithInEdges : Bool)
    (sort : (E → E → Bool) → List E → List E) (hsort : sorts sort) (g : Graph V E)
    (idx : V → Nat) (edge_less : E → E → Bool) (hless : StrictWeakOrder edge_less)
    (hb : index_bijection g idx) :
    ∃ og, make_ordered_graph WithInEdges sort g idx edge_less = .ok og ∧
      ∀ v ∈ g.vertices,
        (∃ es, out_edges v og = .ok es ∧ es.Perm (g.out_edges v) ∧
          es.Pairwise (fun e1 e2 => idx (g.target e1) ≤ idx (g.target e2) ∧
            (idx (g.target e1) = idx (g.target e2) → edge_less e2 e1 = false))) ∧
        (WithInEdges = true → ∃ es, in_edges v og = .ok es ∧ es.Perm (g.in_edges v) ∧
          es.Pairwise (fun e1 e2 => idx (g.source e1) ≤ idx (g.source e2) ∧
            (idx (g.source e1) = idx (g.source e2) → edge_less e2 e1 = false))) := by
  obtain ⟨og, hrun, _, hv⟩ := view_spec WithInEdges sort g idx edge_less hb
  refine ⟨og, hrun, ?_⟩
  intro v hmem
  obtain ⟨_, hout, _, _, hin⟩ := hv v hmem
  constructor
  · obtain ⟨hp, hs⟩ := hsort _ (g.out_edges v) (out_edge_less_strict_weak g idx hless)
    refine ⟨_, hout, hp, ?_⟩
    exact List.Pairwise.imp
      (fun {e1 e2} h => key_less_false (fun e => idx (g.target e)) edge_less h) hs
  · intro hw
    rw [hw] at hin
    obtain ⟨hp, hs⟩ := hsort _ (g.in_edges v) (in_edge_less_strict_weak g idx hless)
    refine ⟨_, hin, hp, ?_⟩
    exact List.Pairwise.imp
      (fun {e1 e2} h => key_less_false (fun e => idx (g.source e)) edge_less h) hs

/-- C17: under the same assumptions `adjacent_vertices(v, view)` is the list of the targets of
`out_edges(v, view)`, in that order; it is non-decreasing in `idx`, a permutation of the
targets of `out_edges(v, g)`, and its length is `out_degree(v, view)`, which is the number of
out-edges of `v` in the adapted graph. -/
theorem adjacent_vertices_follow_out_edges {V E : Type} [Inhabited V] (WithInEdges : Bool)
    (sort : (E → E → Bool) → List E → List E) (hsort : sorts sort) (g : Graph V E)
    (idx : V → Nat) (edge_less : E → E → Bool) (hless : StrictWeakOrder edge_less)
    (hb : index_bijection g idx) :
    ∃ og, make_ordered_graph WithInEdges sort g idx edge_less = .ok og ∧
      ∀ v ∈ g.vertices, ∃ es, out_edges v og = .ok es ∧
        adjacent_vertices v og = .ok (es.map g.target) ∧
        (es.map g.target).Pairwise (fun a b => idx a ≤ idx b) ∧
        (es.map g.target).Perm ((g.out_edges v).map g.target) ∧
        out_degree v og = .ok (es.map g.target).length ∧
        (es.map g.target).length = (g.out_edges v).length := by
  obtain ⟨og, hrun, _, hv⟩ := view_spec WithInEdges sort g idx edge_less hb
  refine ⟨og, hrun, ?_⟩
  intro v hmem
  obtain ⟨_, hout, hdeg, hadj, _⟩ := hv v hmem
  obtain ⟨hp, hs⟩ := hsort _ (g.out_edges v) (out_edge_less_strict_weak g idx hless)
  refine ⟨_, hout, hadj, ?_, hp.map _, ?_, ?_⟩
  · rw [List.pairwise_map]
    exact List.Pairwise.imp
      (fun {e1 e2} h => (key_less_false (fun e => idx (g.target e)) edge_less h).1) hs
  · rw [List.length_map]
    exact hdeg
  · rw [List.length_map]
    exact hp.length_eq

theorem sorted_out_edges_unique {V E : Type} (g : Graph V E) (idx : V → Nat)
    (edge_less : E → E → Bool) (hb : index_bijection g idx) (hc : endpoints_closed g)
    (hpar : no_parallel_edges g ∨ total_on_parallel g edge_less) (v : V) (hv : v ∈ g.vertices)
    (l1 l2 : List E) (h1 : l1.Perm (g.out_edges v)) (h2 : l2.Perm (g.out_edges v))
    (s1 : sorted_by (out_edge_less g idx edge_less) l1)
    (s2 : sorted_by (out_edge_less g idx edge_less) l2) : l1 = l2 := by
  apply sorted_perm_unique l1 l2 (h1.trans h2.symm) s1 s2
  intro a ha b hbn hab hba
  have ham : a ∈ g.out_edges v := h1.subset ha
  have hbm : b ∈ g.out_edges v := h1.subset hbn
  have k1 := key_less_false (fun e => idx (g.target e)) edge_less hab
  have k2 := key_less_false (fun e => idx (g.target e)) edge_less hba
  have e : idx (g.target a) = idx (g.target b) := Nat.le_antisymm k1.1 k2.1
  have et : g.target a = g.target b :=
    hb.2.2 _ ((hc v hv).1 a ham) _ ((hc v hv).1 b hbm) e
  rcases hpar with hpar | hpar
  · exact hpar v hv a ham b hbm et
  · by_contra hne
    rcases hpar v hv a ham b hbm et hne with h | h
    · rw [k2.2 e.symm] at h
      cases h
    · rw [k1.2 e] at h
      cases h

/-- C18: let two graphs have the same vertices, the same out-edges per vertex and the same
endpoint functions, enumerated in possibly different orders, let `idx` be a bijection from the
vertices onto `[0, n)`, `edge_less` a strict weak ordering, and let the graph have no parallel
out-edges or `edge_less` be total on parallel out-edges.  Then both views are constructed,
whatever conforming sorting procedure each uses, `vertices` yields the same sequence for both
and so does `out_edges(v, .)` for every vertex `v`. -/
theorem view_order_determined_by_index {V E : Type} [Inhabited V] (W1 W2 : Bool)
    (sort1 sort2 : (E → E → Bool) → List E → List E) (hsort1 : sorts sort1)
    (hsort2 : sorts sort2) (g1 g2 : Graph V E) (idx : V → Nat) (edge_less : E → E → Bool)
    (hless : StrictWeakOrder edge_less) (hb : index_bijection g1 idx)
    (hc : endpoints_closed g1)
    (hpar : no_parallel_edges g1 ∨ total_on_parallel g1 edge_less)
    (hverts : g2.vertices.Perm g1.vertices)
    (hedges : ∀ v, (g2.out_edges v).Perm (g1.out_edges v))
    (htarget : g2.target = g1.target) :
    ∃ og1 og2, make_ordered_graph W1 sort1 g1 idx edge_less = .ok og1 ∧
      make_ordered_graph W2 sort2 g2 idx edge_less = .ok og2 ∧
      vertices og1 = vertices og2 ∧
      ∀ v ∈ g1.vertices, ∃ es, out_edges v og1 = .ok es ∧ out_edges v og2 = .ok es := by
  have hb2 : index_bijection g2 idx := by
    refine ⟨(List.Perm.nodup_iff hverts).2 hb.1, ?_, ?_⟩
    · intro v hv
      rw [hverts.length_eq]
      exact hb.2.1 v (hverts.subset hv)
    · intro v hv w hw
      exact hb.2.2 v (hverts.subset hv) w (hverts.subset hw)
  obtain ⟨og1, hrun1, hlen1, _, hent1, _, _, _⟩ :=
    view_vertices_spec W1 sort1 g1 idx edge_less hb
  obtain ⟨og2, hrun2, hlen2, _, hent2, _, _, _⟩ :=
    view_vertices_spec W2 sort2 g2 idx edge_less hb2
  obtain ⟨og1', hrun1', _, hv1⟩ := view_spec W1 sort1 g1 idx edge_less hb
  obtain ⟨og2', hrun2', _, hv2⟩ := view_spec W2 sort2 g2 idx edge_less hb2
  rw [hrun1] at hrun1'
  rw [hrun2] at hrun2'
  cases hrun1'
  cases hrun2'
  have hless2 : out_edge_less g2 idx edge_less = out_edge_less g1 idx edge_less := by
    unfold out_edge_less
    rw [htarget]
  refine ⟨og1, og2, hrun1, hrun2, ?_, ?_⟩
  · apply List.ext_getElem?
    intro i
    by_cases hi : i < g1.vertices.length
    · obtain ⟨v1, hm1, hg1, e1, _⟩ := hent1 i hi
      obtain ⟨v2, hm2, hg2, e2, _⟩ := hent2 i (by rw [hverts.length_eq]; exact hi)
      rw [hg1, hg2, hb.2.2 v1 hm1 v2 (hverts.subset hm2) (e1.trans e2.symm)]
    · rw [List.getElem?_eq_none (by omega), List.getElem?_eq_none (by
        rw [hlen2, hverts.length_eq]; omega)]
  · intro v hv
    obtain ⟨_, hout1, _, _, _⟩ := hv1 v hv
    obtain ⟨_, hout2, _, _, _⟩ := hv2 v (hverts.symm.subset hv)
    obtain ⟨hp1, hs1⟩ := hsort1 _ (g1.out_edges v) (out_edge_less_strict_weak g1 idx hless)
    rw [hless2] at hout2
    obtain ⟨hp2, hs2⟩ := hsort2 _ (g2.out_edges v) (out_edge_less_strict_weak g1 idx hless)
    refine ⟨_, hout1, ?_⟩
    rw [hout2, sorted_out_edges_unique g1 idx edge_less hb hc hpar v hv _ _ hp1
      (hp2.trans (hedges v)) hs1 hs2]
/-! ## The example graph -/

theorem ex_view_data :
    result_data (make_ordered_graph true insertion_sort ex_graph ex_idx always_false) =
      some [(2, [(2, 2), (2, 0), (2, 1)], [(2, 2), (0, 2)]),
        (0, [(0, 2), (0, 1)], [(2, 0), (1, 0)]),
        (1, [(1, 0)], [(2, 1), (0, 1)])] ∧
    result_data (make_ordered_graph true insertion_sort ex_graph_reordered ex_idx
      always_false) =
      result_data (make_ordered_graph true insertion_sort ex_graph ex_idx always_false) :=
  ⟨by decide, by decide⟩

theorem ex_index_bijection : index_bijection ex_graph ex_idx :=
  ⟨by decide, by decide, by decide⟩

theorem ex_endpoints_closed : endpoints_closed ex_graph := by
  unfold endpoints_closed
  decide

theorem ex_no_parallel_edges : no_parallel_edges ex_graph := by
  unfold no_parallel_edges
  decide

theorem ex_reordered_edges :
    ∀ v, (ex_graph_reordered.out_edges v).Perm (ex_graph.out_edges v) := by
  intro v
  match v with
  | 0 => decide
  | 1 => decide
  | 2 => decide
  | _ + 3 => exact List.Perm.refl _

theorem vertices_in_index_order_witness :
    ∃ og, make_ordered_graph true insertion_sort ex_graph ex_idx always_false = .ok og ∧
      (vertices og).length = ex_graph.vertices.length ∧
      num_vertices og = ex_graph.vertices.length ∧
      (∀ i, i < ex_graph.vertices.length → ∃ v ∈ ex_graph.vertices,
        (vertices og)[i]? = some v ∧ ex_idx v = i ∧
        ∀ w ∈ ex_graph.vertices, ex_idx w = i → w = v) ∧
      (vertices og).Pairwise (fun a b => ex_idx a < ex_idx b) ∧
      (vertices og).Nodup ∧ (vertices og).Perm ex_graph.vertices :=
  vertices_in_index_order true insertion_sort ex_graph ex_idx always_false ex_index_bijection

theorem stored_edges_sorted_perm_witness :
    ∃ og, make_ordered_graph true insertion_sort ex_graph ex_idx always_false = .ok og ∧
      ∀ v ∈ ex_graph.vertices,
        (∃ es, out_edges v og = .ok es ∧ es.Perm (ex_graph.out_edges v) ∧
          es.Pairwise (fun e1 e2 =>
            ex_idx (ex_graph.target e1) ≤ ex_idx (ex_graph.target e2) ∧
            (ex_idx (ex_graph.target e1) = ex_idx (ex_graph.target e2) →
              always_false e2 e1 = false))) ∧
        (true = true → ∃ es, in_edges v og = .ok es ∧ es.Perm (ex_graph.in_edges v) ∧
          es.Pairwise (fun e1 e2 =>
            ex_idx (ex_graph.source e1) ≤ ex_idx (ex_graph.source e2) ∧
            (ex_idx (ex_graph.source e1) = ex_idx (ex_graph.source e2) →
              always_false e2 e1 = false))) :=
  stored_edges_sorted_perm true insertion_sort insertion_sort_sorts ex_graph ex_idx
    always_false always_false_strict_weak ex_index_bijection

theorem adjacent_vertices_follow_out_edges_witness :
    ∃ og, make_ordered_graph false insertion_sort ex_graph ex_idx always_false = .ok og ∧
      ∀ v ∈ ex_graph.vertices, ∃ es, out_edges v og = .ok es ∧
        adjacent_vertices v og = .ok (es.map ex_graph.target) ∧
        (es.map ex_graph.target).Pairwise (fun a b => ex_idx a ≤ ex_idx b) ∧
        (es.map ex_graph.target).Perm ((ex_graph.out_edges v).map ex_graph.target) ∧
        out_degree v og = .ok (es.map ex_graph.target).length ∧
        (es.map ex_graph.target).length = (ex_graph.out_edges v).length :=
  adjacent_vertices_follow_out_edges false insertion_sort insertion_sort_sorts ex_graph ex_idx
    always_false always_false_strict_weak ex_index_bijection

theorem view_order_determined_by_index_witness :
    ∃ og1 og2, make_ordered_graph false insertion_sort ex_graph ex_idx always_false = .ok og1 ∧
      make_ordered_graph true insertion_sort ex_graph_reordered ex_idx always_false =
        .ok og2 ∧
      vertices og1 = vertices og2 ∧
      ∀ v ∈ ex_graph.vertices, ∃ es, out_edges v og1 = .ok es ∧ out_edges v og2 = .ok es :=
  view_order_determined_by_index false true insertion_sort insertion_sort insertion_sort_sorts
    insertion_sort_sorts ex_graph ex_graph_reordered ex_idx always_false
    always_false_strict_weak ex_index_bijection ex_endpoints_closed
    (Or.inl ex_no_parallel_edges) (by decide) ex_reordered_edges rfl

/-! ## Safety of the walk of `automorphism_leaf`, the forest invariant, empty generator ranges -/

/-- C27: in a tree with well-formed levels (nodes without parent have level `0`, a child is
one level below its parent), for a node `t` and a canonical leaf `cl` of the same tree (they
have a common ancestor-or-self) with neither an ancestor-or-self of the other, so that they are
distinct, `automorphism_leaf` returns for every fuel from the two levels on: none of the three
loops runs out of fuel, `get_parent()` is never applied to a null pointer and none of the
assertions fails. -/
theorem automorphism_leaf_walk_safe {G : Type} (d : Derived G) (s : State G) (t cl : Nat)
    (aut : Perm) (hwf : wf_levels s.nodes) (hc : s.canon_leaf = some cl)
    (hna : ¬ AncestorOrSelf s.nodes t cl) (hnb : ¬ AncestorOrSelf s.nodes cl t)
    (hr : ∃ r, AncestorOrSelf s.nodes r t ∧ AncestorOrSelf s.nodes r cl)
    (fuel : Nat) (hft : (s.nodes t).level ≤ fuel) (hfc : (s.nodes cl).level ≤ fuel) :
    t ≠ cl ∧ (s.nodes t).get_parent ≠ none ∧ (s.nodes cl).get_parent ≠ none ∧
    ∃ s', automorphism_leaf d fuel s t aut = .ok s' := by
  have hne : t ≠ cl := fun e => hna (e ▸ AncestorOrSelf.refl t)
  obtain ⟨r, hrt, hrc⟩ := hr
  have hpt : (s.nodes t).get_parent ≠ none := by
    intro hp
    cases hrt with
    | refl => exact hna hrc
    | step h _ => rw [hp] at h; cases h
  have hpc : (s.nodes cl).get_parent ≠ none := by
    intro hp
    cases hrc with
    | refl => exact hnb hrt
    | step h _ => rw [hp] at h; cases h
  obtain ⟨x, y, l, hrun, hx, hy, hxy, hpx, hpy⟩ :=
    automorphism_leaf_spec d s t cl aut hwf hc hna hnb ⟨r, hrt, hrc⟩ fuel hft hfc
  exact ⟨hne, hpt, hpc, _, hrun⟩

theorem automorphism_leaf_walk_safe_witness :
    6 ≠ 4 ∧ ((ex_state 4).nodes 6).get_parent ≠ none ∧
    ((ex_state 4).nodes 4).get_parent ≠ none ∧
    ∃ s', automorphism_leaf (ex_derived (fun _ => true) (fun _ => [])) 2 (ex_state 4) 6
      (transposition 0 1) = .ok s' :=
  automorphism_leaf_walk_safe (ex_derived (fun _ => true) (fun _ => [])) (ex_state 4) 6 4
    (transposition 0 1) ex_nodes_wf rfl
    (fun h => by
      have := (is_ancestor_or_self_iff ex_nodes_wf 6 4).2 h
      revert this; decide)
    (fun h => by
      have := (is_ancestor_or_self_iff ex_nodes_wf 4 6).2 h
      revert this; decide)
    ⟨0, reaches_sound 2 6 (by decide), reaches_sound 2 4 (by decide)⟩
    2 (by decide) (by decide)

/-- C26: the union-find array stays a forest and `find_root` terminates on it.  The lazy
initialization (`parent[i] = i`) gives a forest; a compression write of `find_root`
(`parent[self] = parent[parent[self]]` when neither `self` nor `parent[self]` is a self-loop)
and a merge write (`parent[other] = new_root` for two different self-loops) keep it one; on a
forest `find_root` returns for every index in range, with any fuel from `parent.size()` on,
without reading outside the array, and the array it leaves is a forest; a call of `per_point`
on a node whose union-find is a forest returns and leaves a forest. -/
theorem parent_stays_forest :
    (∀ k : Nat, Forest (List.range k)) ∧
    (∀ (parent : List Nat) (self q pp : Nat), Forest parent → parent[self]? = some q →
      q ≠ self → parent[q]? = some pp → pp ≠ q → Forest (parent.set self pp)) ∧
    (∀ (parent : List Nat) (other new_root : Nat), Forest parent →
      parent[other]? = some other → parent[new_root]? = some new_root → other ≠ new_root →
      Forest (parent.set other new_root)) ∧
    (∀ (fuel : Nat) (parent : List Nat) (i : Nat), Forest parent → i < parent.length →
      parent.length ≤ fuel →
      ∃ r parent', find_root fuel parent i = .ok (r, parent') ∧ Forest parent') ∧
    ∀ {G : Type} (fuel : Nat) (canon : Int) (a_t : Nat) (pinv : Nat → Nat) (cb : Nat)
      (s : State G) (idx v' : Nat), node_ok fuel (s.nodes a_t) → uf_ok (s.nodes a_t) →
      idx < (s.nodes a_t).children.length → cb ≤ pinv v' →
      pinv v' < (s.nodes a_t).pi.get_cell_end cb →
      pinv v' - cb < (s.nodes a_t).children.length →
      ∃ s', per_point fuel canon a_t pinv cb s idx v' = .ok s' ∧
        Forest (s'.nodes a_t).data.parent := by
  refine ⟨forest_range, ?_, ?_, ?_, ?_⟩
  · intro parent self q pp hf hself hq hpp hppq
    obtain ⟨r, n, hn⟩ := hf self (lt_of_getElem?_eq_some hself)
    exact compresses_forest (compresses_halve hself hq hpp hppq hn) hf
  · intro parent other new_root hf ho hn hne
    exact merge_forest ho hn hne hf
  · intro fuel parent i hf hi hfuel
    obtain ⟨r, n, hn⟩ := hf i hi
    obtain ⟨parent', hrun, hc⟩ :=
      find_root_spec fuel parent i n r hn (lt_of_lt_of_le (rootOfN_lt_length hn) hfuel)
    exact ⟨r, parent', hrun, compresses_forest hc hf⟩
  · intro G fuel canon a_t pinv cb s idx v' hok huf hidx hlo hhi himg
    obtain ⟨s', hrun, _, huf', _⟩ :=
      per_point_step fuel canon a_t pinv cb s idx v' hok huf hidx hlo hhi himg
    exact ⟨s', hrun, huf'.forest⟩

theorem parent_stays_forest_witness :
    ∃ r parent', find_root 4 [0, 0, 1, 2] 3 = .ok (r, parent') ∧ Forest parent' :=
  parent_stays_forest.2.2.2.1 4 [0, 0, 1, 2] 3 forest_chain (by decide) (by decide)

/-- C21: let `a_t = t_path.back()` be unpruned and let `update(state, a_t)` return an empty
range.  If `a_t` has a parent, the main loop ends at once: the state it returns is the state
after that call of `update`, whatever is left on `t_path`; no node has changed and the trace
has gained this one event.  If `a_t` has no parent, the loop goes on with the paths popped,
after the same call only: no node has changed, so the union-find of the root is not
initialized, and the next node is the new last entry of `t_path`. -/
theorem empty_range_stops_or_continues {G : Type} (d : Derived G) (fuel rounds : Nat)
    (s : State G) (a_t : Nat) (hlast : s.t_path.getLast? = some a_t)
    (hpr : (s.nodes a_t).is_pruned = false) (hempty : (d.update s.g s.nodes a_t).1 = []) :
    (after_update d s a_t).nodes = s.nodes ∧
    (after_update d s a_t).trace = s.trace ++ [Event.update a_t []] ∧
    ((s.nodes a_t).get_parent ≠ none →
      descend_loop d fuel (rounds + 1) s = .ok (after_update d s a_t)) ∧
    ((s.nodes a_t).get_parent = none →
      descend_loop d fuel (rounds + 1) s =
        descend_loop d fuel rounds (next_iteration (after_update d s a_t)) ∧
      (next_iteration (after_update d s a_t)).t_path = s.t_path.dropLast ∧
      (next_iteration (after_update d s a_t)).nodes = s.nodes ∧
      ((next_iteration (after_update d s a_t)).nodes a_t).data.parent =
        (s.nodes a_t).data.parent) := by
  have hproc : process_node d fuel s a_t =
      .ok (after_update d s a_t, (s.nodes a_t).get_parent.isSome) := by
    unfold process_node
    simp only [hpr, Bool.false_eq_true, if_false, hempty, List.isEmpty_nil, if_true]
    cases (s.nodes a_t).get_parent <;> simp [after_update, hempty]
  refine ⟨rfl, by simp [after_update, hempty], ?_, ?_⟩
  · intro hp
    unfold descend_loop
    rw [hlast]
    simp only [hproc]
    cases hq : (s.nodes a_t).get_parent with
    | none => exact absurd hq hp
    | some p => rfl
  · intro hp
    refine ⟨?_, rfl, rfl, rfl⟩
    conv => lhs; unfold descend_loop
    rw [hlast]
    simp only [hproc, hp]
    rfl

theorem empty_range_stops_or_continues_witness :
    (after_update (ex_derived (fun _ => true) (fun _ => [])) (ex_state_t_path 4 [1, 0]) 0).nodes =
      (ex_state_t_path 4 [1, 0]).nodes ∧
    descend_loop (ex_derived (fun _ => true) (fun _ => [])) 3 2 (ex_state_t_path 4 [1, 0]) =
      descend_loop (ex_derived (fun _ => true) (fun _ => [])) 3 1
        (next_iteration
          (after_update (ex_derived (fun _ => true) (fun _ => [])) (ex_state_t_path 4 [1, 0]) 0)) :=
  ⟨(empty_range_stops_or_continues (ex_derived (fun _ => true) (fun _ => [])) 3 1
      (ex_state_t_path 4 [1, 0]) 0 rfl rfl rfl).1,
    ((empty_range_stops_or_continues (ex_derived (fun _ => true) (fun _ => [])) 3 1
      (ex_state_t_path 4 [1, 0]) 0 rfl rfl rfl).2.2.2 rfl).1⟩
/-! ## The path `t_path` and the order of the rounds -/

theorem update_calls_append (l1 l2 : List Event) :
    update_calls (l1 ++ l2) = update_calls l1 ++ update_calls l2 := by
  induction l1 with
  | nil => rfl
  | cons e l ih =>
    cases e <;> simp [update_calls, ih]

theorem quiet_rel_refl {G : Type} (s : State G) : quiet_rel s s :=
  ⟨rfl, [], by simp, rfl⟩

theorem quiet_rel_trans {G : Type} {s1 s2 s3 : State G} (h12 : quiet_rel s1 s2)
    (h23 : quiet_rel s2 s3) : quiet_rel s1 s3 := by
  obtain ⟨e1, t1, u1⟩ := h12.trace
  obtain ⟨e2, t2, u2⟩ := h23.trace
  refine ⟨h23.t_path_eq.trans h12.t_path_eq, e1 ++ e2, by rw [t2, t1, List.append_assoc], ?_⟩
  rw [update_calls_append, u1, u2]
  rfl

theorem quiet_rel_set_node {G : Type} (s : State G) (a : Nat) (nd : TreeNode) :
    quiet_rel s (s.set_node a nd) :=
  ⟨rfl, [], by simp [State.set_node], rfl⟩

theorem quiet_rel_prune {G : Type} (s : State G) (c : Nat) : quiet_rel s (prune_subtree s c) :=
  ⟨rfl, [Event.prune_subtree c], rfl, rfl⟩

theorem per_point_quiet {G : Type} {fuel : Nat} {canon : Int} {a_t : Nat} {pinv : Nat → Nat}
    {cb : Nat} {s s' : State G} {idx v' : Nat}
    (h : per_point fuel canon a_t pinv cb s idx v' = .ok s') : quiet_rel s s' := by
  unfold per_point at h
  simp only at h
  repeat' split at h
  all_goals cases h
  all_goals first
    | exact quiet_rel_set_node _ _ _
    | exact quiet_rel_trans (quiet_rel_set_node _ _ _) (quiet_rel_prune _ _)

theorem scan_cell_quiet {G : Type} {fuel : Nat} {canon : Int} {a_t : Nat}
    {pb pinv : Nat → Nat} {cb : Nat} {aut : Perm} :
    ∀ (remaining j : Nat) (s s' : State G),
      scan_cell fuel canon a_t pb pinv cb aut remaining j s = .ok s' → quiet_rel s s' := by
  intro remaining
  induction remaining with
  | zero =>
    intro j s s' h
    simp only [scan_cell] at h
    cases h
    exact quiet_rel_refl _
  | succ n ih =>
    intro j s s' h
    simp only [scan_cell] at h
    by_cases hfix : pb (j + cb) = aut (pb (j + cb))
    · rw [if_pos hfix] at h
      exact ih _ _ _ h
    · rw [if_neg hfix] at h
      cases hp : per_point fuel canon a_t pinv cb s j (aut (pb (j + cb))) with
      | error e => rw [hp] at h; cases h
      | ok s1 =>
        rw [hp] at h
        simp only at h
        have h1 := per_point_quiet hp
        by_cases hz : (s1.nodes a_t).data.num_roots = 0
        · rw [if_pos hz] at h; cases h; exact h1
        · rw [if_neg hz] at h
          exact quiet_rel_trans h1 (ih _ _ _ h)

theorem scan_auts_quiet {G : Type} {fuel : Nat} {canon : Int} {a_t : Nat}
    {pb pinv : Nat → Nat} {cb k : Nat} :
    ∀ (auts : List Perm) (s s' : State G),
      scan_auts fuel canon a_t pb pinv cb k auts s = .ok s' → quiet_rel s s' := by
  intro auts
  induction auts with
  | nil =>
    intro s s' h
    simp only [scan_auts] at h
    cases h
    exact quiet_rel_refl _
  | cons aut rest ih =>
    intro s s' h
    simp only [scan_auts] at h
    cases hc : scan_cell fuel canon a_t pb pinv cb aut k 0 s with
    | error e => rw [hc] at h; cases h
    | ok s1 =>
      rw [hc] at h
      simp only at h
      have h1 := scan_cell_quiet _ _ _ _ hc
      by_cases hz : (s1.nodes a_t).data.num_roots = 0
      · rw [if_pos hz] at h; cases h; exact h1
      · rw [if_neg hz] at h
        exact quiet_rel_trans h1 (ih _ _ h)

/-- A round at `a_t` keeps `t_path`; it calls `update` at most once, on `a_t`, and exactly
once when the loop goes on. -/
theorem process_node_calls {G : Type} (d : Derived G) (fuel : Nat) (s : State G) (a_t : Nat)
    (s' : State G) (b : Bool) (h : process_node d fuel s a_t = .ok (s', b)) :
    s'.t_path = s.t_path ∧ ∃ evs, s'.trace = s.trace ++ evs ∧
      (update_calls evs = [a_t] ∨ (update_calls evs = [] ∧ b = true)) := by
  have hupd : (after_update d s a_t).t_path = s.t_path ∧
      ∃ evs, (after_update d s a_t).trace = s.trace ++ evs ∧ update_calls evs = [a_t] :=
    ⟨rfl, [Event.update a_t (d.update s.g s.nodes a_t).1], rfl, rfl⟩
  rcases process_node_cases d fuel s a_t s' b h with
    ⟨_, rfl, hb⟩ | ⟨_, _, rfl, _⟩ | ⟨_, _, _, _, rfl, _⟩ | ⟨_, _, s2, c, s3, hs2, hc, hscan, _⟩
  · exact ⟨rfl, [], by simp, Or.inr ⟨rfl, hb⟩⟩
  · exact ⟨hupd.1, [Event.update a_t (d.update s.g s.nodes a_t).1], rfl, Or.inl rfl⟩
  · exact ⟨hupd.1, [Event.update a_t (d.update s.g s.nodes a_t).1], rfl, Or.inl rfl⟩
  · obtain ⟨_, _, c3, c4, _⟩ := canon_child_local_idx_spec hc
    have hq := scan_auts_quiet _ _ _ hscan
    obtain ⟨evs, ht, hu⟩ := hq.trace
    have h2 : s2.t_path = s.t_path ∧
        s2.trace = s.trace ++ [Event.update a_t (d.update s.g s.nodes a_t).1] := by
      rcases hs2 with ⟨_, rfl⟩ | ⟨_, _, rfl⟩
      · exact ⟨rfl, rfl⟩
      · exact ⟨rfl, rfl⟩
    refine ⟨by rw [hq.t_path_eq, c4, h2.1],
      [Event.update a_t (d.update s.g s.nodes a_t).1] ++ evs, ?_, Or.inl ?_⟩
    · rw [ht, c3, h2.2, List.append_assoc]
    · rw [update_calls_append, hu]
      rfl

/-- The rounds of the main loop go through `t_path` from its back to its front: the nodes on
which `update` is called, in the order of the calls, are a prefix of the reversed `t_path`. -/
theorem descend_loop_order {G : Type} (d : Derived G) (fuel : Nat) :
    ∀ (n : Nat) (s s' : State G), descend_loop d fuel n s = .ok s' →
      ∃ evs, s'.trace = s.trace ++ evs ∧ update_calls evs <+: s.t_path.reverse := by
  intro n
  induction n with
  | zero =>
    intro s s' h
    simp only [descend_loop] at h
    split at h
    · cases h
      exact ⟨[], by simp, List.nil_prefix⟩
    · cases h
  | succ n ih =>
    intro s s' h
    simp only [descend_loop] at h
    cases hl : s.t_path.getLast? with
    | none =>
      rw [hl] at h
      cases h
      exact ⟨[], by simp, List.nil_prefix⟩
    | some a_t =>
      rw [hl] at h
      simp only at h
      obtain ⟨init, hinit⟩ : ∃ init, s.t_path = init ++ [a_t] := by
        obtain ⟨ys, hys⟩ := List.getLast?_eq_some_iff.1 hl
        exact ⟨ys, hys⟩
      have hrev : s.t_path.reverse = a_t :: init.reverse := by
        rw [hinit]; simp
      cases hp : process_node d fuel s a_t with
      | error e => rw [hp] at h; cases h
      | ok r =>
        obtain ⟨s1, b⟩ := r
        rw [hp] at h
        obtain ⟨htp, evs1, ht1, hu1⟩ := process_node_calls d fuel s a_t s1 b hp
        cases b with
        | true =>
          simp only at h
          cases h
          refine ⟨evs1, ht1, ?_⟩
          rw [hrev]
          rcases hu1 with hu1 | ⟨hu1, _⟩
          · rw [hu1]
            exact ⟨init.reverse, rfl⟩
          · rw [hu1]
            exact List.nil_prefix
        | false =>
          simp only at h
          obtain ⟨evs2, ht2, hu2⟩ := ih _ _ h
          have hu1' : update_calls evs1 = [a_t] := by
            rcases hu1 with hu1 | ⟨_, hb⟩
            · exact hu1
            · cases hb
          refine ⟨evs1 ++ evs2, ?_, ?_⟩
          · rw [ht2]
            show s1.trace ++ evs2 = _
            rw [ht1, List.append_assoc]
          · rw [update_calls_append, hu1', hrev]
            have : (next_iteration s1).t_path.reverse = init.reverse := by
              show s1.t_path.dropLast.reverse = _
              rw [htp, hinit, List.dropLast_concat]
            rw [this] at hu2
            obtain ⟨t, ht⟩ := hu2
            exact ⟨t, by rw [← ht]; simp⟩
theorem collect_path_total {G : Type} (d : Derived G) :
    ∀ (fuel : Nat) (a : Option Nat) (s : State G) (path : List Nat), wf_levels s.nodes →
      (∀ x, a = some x → (s.nodes x).level < fuel) →
      ∃ s' path', collect_path d fuel a s path = .ok (s', path') := by
  intro fuel
  induction fuel with
  | zero =>
    intro a s path _ hl
    cases a with
    | none => exact ⟨s, path, by simp [collect_path]⟩
    | some x => exact absurd (hl x rfl) (Nat.not_lt_zero _)
  | succ f ih =>
    intro a s path hwf hl
    cases a with
    | none => exact ⟨s, path, by simp [collect_path]⟩
    | some x =>
      simp only [collect_path]
      by_cases hn : (d.need_update s.g s.nodes x).1 = true
      · rw [if_pos hn]
        apply ih
        · exact hwf
        · intro p hp
          have h1 := hwf.2 x p hp
          have h2 := hl x rfl
          show (s.nodes p).level < f
          omega
      · rw [if_neg hn]
        exact ⟨_, _, rfl⟩

theorem upChain_facts {nodes : Nat → TreeNode} {nu : Nat → Bool} {a : Option Nat}
    {l : List Nat} (h : UpChain nodes nu a l) :
    (∀ x, l.head? = some x → a = some x) ∧
    (∀ (i : Nat) (x y : Nat), l[i]? = some x → l[i + 1]? = some y →
      (nodes x).get_parent = some y) ∧
    (∀ x ∈ l, nu x = true) ∧
    ∀ x, l.getLast? = some x →
      (nodes x).get_parent = none ∨ ∃ p, (nodes x).get_parent = some p ∧ nu p = false := by
  induction h with
  | stop_null =>
    exact ⟨fun _ h => (by cases h), fun _ _ _ h => (by cases h),
      fun _ h => absurd h (List.not_mem_nil _), fun _ h => (by cases h)⟩
  | stop_nu _ =>
    exact ⟨fun _ h => (by cases h), fun _ _ _ h => (by cases h),
      fun _ h => absurd h (List.not_mem_nil _), fun _ h => (by cases h)⟩
  | @step a rest hnu hrest ih =>
    obtain ⟨ih1, ih2, ih3, ih4⟩ := ih
    refine ⟨?_, ?_, ?_, ?_⟩
    · intro x hx
      simpa using hx
    · intro i x y hx hy
      cases i with
      | zero =>
        simp only [List.getElem?_cons_zero, Option.some.injEq] at hx
        subst hx
        simp only [zero_add, List.getElem?_cons_succ] at hy
        apply ih1 y
        cases rest with
        | nil => cases hy
        | cons r rs => simpa using hy
      | succ j =>
        simp only [List.getElem?_cons_succ] at hx hy
        exact ih2 j x y hx hy
    · intro x hx
      rcases List.mem_cons.1 hx with rfl | hx
      · exact hnu
      · exact ih3 x hx
    · intro x hx
      cases rest with
      | nil =>
        simp only [List.getLast?_singleton, Option.some.injEq] at hx
        subst hx
        generalize hgp : (nodes a).get_parent = gp at hrest
        cases hrest with
        | stop_null => exact Or.inl rfl
        | stop_nu hf => exact Or.inr ⟨_, rfl, hf⟩
      | cons r rs =>
        rw [List.getLast?_cons_cons] at hx
        exact ih4 x hx
theorem tree_before_descend_enters_loop {G : Type} (d : Derived G) (nu : Nat → Bool)
    (hnu : ∀ g nodes n, (d.need_update g nodes n).1 = nu n) (fuel : Nat) (s : State G)
    (t : Nat) (hwf : wf_levels s.nodes) (hpr : (s.nodes t).is_pruned = false)
    (hcc : (s.nodes t).data.child_count ≠ 0) (hT : nu t = true)
    (hft : (s.nodes t).level < fuel)
    (hfc : ∀ cl, s.canon_leaf = some cl → (s.nodes cl).level < fuel) :
    ∃ s3 tl cl, s3.nodes = s.nodes ∧ s3.canon_leaf = s.canon_leaf ∧
      UpChain s.nodes nu (some t) tl ∧ UpChain s.nodes nu s.canon_leaf cl ∧
      s3.t_path = tl ∧ tl ≠ [] ∧
      s3.c_path = (if !cl.isEmpty && tl.getLast? != cl.getLast? then [] else cl) ∧
      tree_before_descend d fuel s t = descend_loop d fuel tl.length s3 := by
  obtain ⟨s2, tp, hrun1⟩ := collect_path_total d fuel (some t)
    { s with g := (d.need_update s.g s.nodes t).2
             trace := s.trace ++ [Event.need_update t]
             t_path := [], c_path := [] } [] hwf (fun x hx => by cases hx; exact hft)
  obtain ⟨hn2, hc2, _, _, _⟩ := collect_path_spec d fuel _ _ _ _ _ hrun1
  obtain ⟨ext1, he1, hu1⟩ := collect_path_upchain d nu hnu fuel _ _ _ _ _ hrun1
  simp only [List.nil_append] at he1
  subst he1
  have hn2' : s2.nodes = s.nodes := hn2
  have hc2' : s2.canon_leaf = s.canon_leaf := hc2
  obtain ⟨s3, cp, hrun2⟩ := collect_path_total d fuel s2.canon_leaf s2 []
    (by rw [hn2']; exact hwf) (fun x hx => by rw [hn2']; exact hfc x (by rw [← hc2']; exact hx))
  obtain ⟨hn3, hc3, _, _, _⟩ := collect_path_spec d fuel _ _ _ _ _ hrun2
  obtain ⟨ext2, he2, hu2⟩ := collect_path_upchain d nu hnu fuel _ _ _ _ _ hrun2
  simp only [List.nil_append] at he2
  subst he2
  rw [hn2', hc2'] at hu2
  have hu1' : UpChain s.nodes nu (some t) tp := hu1
  have hne : tp ≠ [] := by
    cases hu1' with
    | stop_nu hf => rw [hT] at hf; cases hf
    | step _ _ => exact List.cons_ne_nil _ _
  have hemp : tp.isEmpty = false := by
    cases tp with
    | nil => exact absurd rfl hne
    | cons _ _ => rfl
  refine ⟨{ s3 with t_path := tp
                    c_path := if !cp.isEmpty && tp.getLast? != cp.getLast? then [] else cp },
    tp, cp, hn3.trans hn2', hc3.trans hc2', hu1', hu2, rfl, hne, rfl, ?_⟩
  unfold tree_before_descend
  have hnt : (d.need_update s.g s.nodes t).1 = true := by rw [hnu]; exact hT
  simp only [hpr, Bool.false_eq_true, if_false, hcc, hnt, Bool.not_true, hrun1, hrun2, hemp]

/-- The rounds of the main loop: `update` is called along the reversed `t_path`, entry after
entry from the back of `t_path`, until the path is used up or a round leaves the loop. -/
theorem descend_loop_rounds {G : Type} (d : Derived G) (fuel : Nat) :
    ∀ (n : Nat) (s s' : State G), descend_loop d fuel n s = .ok s' →
      ∃ evs, s'.trace = s.trace ++ evs ∧ rounds_along s.t_path.reverse evs s' := by
  intro n
  induction n with
  | zero =>
    intro s s' h
    simp only [descend_loop] at h
    split at h
    · rename_i hemp
      cases h
      have : s.t_path = [] := List.isEmpty_iff.1 hemp
      exact ⟨[], by simp, 0, rfl, Or.inl (by rw [this]; rfl)⟩
    · cases h
  | succ n ih =>
    intro s s' h
    simp only [descend_loop] at h
    cases hl : s.t_path.getLast? with
    | none =>
      rw [hl] at h
      cases h
      have : s.t_path = [] := List.getLast?_eq_none_iff.1 hl
      exact ⟨[], by simp, 0, rfl, Or.inl (by rw [this]; rfl)⟩
    | some a_t =>
      rw [hl] at h
      simp only at h
      obtain ⟨init, hinit⟩ : ∃ init, s.t_path = init ++ [a_t] := by
        obtain ⟨ys, hys⟩ := List.getLast?_eq_some_iff.1 hl
        exact ⟨ys, hys⟩
      have hrev : s.t_path.reverse = a_t :: init.reverse := by
        rw [hinit]; simp
      rw [hrev]
      cases hp : process_node d fuel s a_t with
      | error e => rw [hp] at h; cases h
      | ok r =>
        obtain ⟨s1, b⟩ := r
        rw [hp] at h
        cases b with
        | true =>
          simp only at h
          cases h
          rcases process_node_cases d fuel s a_t s' true hp with
            ⟨hpr, rfl, _⟩ | ⟨_, hemp, rfl, hb⟩ | ⟨_, _, _, _, _, hb⟩ |
            ⟨_, _, _, _, _, _, _, _, hb⟩
          · exact ⟨[], by simp, 0, rfl, Or.inr (Or.inl ⟨a_t, List.getElem?_cons_zero, hpr⟩)⟩
          · refine ⟨[Event.update a_t (d.update s.g s.nodes a_t).1], rfl, 1, rfl,
              Or.inr (Or.inr ⟨0, a_t, [], rfl, List.getElem?_cons_zero, by rw [hemp]; rfl, ?_⟩)⟩
            have hsome := hb.1 rfl
            intro hnone
            have hnone' : (s.nodes a_t).get_parent = none := hnone
            rw [hnone'] at hsome
            cases hsome
          · cases hb
          · cases hb
        | false =>
          simp only at h
          obtain ⟨htp, evs1, ht1, hu1⟩ := process_node_calls d fuel s a_t s1 false hp
          have hu1' : update_calls evs1 = [a_t] := by
            rcases hu1 with hu1 | ⟨_, hb⟩
            · exact hu1
            · cases hb
          obtain ⟨evs2, ht2, m2, hm2, hstop⟩ := ih _ _ h
          have hnext : (next_iteration s1).t_path.reverse = init.reverse := by
            show s1.t_path.dropLast.reverse = _
            rw [htp, hinit, List.dropLast_concat]
          rw [hnext] at hm2 hstop
          refine ⟨evs1 ++ evs2, ?_, m2 + 1, ?_, ?_⟩
          · rw [ht2]
            show s1.trace ++ evs2 = _
            rw [ht1, List.append_assoc]
          · rw [update_calls_append, hu1', hm2]
            rfl
          · rcases hstop with hall | ⟨x, hx, hprx⟩ | ⟨m', x, evs0, e1, hx, e2, hpx⟩
            · exact Or.inl (by rw [hall]; rfl)
            · exact Or.inr (Or.inl ⟨x, by rw [List.getElem?_cons_succ]; exact hx, hprx⟩)
            · exact Or.inr (Or.inr ⟨m' + 1, x, evs1 ++ evs0, by rw [e1],
                by rw [List.getElem?_cons_succ]; exact hx,
                by rw [e2, List.append_assoc], hpx⟩)

/-- C22: let `need_update` be a predicate `nu` of the node, let `T` be unpruned with
`child_count != 0` and `nu(T)` true, in a tree with well-formed levels, and let the fuel exceed
the levels of `T` and of the canonical leaf.  Then `tree_before_descend(T)` enters the main
loop with a `t_path` that is not empty, starts with `T`, continues with the parent of the
previous entry, holds only nodes on which `nu` is true, and ends in a node without parent or
with a parent on which `nu` is false.  The loop then works along `t_path` from its back to its
front (`rounds_along`): the nodes on which `update` is called are, in the order of the calls,
the first `m` entries of the reversed `t_path`, and the loop stops short of the front only
where the next node is pruned or where the last call returned the empty range at a node with a
parent. -/
theorem t_path_construction {G : Type} (d : Derived G) (nu : Nat → Bool)
    (hnu : ∀ g nodes n, (d.need_update g nodes n).1 = nu n) (fuel : Nat) (s : State G)
    (t : Nat) (hwf : wf_levels s.nodes) (hpr : (s.nodes t).is_pruned = false)
    (hcc : (s.nodes t).data.child_count ≠ 0) (hT : nu t = true)
    (hft : (s.nodes t).level < fuel)
    (hfc : ∀ cl, s.canon_leaf = some cl → (s.nodes cl).level < fuel) :
    ∃ s3 tl, tree_before_descend d fuel s t = descend_loop d fuel tl.length s3 ∧
      s3.t_path = tl ∧ s3.nodes = s.nodes ∧ tl ≠ [] ∧ tl[0]? = some t ∧
      (∀ (i : Nat) (x y : Nat), tl[i]? = some x → tl[i + 1]? = some y →
        (s.nodes x).get_parent = some y) ∧
      (∀ x ∈ tl, nu x = true) ∧
      (∀ x, tl.getLast? = some x →
        (s.nodes x).get_parent = none ∨
          ∃ p, (s.nodes x).get_parent = some p ∧ nu p = false) ∧
      ∀ s', descend_loop d fuel tl.length s3 = .ok s' →
        ∃ evs, s'.trace = s3.trace ++ evs ∧ update_calls evs <+: tl.reverse ∧
          rounds_along tl.reverse evs s' := by
  obtain ⟨s3, tl, cl, hn, _, hu, _, htp, hne, _, hrun⟩ :=
    tree_before_descend_enters_loop d nu hnu fuel s t hwf hpr hcc hT hft hfc
  obtain ⟨f1, f2, f3, f4⟩ := upChain_facts hu
  refine ⟨s3, tl, hrun, htp, hn, hne, ?_, f2, f3, f4, ?_⟩
  · cases tl with
    | nil => exact absurd rfl hne
    | cons x xs =>
      have := f1 x rfl
      cases this
      simp
  · intro s' hs'
    obtain ⟨evs, h1, m, hm, hstop⟩ := descend_loop_rounds d fuel _ _ _ hs'
    rw [htp] at hm hstop
    exact ⟨evs, h1, by rw [hm]; exact List.take_prefix _ _, m, hm, hstop⟩

theorem t_path_construction_example :
    result_update_calls
      (tree_before_descend (ex_derived (fun _ => true) ex_auts) 3 (ex_state 4) 1) =
      some [0, 1] ∧
    result_update_calls
      (tree_before_descend (ex_derived (fun n => decide (n ≠ 0)) ex_auts) 3 (ex_state 4) 1) =
      some [1] := by
  decide

theorem t_path_construction_witness :
    result_update_calls
      (tree_before_descend (ex_derived (fun _ => true) ex_auts) 3 (ex_state 4) 1) =
      some [0, 1] ∧
    ∃ s3 tl, tree_before_descend (ex_derived (fun _ => true) ex_auts) 3 (ex_state 4) 1 =
        descend_loop (ex_derived (fun _ => true) ex_auts) 3 tl.length s3 ∧
      s3.t_path = tl ∧ s3.nodes = (ex_state 4).nodes ∧ tl ≠ [] ∧ tl[0]? = some 1 ∧
      (∀ (i : Nat) (x y : Nat), tl[i]? = some x → tl[i + 1]? = some y →
        ((ex_state 4).nodes x).get_parent = some y) ∧
      (∀ x ∈ tl, (fun _ => true) x = true) ∧
      (∀ x, tl.getLast? = some x →
        ((ex_state 4).nodes x).get_parent = none ∨
          ∃ p, ((ex_state 4).nodes x).get_parent = some p ∧ (fun _ => true) p = false) ∧
      ∃ evs, (result_state
          (tree_before_descend (ex_derived (fun _ => true) ex_auts) 3 (ex_state 4) 1)
          (ex_state 4)).trace = s3.trace ++ evs ∧
        update_calls evs <+: tl.reverse ∧
        rounds_along tl.reverse evs (result_state
          (tree_before_descend (ex_derived (fun _ => true) ex_auts) 3 (ex_state 4) 1)
          (ex_state 4)) := by
  obtain ⟨s3, tl, h1, h2, h3, h4, h5, h6, h7, h8, h9⟩ :=
    t_path_construction (ex_derived (fun _ => true) ex_auts) (fun _ => true)
      (fun _ _ _ => rfl) 3 (ex_state 4) 1 ex_nodes_wf rfl (by decide) rfl (by decide)
      (fun cl h => by cases h; decide)
  refine ⟨by decide, s3, tl, h1, h2, h3, h4, h5, h6, h7, h8, h9 _ ?_⟩
  rw [← h1]
  rfl

/-! ## Survivors are roots -/

theorem survivors_of_uf_ok {nd : TreeNode} (huf : uf_ok nd)
    (hlen : nd.child_pruned.length = nd.children.length) : survivors_are_roots nd := by
  have hroot : ∀ i : Nat, nd.child_pruned[i]? = some false → nd.data.parent[i]? = some i := by
    intro i hi
    have hi' : i < nd.children.length := by
      rw [← hlen]; exact lt_of_getElem?_eq_some hi
    exact unpruned_is_root huf hlen hi' hi
  refine ⟨huf.nonroot_pruned, hroot, ?_, ?_⟩
  · intro i j r hi hj hri hrj
    have h1 := rootOf_unique hri (rootOf_self (hroot i hi))
    have h2 := rootOf_unique hrj (rootOf_self (hroot j hj))
    rw [← h1, ← h2]
  · rw [huf.count]
    unfold count_roots
    rw [huf.len_parent]
    exact_mod_cast Finset.card_le_card (by
      intro i hi
      rw [Finset.mem_filter] at hi ⊢
      exact ⟨hi.1, hroot i hi.2⟩)

/-- C25: survivors are roots.  The lazy initialization establishes the property (every index
is a self-loop); every call of `per_point`, merging or not, on a node that satisfies the node
invariant returns and gives a node with the property; and for a node `T` that satisfies the
invariant before a call of `tree_before_descend` (its union-find is not materialized, or it
is a forest whose non-roots are marked) and whose generators map its target cell to itself,
after the call, once the union-find is materialized: every index with `parent[i] != i` has
`child_pruned[i]`, every unmarked index is a root, a class holds at most one unmarked index,
and at most `num_roots + 1` indices are unmarked. -/
theorem survivors_stay_roots {G : Type} (d : Derived G) (fuel : Nat) (s : State G)
    (t : Nat) (T : Nat) (hok : node_ok fuel (s.nodes T))
    (hgen : ∀ (g : G) (nodes : Nat → TreeNode), (∀ m, static_eq (s.nodes m) (nodes m)) →
      ∀ aut ∈ (d.update g nodes T).1, maps_cell (s.nodes T) aut) :
    survivors_are_roots ((after_init s T).nodes T) ∧
    (∀ (canon : Int) (pinv : Nat → Nat) (cb : Nat) (s1 : State G) (idx v' : Nat),
      node_ok fuel (s1.nodes T) → uf_ok (s1.nodes T) →
      idx < (s1.nodes T).children.length → cb ≤ pinv v' →
      pinv v' < (s1.nodes T).pi.get_cell_end cb →
      pinv v' - cb < (s1.nodes T).children.length →
      ∃ s1', per_point fuel canon T pinv cb s1 idx v' = .ok s1' ∧
        survivors_are_roots (s1'.nodes T)) ∧
    ∀ s', tree_before_descend d fuel s t = .ok s' → (s'.nodes T).data.parent ≠ [] →
      survivors_are_roots (s'.nodes T) := by
  refine ⟨?_, ?_, ?_⟩
  · apply survivors_of_uf_ok (after_init_uf_ok s T)
    rw [after_init_node]
    exact hok.len_pruned
  · intro canon pinv cb s1 idx v' hok1 huf1 hidx hlo hhi himg
    obtain ⟨s1', hrun, hok', huf', _⟩ :=
      per_point_step fuel canon T pinv cb s1 idx v' hok1 huf1 hidx hlo hhi himg
    exact ⟨s1', hrun, survivors_of_uf_ok huf' hok'.len_pruned⟩
  · intro s' h hne
    have hinv := tree_before_descend_node d fuel s t s' T hok hgen h
    rcases hinv.ok.uf with hu | hu
    · exact absurd hu hne
    · exact survivors_of_uf_ok hu hinv.ok.len_pruned

theorem survivors_stay_roots_witness :
    survivors_are_roots
      ((result_state (tree_before_descend (ex_derived (fun _ => true) ex_auts) 3 (ex_state 6) 0)
        (ex_state 6)).nodes 0) :=
  (survivors_stay_roots (ex_derived (fun _ => true) ex_auts) 3 (ex_state 6) 0 0
    (ex_nodes_ok 0) (fun g nodes hst => ex_contract (fun _ => true) g nodes 0 hst)).2.2
    (result_state (tree_before_descend (ex_derived (fun _ => true) ex_auts) 3 (ex_state 6) 0)
      (ex_state 6)) rfl (by decide)

theorem survivors_example :
    node_view (tree_before_descend (ex_derived (fun _ => true) ex_auts) 3 (ex_state 6) 0) 0 =
      some ([1, 1, 2], 1, [true, false, false]) := by
  decide
/-! ## Generators that fix the target cell -/

theorem scan_cell_trivial {G : Type} (fuel : Nat) (canon : Int) (a_t : Nat)
    (pb pinv : Nat → Nat) (cb : Nat) (aut : Perm) :
    ∀ (remaining j : Nat) (s : State G),
      (∀ i, j ≤ i → i < j + remaining → pb (i + cb) = aut (pb (i + cb))) →
      scan_cell fuel canon a_t pb pinv cb aut remaining j s = .ok s := by
  intro remaining
  induction remaining with
  | zero => intro j s _; rfl
  | succ n ih =>
    intro j s h
    simp only [scan_cell]
    rw [if_pos (h j (le_refl _) (by omega))]
    exact ih (j + 1) s (fun i h1 h2 => h i (by omega) (by omega))

theorem scan_auts_trivial {G : Type} (fuel : Nat) (canon : Int) (a_t : Nat)
    (pb pinv : Nat → Nat) (cb k : Nat) :
    ∀ (auts : List Perm) (s : State G),
      (∀ aut ∈ auts, ∀ i, i < k → pb (i + cb) = aut (pb (i + cb))) →
      scan_auts fuel canon a_t pb pinv cb k auts s = .ok s := by
  intro auts
  induction auts with
  | nil => intro s _; rfl
  | cons aut rest ih =>
    intro s h
    simp only [scan_auts]
    rw [scan_cell_trivial fuel canon a_t pb pinv cb aut k 0 s
      (fun i _ h2 => h aut (List.mem_cons_self _ _) i (by omega))]
    simp only
    by_cases hz : (s.nodes a_t).data.num_roots = 0
    · rw [if_pos hz]
    · rw [if_neg hz]
      exact ih s (fun a ha => h a (List.mem_cons_of_mem _ ha))

theorem canon_child_local_idx_total {G : Type} (s : State G) (a_t : Nat)
    (hc : s.c_path ≠ [a_t]) :
    ∃ c s3, canon_child_local_idx s a_t = .ok (c, s3) := by
  unfold canon_child_local_idx
  cases hl : s.c_path.getLast? with
  | none => exact ⟨_, _, rfl⟩
  | some back =>
    simp only
    by_cases hb : back = a_t
    · subst hb
      rw [if_neg (by simp)]
      obtain ⟨init, hinit⟩ := List.getLast?_eq_some_iff.1 hl
      have hlen : ¬ s.c_path.length ≤ 1 := by
        intro hle
        apply hc
        rw [hinit] at hle ⊢
        cases init with
        | nil => rfl
        | cons x xs => simp at hle
      rw [if_neg hlen]
      have hlt : s.c_path.length - 2 < s.c_path.length := by omega
      simp only [rd, List.getElem?_eq_getElem hlt]
      exact ⟨_, _, rfl⟩
    · rw [if_pos hb]
      exact ⟨_, _, rfl⟩

/-- A round at an unpruned node whose generators, at least one, all fix the vertices of the
target cell: the round returns and goes on; it has called `update` and nothing else, and the
tree afterwards is the tree before, with the union-find of `a_t` initialized if it was not
materialized. -/
theorem process_node_trivial {G : Type} (d : Derived G) (fuel : Nat) (s : State G) (a_t : Nat)
    (hpr : (s.nodes a_t).is_pruned = false) (hne : (d.update s.g s.nodes a_t).1 ≠ [])
    (hfix : ∀ aut ∈ (d.update s.g s.nodes a_t).1, ∀ i, i < (s.nodes a_t).children.length →
      aut ((s.nodes a_t).pi.get ((s.nodes a_t).child_refiner_cell + i)) =
        (s.nodes a_t).pi.get ((s.nodes a_t).child_refiner_cell + i))
    (hc : s.c_path ≠ [a_t]) :
    ∃ s', process_node d fuel s a_t = .ok (s', false) ∧
      s'.trace = s.trace ++ [Event.update a_t (d.update s.g s.nodes a_t).1] ∧
      (((s.nodes a_t).data.parent ≠ [] ∧ s'.nodes = s.nodes) ∨
        ((s.nodes a_t).data.parent = [] ∧
          s'.nodes = (after_init (after_update d s a_t) a_t).nodes)) := by
  have hfix' : ∀ aut ∈ (d.update s.g s.nodes a_t).1, ∀ i, i < (s.nodes a_t).children.length →
      (s.nodes a_t).pi.get (i + (s.nodes a_t).child_refiner_cell) =
        aut ((s.nodes a_t).pi.get (i + (s.nodes a_t).child_refiner_cell)) := by
    intro aut ha i hi
    rw [Nat.add_comm]
    exact (hfix aut ha i hi).symm
  have hemp : (d.update s.g s.nodes a_t).1.isEmpty = false := by
    cases h : (d.update s.g s.nodes a_t).1 with
    | nil => exact absurd h hne
    | cons _ _ => rfl
  unfold process_node
  rw [if_neg (by rw [hpr]; exact Bool.false_ne_true)]
  simp only [Bool.false_eq_true, if_false, hemp]
  by_cases hp : (s.nodes a_t).data.parent = []
  · have hpe : (s.nodes a_t).data.parent.isEmpty = true := by rw [hp]; rfl
    simp only [hpe, if_true]
    obtain ⟨c, s3, hcan⟩ := canon_child_local_idx_total
      (after_init (after_update d s a_t) a_t) a_t hc
    obtain ⟨hn3, _, ht3, _⟩ := canon_child_local_idx_spec hcan
    have hcan' : canon_child_local_idx (after_init (after_update d s a_t) a_t) a_t =
        .ok (c, s3) := hcan
    simp only [after_init, after_update] at hcan'
    simp only [hcan']
    have hst : static_eq (s.nodes a_t) (s3.nodes a_t) := by
      rw [hn3]
      exact after_init_static (after_update d s a_t) a_t a_t
    rw [scan_auts_trivial fuel c a_t _ _ _ _ _ s3 (by
      rw [hst.pi, hst.child_refiner_cell]
      exact hfix')]
    exact ⟨s3, rfl, ht3, Or.inr ⟨hp, hn3⟩⟩
  · have hpe : (s.nodes a_t).data.parent.isEmpty = false := by
      cases h : (s.nodes a_t).data.parent with
      | nil => exact absurd h hp
      | cons _ _ => rfl
    simp only [hpe, Bool.false_eq_true, if_false]
    by_cases hz : (s.nodes a_t).data.num_roots = 0
    · simp only [hz, if_true]
      exact ⟨_, rfl, rfl, Or.inl ⟨hp, rfl⟩⟩
    · simp only [hz, if_false]
      obtain ⟨c, s3, hcan⟩ := canon_child_local_idx_total (after_update d s a_t) a_t hc
      obtain ⟨hn3, _, ht3, _⟩ := canon_child_local_idx_spec hcan
      have hcan' : canon_child_local_idx (after_update d s a_t) a_t = .ok (c, s3) := hcan
      simp only [after_update] at hcan'
      simp only [hcan']
      have hn3' : s3.nodes = s.nodes := hn3
      rw [scan_auts_trivial fuel c a_t _ _ _ _ _ s3 (by
        rw [hn3']
        exact hfix')]
      exact ⟨s3, rfl, ht3, Or.inl ⟨hp, hn3⟩⟩
/-- C23, counterexample: the root of the example tree is fresh (its `parent` array is empty)
and has three children; `update` returns the empty range, so every generator it returns fixes
every vertex of the target cell; after `tree_before_descend` the array `parent` of the root is
still empty and `num_roots` is still `0`: it is not the identity on three indices with
`num_roots == 2`. -/
theorem trivial_generators_empty_range :
    (ex_nodes 0).data.parent = [] ∧ (ex_nodes 0).children.length = 3 ∧
    (ex_nodes 0).is_pruned = false ∧
    ((ex_derived (fun _ => true) (fun _ => [])).update () ex_nodes 0).1.length = 0 ∧
    result_update_calls
      (tree_before_descend (ex_derived (fun _ => true) (fun _ => [])) 3 (ex_state 4) 0) =
      some [0] ∧
    node_view
      (tree_before_descend (ex_derived (fun _ => true) (fun _ => [])) 3 (ex_state 4) 0) 0 =
      some ([], 0, [false, false, false]) := by
  decide

/-- C23 (amended): let `a_t` be unpruned and let `update(state, a_t)` return a non-empty range
of generators each of which fixes every vertex `pi.get(cell_begin + i)`, `0 <= i < k`.  Then
the round at `a_t` returns and the loop goes on; the trace has gained the call of `update` and
nothing else, so `prune_subtree` is invoked on no node; no `child_pruned` bit and no
`is_pruned` flag has changed; every other node is as before; the union-find data of `a_t` is
as before if it was materialized, and on a fresh node `parent` is the identity on `k` indices
and `num_roots == k - 1`. -/
theorem trivial_generators_no_merge {G : Type} (d : Derived G) (fuel : Nat) (s : State G)
    (a_t : Nat) (hpr : (s.nodes a_t).is_pruned = false)
    (hne : (d.update s.g s.nodes a_t).1 ≠ [])
    (hfix : ∀ aut ∈ (d.update s.g s.nodes a_t).1, ∀ i, i < (s.nodes a_t).children.length →
      aut ((s.nodes a_t).pi.get ((s.nodes a_t).child_refiner_cell + i)) =
        (s.nodes a_t).pi.get ((s.nodes a_t).child_refiner_cell + i))
    (hc : s.c_path ≠ [a_t]) :
    ∃ s', process_node d fuel s a_t = .ok (s', false) ∧
      s'.trace = s.trace ++ [Event.update a_t (d.update s.g s.nodes a_t).1] ∧
      (∀ m, (s'.nodes m).child_pruned = (s.nodes m).child_pruned ∧
        (s'.nodes m).is_pruned = (s.nodes m).is_pruned) ∧
      (∀ m, m ≠ a_t → s'.nodes m = s.nodes m) ∧
      ((s.nodes a_t).data.parent ≠ [] → (s'.nodes a_t).data = (s.nodes a_t).data) ∧
      ((s.nodes a_t).data.parent = [] →
        (s'.nodes a_t).data.parent = List.range (s.nodes a_t).children.length ∧
        (s'.nodes a_t).data.num_roots = ((s.nodes a_t).children.length : Int) - 1) := by
  obtain ⟨s', hrun, ht, hn⟩ := process_node_trivial d fuel s a_t hpr hne hfix hc
  refine ⟨s', hrun, ht, ?_, ?_, ?_, ?_⟩
  · intro m
    rcases hn with ⟨_, hn⟩ | ⟨_, hn⟩
    · rw [hn]; exact ⟨rfl, rfl⟩
    · rw [hn]
      by_cases hm : m = a_t
      · subst hm
        rw [after_init_node]
        exact ⟨rfl, rfl⟩
      · unfold after_init
        rw [set_node_nodes_ne _ _ _ hm]
        exact ⟨rfl, rfl⟩
  · intro m hm
    rcases hn with ⟨_, hn⟩ | ⟨_, hn⟩
    · rw [hn]
    · rw [hn]
      unfold after_init
      rw [set_node_nodes_ne _ _ _ hm]
      rfl
  · intro hp
    rcases hn with ⟨_, hn⟩ | ⟨hp', _⟩
    · rw [hn]
    · exact absurd hp' hp
  · intro hp
    rcases hn with ⟨hp', _⟩ | ⟨_, hn⟩
    · exact absurd hp hp'
    · rw [hn, after_init_node]
      exact ⟨rfl, rfl⟩

theorem trivial_generators_no_merge_witness :
    ∃ s', process_node (ex_derived (fun _ => true) (fun _ => [fun v => v])) 3 (ex_state 4) 0 =
        .ok (s', false) ∧
      s'.trace = (ex_state 4).trace ++ [Event.update 0
        ((ex_derived (fun _ => true) (fun _ => [fun v => v])).update (ex_state 4).g
          (ex_state 4).nodes 0).1] ∧
      (∀ m, (s'.nodes m).child_pruned = ((ex_state 4).nodes m).child_pruned ∧
        (s'.nodes m).is_pruned = ((ex_state 4).nodes m).is_pruned) ∧
      (∀ m, m ≠ 0 → s'.nodes m = (ex_state 4).nodes m) ∧
      (((ex_state 4).nodes 0).data.parent ≠ [] →
        (s'.nodes 0).data = ((ex_state 4).nodes 0).data) ∧
      (((ex_state 4).nodes 0).data.parent = [] →
        (s'.nodes 0).data.parent = List.range ((ex_state 4).nodes 0).children.length ∧
        (s'.nodes 0).data.num_roots = (((ex_state 4).nodes 0).children.length : Int) - 1) :=
  trivial_generators_no_merge (ex_derived (fun _ => true) (fun _ => [fun v => v])) 3
    (ex_state 4) 0 rfl (List.cons_ne_nil _ _)
    (fun aut ha i _ => by rw [List.mem_singleton.1 ha])
    (by decide)

theorem trivial_generators_example :
    node_view
      (tree_before_descend (ex_derived (fun _ => true) (fun _ => [fun v => v])) 3
        (ex_state 4) 0) 0 =
      some ([0, 1, 2], 2, [false, false, false]) := by
  decide
/-! ## Union-find classes and orbits -/

theorem compresses_rootOf_rev {p p' : List Nat} (h : Compresses p p') (hf : Forest p)
    {i r : Nat} (hr : RootOf p' i r) : RootOf p i r := by
  obtain ⟨m, hm⟩ := hr
  have hi : i < p.length := by rw [← h.1]; exact rootOfN_lt hm
  obtain ⟨r0, hr0⟩ := hf i hi
  have := rootOf_unique ⟨m, hm⟩ (compresses_rootOf h hr0)
  rw [this]
  exact hr0

theorem same_class_symm {p : List Nat} {i j : Nat} (h : same_class p i j) :
    same_class p j i := by
  obtain ⟨r, h1, h2⟩ := h
  exact ⟨r, h2, h1⟩

theorem same_class_trans {p : List Nat} {i j k : Nat} (h1 : same_class p i j)
    (h2 : same_class p j k) : same_class p i k := by
  obtain ⟨r, a, b⟩ := h1
  obtain ⟨r', c, e⟩ := h2
  have := rootOf_unique b c
  subst this
  exact ⟨r, a, e⟩

/-- The classes after a merge of the self-loops `l` and `w` of a forest: two indices of one
class were in one class before, or one was in the class of `l` and the other in that of `w`. -/
theorem merge_same_class {p : List Nat} {l w : Nat} (hl : p[l]? = some l)
    (hw : p[w]? = some w) (hlw : l ≠ w) (hf : Forest p) {i j : Nat}
    (h : same_class (p.set l w) i j) :
    same_class p i j ∨ (RootOf p i l ∧ RootOf p j w) ∨ (RootOf p i w ∧ RootOf p j l) := by
  obtain ⟨r, hi, hj⟩ := h
  have hilt : i < p.length := by
    obtain ⟨m, hm⟩ := hi
    have := rootOfN_lt hm
    rwa [List.length_set] at this
  have hjlt : j < p.length := by
    obtain ⟨m, hm⟩ := hj
    have := rootOfN_lt hm
    rwa [List.length_set] at this
  obtain ⟨ri, ni, hri⟩ := hf i hilt
  obtain ⟨rj, nj, hrj⟩ := hf j hjlt
  by_cases h1 : ri = l
  · have e1 := rootOf_unique hi ⟨_, (merge_rootOfN hl hw hlw hri).1 h1⟩
    by_cases h2 : rj = l
    · exact Or.inl ⟨l, h1 ▸ ⟨ni, hri⟩, h2 ▸ ⟨nj, hrj⟩⟩
    · have e2 := rootOf_unique hj ⟨_, (merge_rootOfN hl hw hlw hrj).2 h2⟩
      have : rj = w := by rw [← e2, e1]
      exact Or.inr (Or.inl ⟨h1 ▸ ⟨ni, hri⟩, this ▸ ⟨nj, hrj⟩⟩)
  · have e1 := rootOf_unique hi ⟨_, (merge_rootOfN hl hw hlw hri).2 h1⟩
    by_cases h2 : rj = l
    · have e2 := rootOf_unique hj ⟨_, (merge_rootOfN hl hw hlw hrj).1 h2⟩
      have : ri = w := by rw [← e1, e2]
      exact Or.inr (Or.inr ⟨this ▸ ⟨ni, hri⟩, h2 ▸ ⟨nj, hrj⟩⟩)
    · have e2 := rootOf_unique hj ⟨_, (merge_rootOfN hl hw hlw hrj).2 h2⟩
      have : ri = rj := by rw [← e1, e2]
      exact Or.inl ⟨ri, ⟨ni, hri⟩, this ▸ ⟨nj, hrj⟩⟩

/-- A call of `per_point` only merges the class of `idx` with the class of the image: if the
classes before lie within an equivalence `R` that relates `idx` and the image, so do the
classes afterwards. -/
theorem per_point_sound {G : Type} (fuel : Nat) (canon : Int) (a_t : Nat) (pinv : Nat → Nat)
    (cb : Nat) (s : State G) (idx v' : Nat)
    (hok : node_ok fuel (s.nodes a_t)) (huf : uf_ok (s.nodes a_t))
    (hidx : idx < (s.nodes a_t).children.length)
    (hlo : cb ≤ pinv v') (hhi : pinv v' < (s.nodes a_t).pi.get_cell_end cb)
    (himg : pinv v' - cb < (s.nodes a_t).children.length)
    (R : Nat → Nat → Prop) (hR : Equivalence R) (hstep : R idx (pinv v' - cb))
    (hs : ∀ i j, same_class (s.nodes a_t).data.parent i j → R i j) (s' : State G)
    (hrun : per_point fuel canon a_t pinv cb s idx v' = .ok s') :
    ∀ i j, same_class (s'.nodes a_t).data.parent i j → R i j := by
  have hlp := huf.len_parent
  obtain ⟨r, r', p2, hr, hr', hc, hcase⟩ :=
    per_point_spec fuel canon a_t pinv cb s idx v' huf.forest
      (by rw [hlp]; exact hok.fuel_ok) (by rw [hlp]; exact hok.len_pruned) hlp.symm
      (by rw [hlp]; exact hidx) hlo hhi (by rw [hlp]; exact himg)
  have hrev : ∀ {i r0 : Nat}, RootOf p2 i r0 → RootOf (s.nodes a_t).data.parent i r0 :=
    fun h => compresses_rootOf_rev hc huf.forest h
  intro i j hij
  rcases hcase with ⟨_, hrun'⟩ | ⟨hrr, w, l, _, hwl, hrun'⟩
  · rw [hrun'] at hrun
    cases hrun
    rw [compress_result, set_node_nodes_self] at hij
    obtain ⟨r0, h1, h2⟩ := hij
    exact hs i j ⟨r0, hrev h1, hrev h2⟩
  · rw [hrun'] at hrun
    cases hrun
    rw [merge_result_data] at hij
    have hrroot := rootOf_root (compresses_rootOf hc hr)
    have hr'root := rootOf_root (compresses_rootOf hc hr')
    have hl : p2[l]? = some l := by
      rcases hwl with ⟨_, rfl⟩ | ⟨_, rfl⟩ <;> assumption
    have hw : p2[w]? = some w := by
      rcases hwl with ⟨rfl, _⟩ | ⟨rfl, _⟩ <;> assumption
    have hlw : l ≠ w := by
      rcases hwl with ⟨rfl, rfl⟩ | ⟨rfl, rfl⟩
      · exact Ne.symm hrr
      · exact hrr
    have key : ∀ {x y : Nat}, RootOf p2 x l → RootOf p2 y w → R x y := by
      intro x y hx hy
      rcases hwl with ⟨rfl, rfl⟩ | ⟨rfl, rfl⟩
      · have a1 : R x (pinv v' - cb) := hs _ _ ⟨_, hrev hx, hr'⟩
        have a2 : R idx y := hs _ _ ⟨_, hr, hrev hy⟩
        exact hR.trans a1 (hR.trans (hR.symm hstep) a2)
      · have a1 : R x idx := hs _ _ ⟨_, hrev hx, hr⟩
        have a2 : R (pinv v' - cb) y := hs _ _ ⟨_, hr', hrev hy⟩
        exact hR.trans a1 (hR.trans hstep a2)
    rcases merge_same_class hl hw hlw (compresses_forest hc huf.forest) hij with
      ⟨r0, h1, h2⟩ | ⟨h1, h2⟩ | ⟨h1, h2⟩
    · exact hs i j ⟨r0, hrev h1, hrev h2⟩
    · exact key h1 h2
    · exact hR.symm (key h2 h1)
/-- The scan of cell-preserving generators keeps the classes within an equivalence `R` that
relates every index of the cell to its image under every generator. -/
theorem scan_auts_sound {G : Type} (fuel : Nat) (canon : Int) (a_t : Nat) (s0 : State G)
    (auts : List Perm) (hok : node_ok fuel (s0.nodes a_t)) (huf : uf_ok (s0.nodes a_t))
    (hA : ∀ aut ∈ auts, maps_cell (s0.nodes a_t) aut)
    (R : Nat → Nat → Prop) (hR : Equivalence R)
    (hgen : ∀ aut ∈ auts, ∀ i, i < (s0.nodes a_t).children.length →
      R i (image_local (s0.nodes a_t) aut i))
    (hs : ∀ i j, same_class (s0.nodes a_t).data.parent i j → R i j) :
    ∃ s', scan_auts fuel canon a_t (s0.nodes a_t).pi.get (s0.nodes a_t).pi.get_inverse
        (s0.nodes a_t).child_refiner_cell (s0.nodes a_t).children.length auts s0 = .ok s' ∧
      ∀ i j, same_class (s'.nodes a_t).data.parent i j → R i j := by
  obtain ⟨s', hrun, ⟨_, _, _, h4⟩, _, _⟩ :=
    scan_auts_induct fuel canon a_t (s0.nodes a_t).pi.get (s0.nodes a_t).pi.get_inverse
      (s0.nodes a_t).child_refiner_cell (s0.nodes a_t).children.length
      (fun aut => maps_cell (s0.nodes a_t) aut ∧
        ∀ i, i < (s0.nodes a_t).children.length → R i (image_local (s0.nodes a_t) aut i))
      (fun s => node_ok fuel (s.nodes a_t) ∧ uf_ok (s.nodes a_t) ∧ scan_rel a_t canon s0 s ∧
        ∀ i j, same_class (s.nodes a_t).data.parent i j → R i j)
      (fun _ _ _ => True)
      (fun _ _ _ _ => trivial)
      (fun _ _ _ _ _ _ _ _ => trivial)
      (by
        intro aut j s hAa ⟨hok1, huf1, hrel, hs1⟩ _ hj _
        have hst := hrel.static a_t
        have hm := hAa.1 j hj
        have hk : 0 < (s0.nodes a_t).children.length := by omega
        have hidx : j < (s.nodes a_t).children.length := by rw [hst.children]; exact hj
        have hhi : (s0.nodes a_t).pi.get_inverse
            (aut ((s0.nodes a_t).pi.get (j + (s0.nodes a_t).child_refiner_cell))) <
            (s.nodes a_t).pi.get_cell_end (s0.nodes a_t).child_refiner_cell := by
          rw [hst.pi]; exact hm.2
        have himg : (s0.nodes a_t).pi.get_inverse
            (aut ((s0.nodes a_t).pi.get (j + (s0.nodes a_t).child_refiner_cell))) -
            (s0.nodes a_t).child_refiner_cell < (s.nodes a_t).children.length := by
          rw [hst.children]
          have := hok.cell_size hk
          have := hm.2
          omega
        obtain ⟨s', hrun, k1, k2, k3, _⟩ :=
          per_point_step fuel canon a_t (s0.nodes a_t).pi.get_inverse
            (s0.nodes a_t).child_refiner_cell s j
            (aut ((s0.nodes a_t).pi.get (j + (s0.nodes a_t).child_refiner_cell)))
            hok1 huf1 hidx hm.1 hhi himg
        refine ⟨s', hrun, ⟨k1, k2, scan_rel_trans hrel k3, ?_⟩, trivial, fun _ _ _ => trivial⟩
        exact per_point_sound fuel canon a_t (s0.nodes a_t).pi.get_inverse
          (s0.nodes a_t).child_refiner_cell s j
          (aut ((s0.nodes a_t).pi.get (j + (s0.nodes a_t).child_refiner_cell)))
          hok1 huf1 hidx hm.1 hhi himg R hR (hAa.2 j hj) hs1 s' hrun)
      auts s0 (fun aut ha => ⟨hA aut ha, hgen aut ha⟩) ⟨hok, huf, scan_rel_refl _ _ _, hs⟩
  exact ⟨s', hrun, h4⟩

theorem after_init_node_ok {G : Type} (fuel : Nat) (s : State G) (a_t : Nat)
    (hok : node_ok fuel (s.nodes a_t)) : node_ok fuel ((after_init s a_t).nodes a_t) := by
  have huf := after_init_uf_ok s a_t
  rw [after_init_node] at huf ⊢
  exact ⟨hok.len_pruned, hok.fuel_ok, hok.cell_size, Or.inr huf⟩

/-- A round at a fresh, unpruned node with a non-empty range of cell-preserving generators
reaches the scan: it returns what the scan returns, started in the state after the call of
`update`, the lazy initialization and the lambda `canon_child_local_idx`. -/
theorem process_node_fresh {G : Type} (d : Derived G) (fuel : Nat) (s : State G) (a_t : Nat)
    (hpr : (s.nodes a_t).is_pruned = false) (hne : (d.update s.g s.nodes a_t).1 ≠ [])
    (hfresh : (s.nodes a_t).data.parent = []) (hok : node_ok fuel (s.nodes a_t))
    (hupd : ∀ aut ∈ (d.update s.g s.nodes a_t).1, maps_cell (s.nodes a_t) aut)
    (hc : s.c_path ≠ [a_t]) :
    ∃ c s3 s', canon_child_local_idx (after_init (after_update d s a_t) a_t) a_t =
        .ok (c, s3) ∧
      scan_auts fuel c a_t (s3.nodes a_t).pi.get (s3.nodes a_t).pi.get_inverse
        (s3.nodes a_t).child_refiner_cell (s3.nodes a_t).children.length
        (d.update s.g s.nodes a_t).1 s3 = .ok s' ∧
      process_node d fuel s a_t = .ok (s', false) := by
  obtain ⟨c, s3, hcan⟩ := canon_child_local_idx_total
    (after_init (after_update d s a_t) a_t) a_t hc
  obtain ⟨hn3, _⟩ := canon_child_local_idx_spec hcan
  have hst : static_eq (s.nodes a_t) (s3.nodes a_t) := by
    rw [hn3]
    exact after_init_static (after_update d s a_t) a_t a_t
  have hok3 : node_ok fuel (s3.nodes a_t) := by
    rw [hn3]
    exact after_init_node_ok fuel (after_update d s a_t) a_t hok
  have huf3 : uf_ok (s3.nodes a_t) := by
    rw [hn3]
    exact after_init_uf_ok (after_update d s a_t) a_t
  obtain ⟨s', hscan, _⟩ := scan_auts_spec fuel c a_t s3 (d.update s.g s.nodes a_t).1 hok3 huf3
    (fun aut ha => maps_cell_congr hst (hupd aut ha))
  refine ⟨c, s3, s', hcan, hscan, ?_⟩
  have hemp : (d.update s.g s.nodes a_t).1.isEmpty = false := by
    cases h : (d.update s.g s.nodes a_t).1 with
    | nil => exact absurd h hne
    | cons _ _ => rfl
  have hpe : (s.nodes a_t).data.parent.isEmpty = true := by rw [hfresh]; rfl
  have hcan' := hcan
  have hscan' := hscan
  rw [hst.children] at hscan'
  unfold process_node
  rw [if_neg (by rw [hpr]; exact Bool.false_ne_true)]
  simp only [Bool.false_eq_true, if_false, hemp, hpe, if_true]
  simp only [after_init, after_update] at hcan'
  simp only [hcan', hscan']
theorem same_orbit_refl (sigmas : List (Equiv.Perm Nat)) (v : Nat) : same_orbit sigmas v v :=
  ⟨1, Subgroup.one_mem _, rfl⟩

theorem same_orbit_symm {sigmas : List (Equiv.Perm Nat)} {v w : Nat}
    (h : same_orbit sigmas v w) : same_orbit sigmas w v := by
  obtain ⟨g, hg, e⟩ := h
  refine ⟨g⁻¹, Subgroup.inv_mem _ hg, ?_⟩
  rw [← e]
  exact Equiv.Perm.inv_apply_self g v

theorem same_orbit_trans {sigmas : List (Equiv.Perm Nat)} {u v w : Nat}
    (h1 : same_orbit sigmas u v) (h2 : same_orbit sigmas v w) : same_orbit sigmas u w := by
  obtain ⟨g1, hg1, e1⟩ := h1
  obtain ⟨g2, hg2, e2⟩ := h2
  refine ⟨g2 * g1, Subgroup.mul_mem _ hg2 hg1, ?_⟩
  rw [Equiv.Perm.mul_apply, e1, e2]

theorem same_orbit_of_mem {sigmas : List (Equiv.Perm Nat)} {σ : Equiv.Perm Nat}
    (h : σ ∈ sigmas) (v : Nat) : same_orbit sigmas v (σ v) :=
  ⟨σ, Subgroup.subset_closure h, rfl⟩

/-- If every generator moves the vertices `V 0, ..., V (k - 1)` among themselves and within
the classes of an equivalence `S` on the indices, so does every element of the group the
generators generate. -/
theorem closure_moves_within {k : Nat} (V : Nat → Nat)
    (hV : ∀ i j, i < k → j < k → V i = V j → i = j) (S : Nat → Nat → Prop)
    (hrefl : ∀ i, i < k → S i i) (hsymm : ∀ i j, S i j → S j i)
    (htrans : ∀ i j l, S i j → S j l → S i l) (sigmas : List (Equiv.Perm Nat))
    (hgen : ∀ σ ∈ sigmas, ∀ i, i < k → ∃ i', i' < k ∧ σ (V i) = V i' ∧ S i i') :
    ∀ g ∈ Subgroup.closure {σ : Equiv.Perm Nat | σ ∈ sigmas},
      ∀ i, i < k → ∃ i', i' < k ∧ g (V i) = V i' ∧ S i i' := by
  intro g hg
  induction hg using Subgroup.closure_induction with
  | mem x hx => exact hgen x hx
  | one => exact fun i hi => ⟨i, hi, rfl, hrefl i hi⟩
  | mul x y _ _ ihx ihy =>
    intro i hi
    obtain ⟨j, hj, e1, s1⟩ := ihy i hi
    obtain ⟨l, hl, e2, s2⟩ := ihx j hj
    exact ⟨l, hl, by rw [Equiv.Perm.mul_apply, e1, e2], htrans _ _ _ s1 s2⟩
  | inv x _ ih =>
    intro i hi
    choose f hf using fun a : Fin k => ih a.1 a.2
    have hinj : Function.Injective (fun a : Fin k => (⟨f a, (hf a).1⟩ : Fin k)) := by
      intro a b hab
      have h1 : f a = f b := by simpa using congrArg Fin.val hab
      have h2 : x (V a.1) = x (V b.1) := by rw [(hf a).2.1, (hf b).2.1, h1]
      exact Fin.ext (hV _ _ a.2 b.2 (x.injective h2))
    obtain ⟨a, ha⟩ := Finite.injective_iff_surjective.1 hinj ⟨i, hi⟩
    have hfa : f a = i := by simpa using congrArg Fin.val ha
    refine ⟨a.1, a.2, ?_, ?_⟩
    · have := (hf a).2.1
      rw [hfa] at this
      rw [← this]
      exact Equiv.Perm.inv_apply_self x _
    · have := (hf a).2.2
      rw [hfa] at this
      exact hsymm _ _ this

/-- The vertex at the local index `image_local nd aut i` is the image under `aut` of the
vertex at the local index `i`. -/
theorem image_vertex {fuel : Nat} {nd : TreeNode} (hok : node_ok fuel nd) {aut : Perm}
    (hm : maps_cell nd aut) (honto : cell_onto nd) {i : Nat} (hi : i < nd.children.length) :
    image_local nd aut i < nd.children.length ∧
    nd.pi.get (nd.child_refiner_cell + image_local nd aut i) =
      aut (nd.pi.get (nd.child_refiner_cell + i)) := by
  have h := hm i hi
  have hcs := hok.cell_size (by omega)
  rw [hcs] at h
  unfold image_local
  constructor
  · omega
  · rw [Nat.add_sub_cancel' h.1, honto _ h.1 h.2, Nat.add_comm]
/-- C24: let `a_t` be unpruned with its union-find not yet materialized, let it satisfy the
node invariant (one `child_pruned` bit and one position of the target cell per child slot),
let `pi` be a bijection between the positions of the target cell and its vertices, and let
`update(state, a_t)` return a non-empty range of permutations `sigma_1 .. sigma_m` that map the
target cell to itself.  Then the round at `a_t` returns, and afterwards two local indices
`i, j < k` have the same union-find root if and only if `pi.get(cell_begin + j)` lies in the
orbit of `pi.get(cell_begin + i)` under the group generated by `sigma_1 .. sigma_m`; the scan
may have stopped early at `num_roots == 0`. -/
theorem classes_are_orbits {G : Type} (d : Derived G) (fuel : Nat) (s : State G) (a_t : Nat)
    (sigmas : List (Equiv.Perm Nat))
    (hpr : (s.nodes a_t).is_pruned = false) (hfresh : (s.nodes a_t).data.parent = [])
    (hok : node_ok fuel (s.nodes a_t))
    (hupd : (d.update s.g s.nodes a_t).1 = sigmas.map (fun σ v => σ v))
    (hne : sigmas ≠ [])
    (hcell : ∀ σ ∈ sigmas, maps_cell (s.nodes a_t) (fun v => σ v))
    (hbij : cell_bijective (s.nodes a_t)) (honto : cell_onto (s.nodes a_t))
    (hc : s.c_path ≠ [a_t]) :
    ∃ s', process_node d fuel s a_t = .ok (s', false) ∧
      ∀ i j, i < (s.nodes a_t).children.length → j < (s.nodes a_t).children.length →
        (same_class (s'.nodes a_t).data.parent i j ↔
          same_orbit sigmas ((s.nodes a_t).pi.get ((s.nodes a_t).child_refiner_cell + i))
            ((s.nodes a_t).pi.get ((s.nodes a_t).child_refiner_cell + j))) := by
  have hne' : (d.update s.g s.nodes a_t).1 ≠ [] := by
    rw [hupd]
    cases sigmas with
    | nil => exact absurd rfl hne
    | cons _ _ => exact List.cons_ne_nil _ _
  have hmaps : ∀ aut ∈ (d.update s.g s.nodes a_t).1, maps_cell (s.nodes a_t) aut := by
    intro aut ha
    rw [hupd] at ha
    obtain ⟨σ, hσ, rfl⟩ := List.mem_map.1 ha
    exact hcell σ hσ
  obtain ⟨c, s3, s', hcan, hscan, hproc⟩ :=
    process_node_fresh d fuel s a_t hpr hne' hfresh hok hmaps hc
  obtain ⟨hn3, _⟩ := canon_child_local_idx_spec hcan
  have hnode3 : s3.nodes a_t = { s.nodes a_t with data := { (s.nodes a_t).data with
      parent := List.range (s.nodes a_t).children.length
      num_roots := ((s.nodes a_t).children.length : Int) - 1 } } := by
    rw [hn3]
    exact after_init_node (after_update d s a_t) a_t
  have hst : static_eq (s.nodes a_t) (s3.nodes a_t) := by
    rw [hnode3]
    exact ⟨rfl, rfl, rfl, rfl, rfl, rfl, rfl⟩
  have hok3 : node_ok fuel (s3.nodes a_t) := by
    rw [hn3]
    exact after_init_node_ok fuel (after_update d s a_t) a_t hok
  have huf3 : uf_ok (s3.nodes a_t) := by
    rw [hn3]
    exact after_init_uf_ok (after_update d s a_t) a_t
  have hmaps3 : ∀ aut ∈ (d.update s.g s.nodes a_t).1, maps_cell (s3.nodes a_t) aut :=
    fun aut ha => maps_cell_congr hst (hmaps aut ha)
  have honto3 : cell_onto (s3.nodes a_t) := by
    unfold cell_onto at honto ⊢
    rw [hst.children, hst.pi, hst.child_refiner_cell]
    exact honto
  have hbij3 : cell_bijective (s3.nodes a_t) := cell_bijective_congr hst hbij
  -- the vertices of the cell and the orbit relation on the local indices
  have hV : ∀ i j, i < (s3.nodes a_t).children.length → j < (s3.nodes a_t).children.length →
      (s3.nodes a_t).pi.get ((s3.nodes a_t).child_refiner_cell + i) =
        (s3.nodes a_t).pi.get ((s3.nodes a_t).child_refiner_cell + j) → i = j := by
    intro i j hi hj e
    have := congrArg (s3.nodes a_t).pi.get_inverse e
    rw [hbij3 i hi, hbij3 j hj] at this
    omega
  have hR : Equivalence (fun i j => same_orbit sigmas
      ((s3.nodes a_t).pi.get ((s3.nodes a_t).child_refiner_cell + i))
      ((s3.nodes a_t).pi.get ((s3.nodes a_t).child_refiner_cell + j))) :=
    ⟨fun _ => same_orbit_refl _ _, fun h => same_orbit_symm h,
      fun h1 h2 => same_orbit_trans h1 h2⟩
  have hgen : ∀ aut ∈ (d.update s.g s.nodes a_t).1, ∀ i,
      i < (s3.nodes a_t).children.length →
      same_orbit sigmas ((s3.nodes a_t).pi.get ((s3.nodes a_t).child_refiner_cell + i))
        ((s3.nodes a_t).pi.get
          ((s3.nodes a_t).child_refiner_cell + image_local (s3.nodes a_t) aut i)) := by
    intro aut ha i hi
    rw [(image_vertex hok3 (hmaps3 aut ha) honto3 hi).2]
    rw [hupd] at ha
    obtain ⟨σ, hσ, rfl⟩ := List.mem_map.1 ha
    exact same_orbit_of_mem hσ _
  have hinit : ∀ i j, same_class (s3.nodes a_t).data.parent i j →
      same_orbit sigmas ((s3.nodes a_t).pi.get ((s3.nodes a_t).child_refiner_cell + i))
        ((s3.nodes a_t).pi.get ((s3.nodes a_t).child_refiner_cell + j)) := by
    intro i j ⟨r, hi, hj⟩
    have hpar : (s3.nodes a_t).data.parent = List.range (s.nodes a_t).children.length := by
      rw [hnode3]
    rw [hpar] at hi hj
    have hil : i < (s.nodes a_t).children.length := by
      obtain ⟨n, hn⟩ := hi
      have := rootOfN_lt hn
      rwa [List.length_range] at this
    have hjl : j < (s.nodes a_t).children.length := by
      obtain ⟨n, hn⟩ := hj
      have := rootOfN_lt hn
      rwa [List.length_range] at this
    have e1 := rootOf_unique hi (rootOf_self (List.getElem?_range hil))
    have e2 := rootOf_unique hj (rootOf_self (List.getElem?_range hjl))
    have : i = j := by rw [← e1, ← e2]
    rw [this]
    exact same_orbit_refl _ _
  obtain ⟨s1, hscan1, hsound⟩ := scan_auts_sound fuel c a_t s3 (d.update s.g s.nodes a_t).1
    hok3 huf3 hmaps3 _ hR hgen hinit
  obtain ⟨s2, hscan2, hok', huf', hrel, hcompl⟩ :=
    scan_auts_spec fuel c a_t s3 (d.update s.g s.nodes a_t).1 hok3 huf3 hmaps3
  rw [hscan] at hscan1 hscan2
  cases hscan1
  cases hscan2
  refine ⟨s', hproc, ?_⟩
  intro i j hi hj
  rw [← hst.children] at hi hj
  rw [← hst.pi, ← hst.child_refiner_cell]
  have hst' := hrel.static a_t
  have hlen' : (s'.nodes a_t).data.parent.length = (s3.nodes a_t).children.length := by
    rw [huf'.len_parent, hst'.children]
  have hself : ∀ x, x < (s3.nodes a_t).children.length →
      same_class (s'.nodes a_t).data.parent x x := by
    intro x hx
    obtain ⟨r, hr⟩ := huf'.forest x (by rw [hlen']; exact hx)
    exact ⟨r, hr, hr⟩
  constructor
  · exact hsound i j
  · rintro ⟨g, hg, e⟩
    rcases hcompl with hcompl | hz
    · have hgen' : ∀ σ ∈ sigmas, ∀ x, x < (s3.nodes a_t).children.length →
          ∃ x', x' < (s3.nodes a_t).children.length ∧
            σ ((s3.nodes a_t).pi.get ((s3.nodes a_t).child_refiner_cell + x)) =
              (s3.nodes a_t).pi.get ((s3.nodes a_t).child_refiner_cell + x') ∧
            same_class (s'.nodes a_t).data.parent x x' := by
        intro σ hσ x hx
        have ha : (fun v => σ v) ∈ (d.update s.g s.nodes a_t).1 := by
          rw [hupd]
          exact List.mem_map.2 ⟨σ, hσ, rfl⟩
        have hiv := image_vertex hok3 (hmaps3 _ ha) honto3 hx
        refine ⟨image_local (s3.nodes a_t) (fun v => σ v) x, hiv.1, hiv.2.symm, ?_⟩
        by_cases hmv : (s3.nodes a_t).pi.get (x + (s3.nodes a_t).child_refiner_cell) =
            σ ((s3.nodes a_t).pi.get (x + (s3.nodes a_t).child_refiner_cell))
        · have : image_local (s3.nodes a_t) (fun v => σ v) x = x := by
            unfold image_local
            show (s3.nodes a_t).pi.get_inverse
              (σ ((s3.nodes a_t).pi.get (x + (s3.nodes a_t).child_refiner_cell))) -
              (s3.nodes a_t).child_refiner_cell = x
            rw [← hmv, Nat.add_comm, hbij3 x hx]
            omega
          rw [this]
          exact hself x hx
        · exact hcompl _ ha x hx hmv
      obtain ⟨i', hi', e', hcl⟩ := closure_moves_within
        (fun x => (s3.nodes a_t).pi.get ((s3.nodes a_t).child_refiner_cell + x)) hV
        (same_class (s'.nodes a_t).data.parent) hself (fun _ _ h => same_class_symm h)
        (fun _ _ _ h1 h2 => same_class_trans h1 h2) sigmas hgen' g hg i hi
      have : i' = j := hV i' j hi' hj (e'.symm.trans e)
      rw [← this]
      exact hcl
    · have hone : count_roots (s'.nodes a_t).data.parent = 1 := by
        have := huf'.count
        rw [hz] at this
        exact_mod_cast this.symm
      obtain ⟨ri, hri⟩ := huf'.forest i (by rw [hlen']; exact hi)
      obtain ⟨rj, hrj⟩ := huf'.forest j (by rw [hlen']; exact hj)
      have : ri = rj := count_roots_one hone (rootOf_root hri) (rootOf_root hrj)
      exact ⟨ri, hri, this ▸ hrj⟩
theorem ex_root_onto : cell_onto ((ex_state 6).nodes 0) := by
  intro v _ _
  show list_fn [0, 1, 2] (list_fn [0, 1, 2] v) = v
  match v with
  | 0 | 1 | 2 => rfl
  | _ + 3 => rfl

theorem ex_sigmas_maps_cell :
    ∀ σ ∈ ex_sigmas, maps_cell ((ex_state 6).nodes 0) (fun v => σ v) := by
  intro σ h
  have h0 : σ = Equiv.swap 0 1 := List.mem_singleton.1 h
  subst h0
  unfold maps_cell
  decide

theorem classes_are_orbits_witness :
    ∃ s', process_node (ex_derived (fun _ => true) ex_sigma_auts) 3 (ex_state 6) 0 =
        .ok (s', false) ∧
      ∀ i j, i < ((ex_state 6).nodes 0).children.length →
        j < ((ex_state 6).nodes 0).children.length →
        (same_class (s'.nodes 0).data.parent i j ↔
          same_orbit ex_sigmas
            (((ex_state 6).nodes 0).pi.get (((ex_state 6).nodes 0).child_refiner_cell + i))
            (((ex_state 6).nodes 0).pi.get (((ex_state 6).nodes 0).child_refiner_cell + j))) :=
  classes_are_orbits (ex_derived (fun _ => true) ex_sigma_auts) 3 (ex_state 6) 0 ex_sigmas
    rfl rfl (ex_nodes_ok 0) rfl (List.cons_ne_nil _ _) ex_sigmas_maps_cell ex_root_bijective
    ex_root_onto (by decide)

theorem classes_are_orbits_example :
    node_view (tree_before_descend (ex_derived (fun _ => true) ex_sigma_auts) 3 (ex_state 6) 0)
      0 = some ([1, 1, 2], 1, [true, false, false]) := by
  decide

end GraphCanon
